import Mathlib

/-!
# Document links of compose files: reference decoders, ranges and paths

A shallow embedding of `internal/compose/documentLink.go` and
`internal/types/common.go`.

* A Go `string` is a sequence of bytes.  It is modelled as `List Char`, one
  list element per byte, so `len s` is `s.length` and `s[i:j]` is a sublist.
* Go `int` values (indices, lengths, token positions) are modelled as `Int`;
  `strings.Index` and `strings.LastIndex` keep their `-1` for "not found".
* A slice expression whose bounds are out of range panics in Go; the model
  returns `none` there and `some _` otherwise.
* `protocol.UInteger` is `uint32`: a conversion keeps the low 32 bits.
-/

namespace DockerLS

/-- A Go string: its bytes, in order. -/
abbrev GoString := List Char

/-! ## Go standard library: package `strings` -/

namespace strings

/-- `strings.HasPrefix(s, prefix)`. -/
def HasPrefix (s pre : GoString) : Bool := pre.isPrefixOf s

/-- `strings.HasSuffix(s, suffix)`. -/
def HasSuffix (s suf : GoString) : Bool := suf.isSuffixOf s

/-- Scan for the first occurrence of `sub`; `i` is the index of the head of
the remaining text. -/
def indexFrom (sub : GoString) : GoString → Int → Int
  | [], i => if sub.isPrefixOf [] then i else -1
  | c :: cs, i => if sub.isPrefixOf (c :: cs) then i else indexFrom sub cs (i + 1)

/-- `strings.Index(s, substr)`: index of the first occurrence, or `-1`. -/
def Index (s sub : GoString) : Int := indexFrom sub s 0

/-- Scan for the last occurrence of `sub`; `acc` is the last match seen so
far. -/
def lastIndexFrom (sub : GoString) : GoString → Int → Int → Int
  | [], i, acc => if sub.isPrefixOf [] then i else acc
  | c :: cs, i, acc =>
      lastIndexFrom sub cs (i + 1) (if sub.isPrefixOf (c :: cs) then i else acc)

/-- `strings.LastIndex(s, substr)`: index of the last occurrence, or `-1`. -/
def LastIndex (s sub : GoString) : Int := lastIndexFrom sub s 0 (-1)

/-- `strings.Contains(s, substr)`. -/
def Contains (s sub : GoString) : Bool := decide (Index s sub ≠ -1)

/-- `strings.TrimPrefix(s, prefix)`. -/
def TrimPrefix (s pre : GoString) : GoString :=
  if HasPrefix s pre then s.drop pre.length else s

/-- The left-to-right scan of `strings.ReplaceAll` for a non-empty `old`;
`skip` counts the bytes of a matched occurrence still to pass over. -/
def replaceAllFrom (old new : GoString) : GoString → Nat → GoString
  | [], _ => []
  | _ :: cs, skip + 1 => replaceAllFrom old new cs skip
  | c :: cs, 0 =>
      if old.isPrefixOf (c :: cs) then new ++ replaceAllFrom old new cs (old.length - 1)
      else c :: replaceAllFrom old new cs 0

/-- `strings.ReplaceAll(s, old, new)` for a non-empty `old`: the
non-overlapping occurrences of `old`, left to right, become `new`. -/
def ReplaceAll (s old new : GoString) : GoString := replaceAllFrom old new s 0

/-- The left-to-right scan of `strings.Split` for a non-empty `sep`; `cur` is
the piece being read and `skip` counts the bytes of a matched separator still
to pass over. -/
def splitFrom (sep : GoString) : GoString → Nat → GoString → List GoString
  | [], _, cur => [cur]
  | _ :: cs, skip + 1, cur => splitFrom sep cs skip cur
  | c :: cs, 0, cur =>
      if sep.isPrefixOf (c :: cs) then cur :: splitFrom sep cs (sep.length - 1) []
      else splitFrom sep cs 0 (cur ++ [c])

/-- `strings.Split(s, sep)` for a non-empty `sep`: the pieces of `s` between
the occurrences of `sep`. -/
def Split (s sep : GoString) : List GoString := splitFrom sep s 0 []

end strings

/-- The slice expression `s[lo:hi]`; `none` stands for the run-time panic on
bounds that are out of range. -/
def slice (s : GoString) (lo hi : Int) : Option GoString :=
  if 0 ≤ lo ∧ lo ≤ hi ∧ hi ≤ (s.length : Int) then
    some ((s.drop lo.toNat).take (hi.toNat - lo.toNat))
  else none

/-- The slice expression `s[lo:]`. -/
def sliceFrom (s : GoString) (lo : Int) : Option GoString :=
  slice s lo s.length

/-! ## Tokens and ranges -/

/-- The kinds of `token.Type` (goccy/go-yaml) that scalars and keys carry. -/
inductive TokenType
  | StringType
  | SingleQuoteType
  | DoubleQuoteType
  | MappingKeyType
  | AnchorType
  | AliasType
  | OtherType
  deriving DecidableEq, Repr

/-- `token.Position`: 1-based line and column. -/
structure TokenPosition where
  Line : Int
  Column : Int
  deriving DecidableEq, Repr

/-- `token.Token`: kind (the field `Type`, a reserved word here), unquoted
value and position. -/
structure Token where
  Typ : TokenType
  Value : GoString
  Position : TokenPosition
  deriving DecidableEq, Repr

namespace protocol

/-- The conversion `protocol.UInteger(x)` of an `int` to `uint32`: the low 32
bits.  Machine `int` arithmetic wraps modulo a multiple of `2^32`, so it is
the residue of the exact result. -/
def UInteger (x : Int) : Nat := (x % 2 ^ 32).toNat

/-- `protocol.Position`. -/
structure Position where
  Line : Nat
  Character : Nat
  deriving DecidableEq, Repr

/-- `protocol.Range`. -/
structure Range where
  Start : Position
  End : Position
  deriving DecidableEq, Repr

end protocol

/-- `createRange` of `documentLink.go`. -/
def createRange (t : Token) (length : Int) : protocol.Range :=
  let offset : Int := if t.Typ = TokenType.DoubleQuoteType then 1 else 0
  { Start :=
      { Line := protocol.UInteger (t.Position.Line - 1)
        Character := protocol.UInteger (t.Position.Column + offset - 1) }
    End :=
      { Line := protocol.UInteger (t.Position.Line - 1)
        Character := protocol.UInteger (t.Position.Column + offset + length - 1) } }

/-- A token on line `2^32 + 1`, a line number that a Go `int` holds and a
`uint32` does not. -/
def farLineToken : Token :=
  { Typ := TokenType.StringType, Value := "x".toList, Position := { Line := 4294967297, Column := 1 } }

/-! ## Reference decoders -/

/-- `extractNonDockerHubImageLink` of `documentLink.go`; `fmt.Sprintf("%v%v", a, b)`
on strings is concatenation. -/
def extractNonDockerHubImageLink (nodeValue pfx uriPrefix : GoString) (startIndex : Nat) :
    Option (GoString × GoString) :=
  if (nodeValue.length : Int) ≤ (pfx.length : Int) + 1 then some ([], [])
  else
    let idx := strings.LastIndex nodeValue ":".toList
    let lastSlashIdx := strings.LastIndex nodeValue "/".toList
    if (idx ≠ -1 ∧ lastSlashIdx > idx) ∨ strings.Index nodeValue "/".toList = lastSlashIdx then
      some ([], [])
    else if idx = -1 then
      (sliceFrom nodeValue startIndex).bind fun rest =>
        some (nodeValue, uriPrefix ++ rest)
    else
      (slice nodeValue 0 idx).bind fun name =>
        (slice nodeValue startIndex idx).bind fun rest =>
          some (name, uriPrefix ++ rest)

/-- The Docker Hub rule shared by the tails of `extractImageLink` and
`extractModelLink`. -/
def dockerHubLink (nodeValue : GoString) : Option (GoString × GoString) :=
  let idx := strings.LastIndex nodeValue ":".toList
  if idx = -1 then
    let idx := strings.Index nodeValue "/".toList
    if idx = -1 then
      some (nodeValue, "https://hub.docker.com/_/".toList ++ nodeValue)
    else
      some (nodeValue, "https://hub.docker.com/r/".toList ++ nodeValue)
  else
    let slashIndex := strings.Index nodeValue "/".toList
    if slashIndex = -1 then
      (slice nodeValue 0 idx).bind fun name =>
        some (name, "https://hub.docker.com/_/".toList ++ name)
    else
      (slice nodeValue 0 idx).bind fun name =>
        some (name, "https://hub.docker.com/r/".toList ++ name)

/-- `extractImageLink` of `documentLink.go`. -/
def extractImageLink (nodeValue : GoString) : Option (GoString × GoString) :=
  if strings.HasPrefix nodeValue "ghcr.io".toList then
    extractNonDockerHubImageLink nodeValue "ghcr.io".toList "https://".toList 0
  else if strings.HasPrefix nodeValue "mcr.microsoft.com".toList then
    if (nodeValue.length : Int) ≤ 18 then some ([], [])
    else
      let idx := strings.LastIndex nodeValue ":".toList
      if idx = 17 then some ([], [])
      else
        let lastSlashIdx := strings.LastIndex nodeValue "/".toList
        if lastSlashIdx = idx - 1 ∨ (idx ≠ -1 ∧ lastSlashIdx > idx) then some ([], [])
        else if idx = -1 then
          (sliceFrom nodeValue 18).bind fun rest =>
            some (nodeValue, "https://mcr.microsoft.com/artifact/mar/".toList ++ rest)
        else
          (slice nodeValue 0 idx).bind fun name =>
            (slice nodeValue 18 idx).bind fun rest =>
              some (name, "https://mcr.microsoft.com/artifact/mar/".toList ++ rest)
  else if strings.HasPrefix nodeValue "quay.io".toList then
    extractNonDockerHubImageLink nodeValue "quay.io".toList "https://quay.io/repository/".toList 8
  else
    dockerHubLink nodeValue

/-- `extractModelLink` of `documentLink.go`. -/
def extractModelLink (nodeValue : GoString) : Option (GoString × GoString) :=
  if strings.HasPrefix nodeValue "hf.co".toList then
    if (nodeValue.length : Int) ≤ 6 then some ([], [])
    else
      let idx := strings.LastIndex nodeValue ":".toList
      if idx = -1 then
        some (nodeValue, "https://".toList ++ nodeValue)
      else
        (slice nodeValue 0 idx).bind fun name =>
          some (name, "https://".toList ++ name)
  else
    dockerHubLink nodeValue

/-! ## Go standard library: packages `path` and `path/filepath` -/

namespace path

/-- Where the scan of `Clean` stands: at the start of a path element, inside
the loop that copies a real element, or on the second dot of a `..` element
(the `r += 2` of the source is two steps of one byte). -/
inductive Mode
  | atElem
  | copying
  | secondDot
  deriving DecidableEq, Repr

/-- The backtrack of a `..` element: `out.w--`, then
`for out.w > dotdot && out.index(out.w) != '/' { out.w-- }`.  The buffer is
kept last byte first. -/
def backtrack : List Char → Nat → List Char
  | [], _ => []
  | c :: rest, dotdot => if rest.length > dotdot ∧ c ≠ '/' then backtrack rest dotdot else rest

/-- The main loop `for r < n` of `path.Clean`, one byte of `path[r:]` at a
time; `out` is the written part of the buffer, last byte first, and
`out.length` is `out.w`. -/
def cleanLoop (rooted : Bool) : GoString → Mode → List Char → Nat → List Char
  | [], _, out, _ => out
  | _ :: rest, Mode.secondDot, out, dotdot => cleanLoop rooted rest Mode.atElem out dotdot
  | c :: rest, Mode.copying, out, dotdot =>
      if c = '/' then cleanLoop rooted rest Mode.atElem out dotdot
      else cleanLoop rooted rest Mode.copying (c :: out) dotdot
  | c :: rest, Mode.atElem, out, dotdot =>
      if c = '/' then
        -- empty path element
        cleanLoop rooted rest Mode.atElem out dotdot
      else if c = '.' ∧ (rest = [] ∨ rest.head? = some '/') then
        -- . element
        cleanLoop rooted rest Mode.atElem out dotdot
      else if c = '.' ∧ rest.head? = some '.' ∧
          (rest.tail = [] ∨ rest.tail.head? = some '/') then
        -- .. element: remove to last /
        if out.length > dotdot then
          cleanLoop rooted rest Mode.secondDot (backtrack out dotdot) dotdot
        else if !rooted then
          let out1 := if out.length > 0 then '/' :: out else out
          cleanLoop rooted rest Mode.secondDot ('.' :: '.' :: out1) (out1.length + 2)
        else
          cleanLoop rooted rest Mode.secondDot out dotdot
      else
        -- real path element: add slash if needed, then copy the element
        let out1 :=
          if (rooted && out.length != 1) || (!rooted && out.length != 0) then '/' :: out
          else out
        cleanLoop rooted rest Mode.copying (c :: out1) dotdot

/-- `path.Clean(path)`. -/
def Clean (path : GoString) : GoString :=
  if path = [] then ".".toList
  else
    let out :=
      if path.head? = some '/' then cleanLoop true path.tail Mode.atElem ['/'] 1
      else cleanLoop false path Mode.atElem [] 0
    if out.length = 0 then ".".toList else out.reverse

/-- The buffer that `path.Join` fills before cleaning it. -/
def joinBuf : List GoString → GoString → GoString
  | [], buf => buf
  | e :: es, buf =>
      if buf.length > 0 ∨ e ≠ [] then
        joinBuf es ((if buf.length > 0 then buf ++ ['/'] else buf) ++ e)
      else joinBuf es buf

/-- `path.Join(elem...)`. -/
def Join (elem : List GoString) : GoString :=
  if (elem.map List.length).sum = 0 then [] else Clean (joinBuf elem [])

end path

/-! Package `path/filepath` as built for a Unix target, where the separator
is the slash: `Join` and `Clean` agree with package `path`, and `ToSlash` and
`FromSlash` leave the text as it is. -/

namespace filepath

/-- `filepath.Join(elem...)`. -/
def Join (elem : List GoString) : GoString := path.Join elem

/-- `filepath.ToSlash(path)`. -/
def ToSlash (p : GoString) : GoString := p

/-- `filepath.FromSlash(path)`. -/
def FromSlash (p : GoString) : GoString := p

/-- `filepath.IsAbs(path)`. -/
def IsAbs (p : GoString) : Bool := strings.HasPrefix p "/".toList

end filepath

/-! ## Path resolver and file links -/

/-- `Concatenate` of `common.go`; `fmt.Sprintf("file:///%v", x)` is
concatenation. -/
def Concatenate (folder file : GoString) (wslDollarSign : Bool) : GoString × GoString :=
  if wslDollarSign then
    ("file://wsl%24".toList ++
        path.Join [strings.ReplaceAll folder "\\".toList "/".toList, file],
      "\\\\wsl$".toList ++
        strings.ReplaceAll (path.Join [folder, file]) "/".toList "\\".toList)
  else
    let abs := filepath.ToSlash (filepath.Join [folder, file])
    ("file:///".toList ++ strings.TrimPrefix abs "/".toList, filepath.FromSlash abs)

/-- `protocol.DocumentLink`; the string pointers `Target` and `Tooltip` are
options. -/
structure DocumentLink where
  Range : protocol.Range
  Target : Option GoString
  Tooltip : Option GoString
  deriving DecidableEq, Repr

/-- `createLink` of `documentLink.go`. -/
def createLink (folderAbsolutePath : GoString) (wslDollarSign : Bool) (node : Token) :
    DocumentLink :=
  let file := node.Value
  let r := Concatenate folderAbsolutePath file wslDollarSign
  { Range := createRange node file.length
    Target := some r.1
    Tooltip := some r.2 }

/-- `createLocalFileLink` of `documentLink.go`. -/
def createLocalFileLink (folderAbsolutePath fsPath : GoString) (wslDollarSign : Bool) :
    GoString × GoString :=
  if filepath.IsAbs fsPath then
    ("file:///".toList ++ strings.TrimPrefix (filepath.ToSlash fsPath) "/".toList, fsPath)
  else
    Concatenate folderAbsolutePath fsPath wslDollarSign

/-! ## The YAML tree (goccy/go-yaml, package `ast`)

The nodes that the extractors look at.  Every node carries the token that
`GetToken()` returns.  `resolveAnchor`, which the extractors call before they
look at a node, is defined elsewhere in package `compose`; every function
that calls it takes it as its first argument. -/

/-- `ast.StringNode`: a string scalar with its token and its value. -/
structure StringNode where
  Token : Token
  Value : GoString
  deriving DecidableEq, Repr

mutual
/-- `ast.Node`: the variants that the type switches of the extractors tell
apart; `Other` stands for every other kind of node (numbers, booleans, null,
and so on). -/
inductive Node
  | String (s : StringNode)
  | Mapping (Start : Token) (Values : List MappingValueNode)
  | MappingValue (mv : MappingValueNode)
  | Sequence (Start : Token) (Values : List Node)
  | Alias (Start : Token) (Value : Node)
  | Anchor (Start : Token) (Name : Node) (Value : Node)
  | Other (Start : Token)
/-- `ast.MappingValueNode`: one `key: value` entry. -/
inductive MappingValueNode
  | mk (Start : Token) (Key : Node) (Value : Node)
end

/-- `MappingValueNode.Start`. -/
def MappingValueNode.Start : MappingValueNode → Token
  | MappingValueNode.mk t _ _ => t

/-- `MappingValueNode.Key`. -/
def MappingValueNode.Key : MappingValueNode → Node
  | MappingValueNode.mk _ k _ => k

/-- `MappingValueNode.Value`. -/
def MappingValueNode.Value : MappingValueNode → Node
  | MappingValueNode.mk _ _ v => v

/-- `Node.GetToken()`. -/
def Node.GetToken : Node → Token
  | Node.String s => s.Token
  | Node.Mapping t _ => t
  | Node.MappingValue mv => mv.Start
  | Node.Sequence t _ => t
  | Node.Alias t _ => t
  | Node.Anchor t _ _ => t
  | Node.Other t => t

/-- Modelled from the spec: the Anchor Resolver `resolveAnchor`, whose source
is missing.  "If the input is an Alias, returns the node bound to the
matching Anchor elsewhere in the document; otherwise returns the input
unchanged."  The anchors of the document are given as a table from anchor
name to bound node; an alias without a matching anchor stays as it is. -/
def resolveAnchorIn (anchors : List (GoString × Node)) (n : Node) : Node :=
  match n with
  | Node.Alias _ name =>
      match anchors.find? (fun a => a.1 = name.GetToken.Value) with
      | some a => a.2
      | none => n
  | _ => n

/-- `stringNode` of `documentLink.go`. -/
def stringNode (resolveAnchor : Node → Node) (value : Node) : Option StringNode :=
  match resolveAnchor value with
  | Node.String s => some s
  | _ => none

/-! ## Document symbols (`documentSymbol.go`) -/

namespace protocol

/-- `protocol.SymbolKind`, the six kinds in use: `File` 1, `Module` 2,
`Class` 5, `Interface` 11, `Variable` 13, `Key` 20. -/
inductive SymbolKind
  | File
  | Module
  | Class
  | Interface
  | Variable
  | Key
  deriving DecidableEq, Repr

/-- `protocol.DocumentSymbol`. -/
structure DocumentSymbol where
  Name : GoString
  Kind : SymbolKind
  Range : protocol.Range
  SelectionRange : protocol.Range
  deriving DecidableEq, Repr

end protocol

/-- The map `symbolKinds` of `documentSymbol.go`; a key that is not in the map
gives `none`. -/
def symbolKinds (key : GoString) : Option protocol.SymbolKind :=
  if key = "services".toList then some protocol.SymbolKind.Class
  else if key = "networks".toList then some protocol.SymbolKind.Interface
  else if key = "volumes".toList then some protocol.SymbolKind.File
  else if key = "configs".toList then some protocol.SymbolKind.Variable
  else if key = "secrets".toList then some protocol.SymbolKind.Key
  else if key = "models".toList then some protocol.SymbolKind.Module
  else none

/-- `createSymbol` of `documentSymbol.go`; `uint32(x)` is the conversion that
`protocol.UInteger` names. -/
def createSymbol (t : Token) (kind : protocol.SymbolKind) : protocol.DocumentSymbol :=
  let rng : protocol.Range :=
    { Start :=
        { Line := protocol.UInteger (t.Position.Line - 1)
          Character := protocol.UInteger (t.Position.Column - 1) }
      End :=
        { Line := protocol.UInteger (t.Position.Line - 1)
          Character := protocol.UInteger (t.Position.Column - 1 + (t.Value.length : Int)) } }
  { Name := t.Value, Kind := kind, Range := rng, SelectionRange := rng }

/-- `includedFiles` of `documentSymbol.go`. -/
def includedFiles (resolveAnchor : Node → Node) (nodes : List Node) : List Token :=
  nodes.flatMap fun entry =>
    match resolveAnchor entry with
    | Node.Mapping _ values =>
        values.flatMap fun value =>
          if (resolveAnchor value.Key).GetToken.Value = "path".toList then
            match resolveAnchor value.Value with
            | Node.Sequence _ paths => paths.map fun path => (resolveAnchor path).GetToken
            | _ => [(resolveAnchor value.Value).GetToken]
          else []
    | _ =>
        match stringNode resolveAnchor entry with
        | some s => [s.Token]
        | none => []

/-- `findSymbols` of `documentSymbol.go`; the result holds the symbols that
the source appends, in order. -/
def findSymbols (resolveAnchor : Node → Node) (value : GoString) (n : MappingValueNode)
    (mapping : GoString → Option protocol.SymbolKind) : List protocol.DocumentSymbol :=
  match mapping value with
  | some kind =>
      match n.Value with
      | Node.Mapping _ values => values.map fun service => createSymbol service.Key.GetToken kind
      | Node.MappingValue mv => [createSymbol mv.Key.GetToken kind]
      | _ => []
  | none =>
      if value = "include".toList then
        match n.Value with
        | Node.Sequence _ values =>
            (includedFiles resolveAnchor values).map fun token =>
              createSymbol token protocol.SymbolKind.Module
        | _ => []
      else []

/-! ## The document (`document.ComposeDocument`), at its boundary -/

/-- A Go `error`: its message. -/
abbrev GoError := GoString

/-- `document.DocumentPath`: the folder of the document and the WSL flag. -/
structure DocumentPath where
  Folder : GoString
  WSLDollarSignHost : Bool
  deriving DecidableEq, Repr

/-- `ast.DocumentNode`: one YAML document of the file; `Body` may be nil. -/
structure DocumentNode where
  Body : Option Node

/-- `ast.File`. -/
structure File where
  Docs : List DocumentNode

/-- `document.ComposeDocument`, as the results of the two methods that the
extractors call: `DocumentPath()` and `File()`. -/
structure ComposeDocument where
  DocumentPath : Except GoError DocumentPath
  File : Option File

namespace compose

/-- `DocumentSymbol` of `documentSymbol.go`: the symbols and the error; a nil
slice is the empty list. -/
def DocumentSymbol (resolveAnchor : Node → Node) (doc : ComposeDocument) :
    List protocol.DocumentSymbol × Option GoError :=
  match doc.File with
  | none => ([], none)
  | some file =>
      if file.Docs.length = 0 then ([], none)
      else
        (file.Docs.flatMap fun documentNode =>
          match documentNode.Body with
          | some (Node.Mapping _ values) =>
              values.flatMap fun n =>
                match n.Key with
                | Node.String s => findSymbols resolveAnchor s.Value n symbolKinds
                | _ => []
          | _ => [], none)

end compose

/-! ## Document links (`documentLink.go`), the walk over the tree

`format.ParseVolume` (compose-go), `os.Stat` and `volumeToken` (defined
elsewhere in package `compose`) are taken as parameters. -/

/-- The type assertion `node.(*ast.AliasNode)`. -/
def Node.isAlias : Node → Bool
  | Node.Alias _ _ => true
  | _ => false

/-- `types.ServiceVolumeConfig` (compose-go): the two fields in use. -/
structure ServiceVolumeConfig where
  Typ : GoString
  Source : GoString
  deriving DecidableEq, Repr

/-- `os.FileInfo`: whether the file is a directory (`IsDir()`) and whether it
is a regular file (`Mode().IsRegular()`). -/
structure FileInfo where
  IsDir : Bool
  IsRegular : Bool
  deriving DecidableEq, Repr

/-- A loop whose body may panic, appending what each round yields. -/
def appendAll {α β : Type} (f : α → Option (List β)) : List α → Option (List β)
  | [] => some []
  | a :: as => (f a).bind fun r => (appendAll f as).bind fun rs => some (r ++ rs)

/-- `createFileLink` of `documentLink.go`; `none` is the nil link. -/
def createFileLink (resolveAnchor : Node → Node) (folderAbsolutePath : GoString)
    (wslDollarSign : Bool) (serviceNode : MappingValueNode) : Option DocumentLink :=
  match stringNode resolveAnchor serviceNode.Value with
  | some attributeValue => some (createLink folderAbsolutePath wslDollarSign attributeValue.Token)
  | none => none

/-- `createdNestedLink` of `documentLink.go`. -/
def createdNestedLink (resolveAnchor : Node → Node) (folderAbsolutePath : GoString)
    (wslDollarSign : Bool) (serviceNode : MappingValueNode) (parent child : GoString) :
    Option DocumentLink :=
  if (resolveAnchor serviceNode.Key).GetToken.Value = parent then
    match resolveAnchor serviceNode.Value with
    | Node.Mapping _ values =>
        match values.find? fun buildAttribute =>
            decide ((resolveAnchor buildAttribute.Key).GetToken.Value = child) with
        | some buildAttribute =>
            createFileLink resolveAnchor folderAbsolutePath wslDollarSign buildAttribute
        | none => none
    | _ => none
  else none

/-- `createImageLink` of `documentLink.go`.  The outer `none` is the panic of
a slice out of range in the decoder, the inner `none` the nil link. -/
def createImageLink (resolveAnchor : Node → Node) (serviceNode : MappingValueNode) :
    Option (Option DocumentLink) :=
  if (resolveAnchor serviceNode.Key).GetToken.Value = "image".toList then
    match stringNode resolveAnchor serviceNode.Value with
    | some service =>
        (extractImageLink service.Value).bind fun r =>
          if r.1 ≠ [] then
            some (some
              { Range := createRange service.Token r.1.length
                Target := some r.2
                Tooltip := some r.2 })
          else some none
    | none => some none
  else some none

/-- `createFileLinks` of `documentLink.go`. -/
def createFileLinks (resolveAnchor : Node → Node) (folderAbsolutePath : GoString)
    (wslDollarSign : Bool) (serviceNode : MappingValueNode) (attributeName : GoString) :
    List DocumentLink :=
  if (resolveAnchor serviceNode.Key).GetToken.Value = attributeName then
    match resolveAnchor serviceNode.Value with
    | Node.Sequence _ values =>
        values.flatMap fun node =>
          match resolveAnchor node with
          | Node.String s => [createLink folderAbsolutePath wslDollarSign s.Token]
          | _ => []
    | _ =>
        match createFileLink resolveAnchor folderAbsolutePath wslDollarSign serviceNode with
        | some link => [link]
        | none => []
  else []

/-- The body of the loop of `createVolumeFileLinks` for one element of the
sequence. -/
def volumeEntryLinks (resolveAnchor : Node → Node)
    (ParseVolume : GoString → Option ServiceVolumeConfig)
    (Stat : GoString → Option FileInfo) (volumeToken : Token → Token)
    (folderAbsolutePath : GoString) (wslDollarSign : Bool) (node : Node) : List DocumentLink :=
  match resolveAnchor node with
  | Node.String s =>
      match ParseVolume s.Token.Value with
      | some config =>
          if config.Typ = "bind".toList then
            let r := createLocalFileLink folderAbsolutePath config.Source wslDollarSign
            match Stat r.2 with
            | some info =>
                if !info.IsDir then
                  let t := volumeToken s.Token
                  [{ Range := createRange t t.Value.length
                     Target := some r.1
                     Tooltip := some r.2 }]
                else []
            | none => []
          else []
      | none => []
  | _ => []

/-- `createVolumeFileLinks` of `documentLink.go`. -/
def createVolumeFileLinks (resolveAnchor : Node → Node)
    (ParseVolume : GoString → Option ServiceVolumeConfig)
    (Stat : GoString → Option FileInfo) (volumeToken : Token → Token)
    (folderAbsolutePath : GoString) (wslDollarSign : Bool) (serviceNode : MappingValueNode) :
    List DocumentLink :=
  if (resolveAnchor serviceNode.Key).GetToken.Value = "volumes".toList then
    match resolveAnchor serviceNode.Value with
    | Node.Sequence _ values =>
        values.flatMap
          (volumeEntryLinks resolveAnchor ParseVolume Stat volumeToken folderAbsolutePath
            wslDollarSign)
    | _ => []
  else []

/-- `createObjectFileLink` of `documentLink.go`. -/
def createObjectFileLink (resolveAnchor : Node → Node) (folderAbsolutePath : GoString)
    (wslDollarSign : Bool) (serviceNode : MappingValueNode) : Option DocumentLink :=
  if (resolveAnchor serviceNode.Key).GetToken.Value = "file".toList then
    createFileLink resolveAnchor folderAbsolutePath wslDollarSign serviceNode
  else none

/-- `createModelLink` of `documentLink.go`; the two levels of `none` are
those of `createImageLink`. -/
def createModelLink (resolveAnchor : Node → Node) (serviceNode : MappingValueNode) :
    Option (Option DocumentLink) :=
  if (resolveAnchor serviceNode.Key).GetToken.Value = "model".toList then
    match stringNode resolveAnchor serviceNode.Value with
    | some service =>
        (extractModelLink service.Value).bind fun r =>
          if r.1 ≠ [] then
            some (some
              { Range := createRange service.Token r.1.length
                Target := some r.2
                Tooltip := some r.2 })
          else some none
    | none => some none
  else some none

/-- `includedPaths` of `documentLink.go`. -/
def includedPaths (resolveAnchor : Node → Node) (nodes : List Node) : List Token :=
  nodes.flatMap fun entry =>
    match resolveAnchor entry with
    | Node.Mapping _ values =>
        values.flatMap fun value =>
          let attributeName := (resolveAnchor value.Key).GetToken.Value
          if attributeName = "path".toList ∨ attributeName = "env_file".toList then
            match resolveAnchor value.Value with
            | Node.Sequence _ paths =>
                paths.flatMap fun path =>
                  if !path.isAlias then [(resolveAnchor path).GetToken] else []
            | _ =>
                if !value.Value.isAlias then [(resolveAnchor value.Value).GetToken] else []
          else []
    | _ =>
        match stringNode resolveAnchor entry with
        | some s => [s.Token]
        | none => []

/-- The body of the innermost loop of the `services` case of `scanForLinks`:
the links of one attribute of one service. -/
def serviceAttributeLinks (resolveAnchor : Node → Node)
    (ParseVolume : GoString → Option ServiceVolumeConfig)
    (Stat : GoString → Option FileInfo) (volumeToken : Token → Token)
    (folderAbsolutePath : GoString) (wslDollarSign : Bool)
    (serviceAttribute : MappingValueNode) : Option (List DocumentLink) :=
  (createImageLink resolveAnchor serviceAttribute).bind fun link =>
    some (link.toList ++
      (createdNestedLink resolveAnchor folderAbsolutePath wslDollarSign serviceAttribute
        "build".toList "dockerfile".toList).toList ++
      (createdNestedLink resolveAnchor folderAbsolutePath wslDollarSign serviceAttribute
        "credential_spec".toList "file".toList).toList ++
      (createdNestedLink resolveAnchor folderAbsolutePath wslDollarSign serviceAttribute
        "extends".toList "file".toList).toList ++
      createFileLinks resolveAnchor folderAbsolutePath wslDollarSign serviceAttribute
        "env_file".toList ++
      createFileLinks resolveAnchor folderAbsolutePath wslDollarSign serviceAttribute
        "label_file".toList ++
      createVolumeFileLinks resolveAnchor ParseVolume Stat volumeToken folderAbsolutePath
        wslDollarSign serviceAttribute)

/-- The loops of `scanForLinks` over the named entries of a section and
their attributes: `body` gives the links of one attribute. -/
def entryAttributeLinks (resolveAnchor : Node → Node)
    (body : MappingValueNode → Option (List DocumentLink)) (value : Node) :
    Option (List DocumentLink) :=
  match resolveAnchor value with
  | Node.Mapping _ values =>
      appendAll (fun node =>
        match resolveAnchor node.Value with
        | Node.Mapping _ attributes => appendAll body attributes
        | _ => some []) values
  | _ => some []

/-- `scanForLinks` of `documentLink.go`; the nil slice is the empty list and
`none` is a panic. -/
def scanForLinks (resolveAnchor : Node → Node)
    (ParseVolume : GoString → Option ServiceVolumeConfig)
    (Stat : GoString → Option FileInfo) (volumeToken : Token → Token)
    (folderAbsolutePath : GoString) (wslDollarSign : Bool) (n : MappingValueNode) :
    Option (List DocumentLink) :=
  match resolveAnchor n.Key with
  | Node.String s =>
      if s.Value = "include".toList then
        match resolveAnchor n.Value with
        | Node.Sequence _ values =>
            some ((includedPaths resolveAnchor values).map
              (createLink folderAbsolutePath wslDollarSign))
        | _ => some []
      else if s.Value = "services".toList then
        entryAttributeLinks resolveAnchor
          (serviceAttributeLinks resolveAnchor ParseVolume Stat volumeToken folderAbsolutePath
            wslDollarSign) n.Value
      else if s.Value = "configs".toList then
        entryAttributeLinks resolveAnchor
          (fun configAttribute => some
            (createObjectFileLink resolveAnchor folderAbsolutePath wslDollarSign
              configAttribute).toList) n.Value
      else if s.Value = "secrets".toList then
        entryAttributeLinks resolveAnchor
          (fun configAttribute => some
            (createObjectFileLink resolveAnchor folderAbsolutePath wslDollarSign
              configAttribute).toList) n.Value
      else if s.Value = "models".toList then
        entryAttributeLinks resolveAnchor
          (fun serviceAttribute =>
            (createModelLink resolveAnchor serviceAttribute).bind fun link =>
              some link.toList) n.Value
      else some []
  | _ => some []

namespace compose

/-- `DocumentLink` of `documentLink.go`: the links and the error; a nil slice
is the empty list and `none` is a panic. -/
def DocumentLink (resolveAnchor : Node → Node)
    (ParseVolume : GoString → Option ServiceVolumeConfig)
    (Stat : GoString → Option FileInfo) (volumeToken : Token → Token)
    (_documentURI : GoString) (doc : ComposeDocument) :
    Option (List DockerLS.DocumentLink × Option GoError) :=
  match doc.DocumentPath with
  | Except.error err => some ([], some err)
  | Except.ok d =>
      match doc.File with
      | none => some ([], none)
      | some file =>
          if file.Docs.length = 0 then some ([], none)
          else
            (appendAll (fun documentNode =>
              match documentNode.Body with
              | some (Node.Mapping _ values) =>
                  appendAll
                    (scanForLinks resolveAnchor ParseVolume Stat volumeToken d.Folder
                      d.WSLDollarSignHost) values
              | _ => some []) file.Docs).bind fun links => some (links, none)

end compose

/-! ## Workspace folders and Docker Hub images (`common.go`) -/

/-- The loop of `WorkspaceFolder` over the workspace folders: the state is
`length` and `candidate`. -/
def longestFolder (parsedPath : GoString) :
    List GoString → Int × GoString → Int × GoString
  | [], state => state
  | workspaceFolder :: rest, state =>
      longestFolder parsedPath rest
        (if strings.HasPrefix parsedPath workspaceFolder then
          if state.1 < (workspaceFolder.length : Int) then
            ((workspaceFolder.length : Int), workspaceFolder)
          else state
        else state)

/-- `WorkspaceFolder` of `common.go`.  `url.Parse` of the standard library is
taken as a parameter: `urlParse` gives the `Path` of the parsed URL, or
`none` when parsing fails.  The result is (folder, absolutePath,
relativePath), and `none` is the panic of a slice out of range. -/
def WorkspaceFolder (urlParse : GoString → Option GoString) (documentURI : GoString)
    (workspaceFolders : List GoString) : Option (GoString × GoString × GoString) :=
  match urlParse documentURI with
  | none => some ([], documentURI, [])
  | some parsedPath =>
      let state := longestFolder parsedPath workspaceFolders (0, [])
      let length := state.1
      let candidate := state.2
      if strings.HasSuffix candidate "/".toList then
        (sliceFrom parsedPath length).bind fun relativePath =>
          some (candidate, parsedPath, relativePath)
      else
        (sliceFrom parsedPath (length + 1)).bind fun relativePath =>
          some (candidate, parsedPath, relativePath)

/-- `HubRepositoryImage` of `common.go`: (repository, image, tag); `none` is
the panic of an index or a slice out of range. -/
def HubRepositoryImage (imageValue : GoString) : Option (GoString × GoString × GoString) :=
  -- ignore images with a SHA digest
  if strings.Contains imageValue "@".toList then some ([], [], [])
  else
    -- ignore images in another repository
    let slashIndex := strings.Index imageValue "/".toList
    if slashIndex ≠ strings.LastIndex imageValue "/".toList then some ([], [], [])
    else
      -- ignore images without an explicit tag
      let idx := strings.Index imageValue ":".toList
      if idx = -1 then some ([], [], [])
      else
        (slice imageValue 0 idx).bind fun head =>
          let split := strings.Split head "/".toList
          (sliceFrom imageValue (idx + 1)).bind fun tag =>
            if split.length = 1 then
              split[0]?.bind fun image => some ("library".toList, image, tag)
            else
              split[0]?.bind fun repository =>
                split[1]?.bind fun image => some (repository, image, tag)

/-! ## Example nodes -/

/-- A plain (unquoted) token. -/
def plainToken (v : String) (line col : Int) : Token :=
  { Typ := TokenType.StringType, Value := v.toList, Position := { Line := line, Column := col } }

/-- A double-quoted token; `v` is the text between the quotes. -/
def quotedToken (v : String) (line col : Int) : Token :=
  { Typ := TokenType.DoubleQuoteType, Value := v.toList,
    Position := { Line := line, Column := col } }

/-- A plain string scalar. -/
def plainScalar (v : String) (line col : Int) : Node :=
  Node.String { Token := plainToken v line col, Value := v.toList }

/-- The entry `key: value`; its own token is that of the key. -/
def entryOf (key value : Node) : MappingValueNode :=
  MappingValueNode.mk key.GetToken key value

/-- The section `services:` with the two services `web` and `db`, each with
an `image` attribute. -/
def servicesWebDb : MappingValueNode :=
  entryOf (plainScalar "services" 1 1)
    (Node.Mapping (plainToken "web" 2 3)
      [entryOf (plainScalar "web" 2 3)
          (Node.MappingValue (entryOf (plainScalar "image" 3 5) (plainScalar "nginx:1.25" 3 12))),
        entryOf (plainScalar "db" 4 3)
          (Node.MappingValue (entryOf (plainScalar "image" 5 5) (plainScalar "postgres" 5 12)))])

/-- A document whose path cannot be determined and that has no parsed
file. -/
def pathlessDocument : ComposeDocument :=
  { DocumentPath := Except.error "no path".toList, File := none }

/-- The attribute `volumes:` of a service with the one element
`/var/run/docker.sock:/var/run/docker.sock`. -/
def dockerSockVolumes : MappingValueNode :=
  entryOf (plainScalar "volumes" 4 5)
    (Node.Sequence (plainToken "-" 5 7)
      [plainScalar "/var/run/docker.sock:/var/run/docker.sock" 5 9])

/-- A mount-spec parser that reads every element as a bind mount of the
socket `/var/run/docker.sock`. -/
def parseSockBind (_ : GoString) : Option ServiceVolumeConfig :=
  some { Typ := "bind".toList, Source := "/var/run/docker.sock".toList }

/-- A file system in which every path is a socket: the status check succeeds
and reports neither a directory nor a regular file. -/
def statSocket (_ : GoString) : Option FileInfo :=
  some { IsDir := false, IsRegular := false }

/-- A `volumeToken` that gives the source part of the socket mount. -/
def sockSourceToken (t : Token) : Token :=
  { t with Value := "/var/run/docker.sock".toList }

/-- The include entry `env_file: a.env`, as a mapping. -/
def includeEnvFile : Node :=
  Node.Mapping (plainToken "env_file" 2 5)
    [entryOf (plainScalar "env_file" 2 5) (plainScalar "a.env" 2 15)]

/-- The include entry `path: [*p]`: a sequence under `path` whose element is
an alias. -/
def includePathAlias : Node :=
  Node.Mapping (plainToken "path" 2 5)
    [entryOf (plainScalar "path" 2 5)
      (Node.Sequence (plainToken "-" 3 7)
        [Node.Alias (plainToken "*" 3 9) (plainScalar "p" 3 10)])]

/-- The include entry `path: [a.yaml, b.yaml]`. -/
def includePathPair : Node :=
  Node.Mapping (plainToken "path" 2 5)
    [entryOf (plainScalar "path" 2 5)
      (Node.Sequence (plainToken "-" 3 7)
        [plainScalar "a.yaml" 3 9, plainScalar "b.yaml" 4 9])]

/-- The mapping of a section with the one service `web`, written on the
given line, whose attributes are a mapping with the one attribute `image:`
of the given value, on the next line. -/
def serviceWeb (line : Int) (image : Node) : Node :=
  Node.Mapping (plainToken "web" line 3)
    [entryOf (plainScalar "web" line 3)
      (Node.Mapping (plainToken "image" (line + 1) 5)
        [entryOf (plainScalar "image" (line + 1) 5) image])]

/-- The anchors of the example documents: `&img` bound to the scalar
`nginx:1.25`, `&p` to the scalar `a.yaml`, `&svc` to a mapping with the
services `web` and `db`, `&inc` to the sequence `[abc.yml]`, and `&stack` to
the mapping with the service `web` of line 2 and the image `nginx:1.25`. -/
def exampleAnchors : List (GoString × Node) :=
  [("img".toList, plainScalar "nginx:1.25" 1 12),
    ("p".toList, plainScalar "a.yaml" 1 20),
    ("svc".toList, servicesWebDb.Value),
    ("inc".toList, Node.Sequence (plainToken "-" 2 3) [plainScalar "abc.yml" 2 5]),
    ("stack".toList, serviceWeb 2 (plainScalar "nginx:1.25" 3 12))]

/-- The alias `*name`. -/
def aliasOf (name : String) (line col : Int) : Node :=
  Node.Alias (plainToken "*" line col) (plainScalar name line (col + 1))

/-- The section `include:` with the given value. -/
def includeSection (value : Node) : MappingValueNode :=
  entryOf (plainScalar "include" 5 1) value

/-- A decoded pair (name, url) fits the value `v`: the name is empty, `v`
itself, or `v` cut just before its last colon, and a name that is not empty
comes with a URL that starts with `https://`. -/
def decodedFrom (v name url : GoString) : Prop :=
  (name = [] ∨ name = v ∨ ∃ tag : GoString, v = name ++ ':' :: tag ∧ ':' ∉ tag) ∧
    (name ≠ [] → ∃ rest : GoString, url = "https://".toList ++ rest)

mutual
/-- The node `y` is the node `x` written at another place: the same kind of
node with the same text in every token and the same children, at positions
that may differ. -/
inductive Node.sameText : Node → Node → Prop
  | string (s s2 : StringNode) : s.Value = s2.Value → s.Token.Value = s2.Token.Value →
      Node.sameText (Node.String s) (Node.String s2)
  | mapping (t t2 : Token) (vs vs2 : List MappingValueNode) : t.Value = t2.Value →
      sameTextEntries vs vs2 → Node.sameText (Node.Mapping t vs) (Node.Mapping t2 vs2)
  | mappingValue (mv mv2 : MappingValueNode) : MappingValueNode.sameText mv mv2 →
      Node.sameText (Node.MappingValue mv) (Node.MappingValue mv2)
  | sequence (t t2 : Token) (vs vs2 : List Node) : t.Value = t2.Value →
      sameTextNodes vs vs2 → Node.sameText (Node.Sequence t vs) (Node.Sequence t2 vs2)
  | aliasTo (t t2 : Token) (x x2 : Node) : t.Value = t2.Value → Node.sameText x x2 →
      Node.sameText (Node.Alias t x) (Node.Alias t2 x2)
  | anchor (t t2 : Token) (n n2 x x2 : Node) : t.Value = t2.Value → Node.sameText n n2 →
      Node.sameText x x2 → Node.sameText (Node.Anchor t n x) (Node.Anchor t2 n2 x2)
  | other (t t2 : Token) : t.Value = t2.Value → Node.sameText (Node.Other t) (Node.Other t2)
/-- The entry `y` is the entry `x` written at another place. -/
inductive MappingValueNode.sameText : MappingValueNode → MappingValueNode → Prop
  | mk (st st2 : Token) (k k2 v v2 : Node) : st.Value = st2.Value → Node.sameText k k2 →
      Node.sameText v v2 →
      MappingValueNode.sameText (MappingValueNode.mk st k v) (MappingValueNode.mk st2 k2 v2)
/-- The nodes of two lists are pairwise the same at another place. -/
inductive sameTextNodes : List Node → List Node → Prop
  | nil : sameTextNodes [] []
  | cons (x y : Node) (xs ys : List Node) : Node.sameText x y → sameTextNodes xs ys →
      sameTextNodes (x :: xs) (y :: ys)
/-- The entries of two lists are pairwise the same at another place. -/
inductive sameTextEntries : List MappingValueNode → List MappingValueNode → Prop
  | nil : sameTextEntries [] []
  | cons (x y : MappingValueNode) (xs ys : List MappingValueNode) :
      MappingValueNode.sameText x y → sameTextEntries xs ys →
      sameTextEntries (x :: xs) (y :: ys)
end

/-- Whether a text has two consecutive dots anywhere, so also whether any of
its path elements is `..`. -/
def containsDotDot : GoString → Bool
  | [] => false
  | c :: rest => (c == '.' && rest.head? == some '.') || containsDotDot rest

/-! ## Facts about the index functions for a one-byte needle -/

namespace strings

theorem single_isPrefixOf_cons (c d : Char) (ds : GoString) :
    [c].isPrefixOf (d :: ds) = (c == d) := by
  simp [List.isPrefixOf]

theorem indexFrom_of_not_mem (c : Char) :
    ∀ (s : GoString) (i : Int), c ∉ s → indexFrom [c] s i = -1
  | [], _, _ => by simp [indexFrom, List.isPrefixOf]
  | d :: ds, i, h => by
      have hd : c ≠ d := fun e => h (by simp [e])
      have hds : c ∉ ds := fun e => h (List.mem_cons_of_mem _ e)
      simp [indexFrom, single_isPrefixOf_cons, hd, indexFrom_of_not_mem c ds (i + 1) hds]

theorem indexFrom_append_cons (c : Char) :
    ∀ (a b : GoString) (i : Int), c ∉ a → indexFrom [c] (a ++ c :: b) i = i + a.length
  | [], b, i, _ => by simp [indexFrom, single_isPrefixOf_cons]
  | d :: ds, b, i, h => by
      have hd : c ≠ d := fun e => h (by simp [e])
      have hds : c ∉ ds := fun e => h (List.mem_cons_of_mem _ e)
      simp [indexFrom, single_isPrefixOf_cons, hd, indexFrom_append_cons c ds b (i + 1) hds]
      omega

theorem lastIndexFrom_of_not_mem (c : Char) :
    ∀ (s : GoString) (i acc : Int), c ∉ s → lastIndexFrom [c] s i acc = acc
  | [], _, _, _ => by simp [lastIndexFrom, List.isPrefixOf]
  | d :: ds, i, acc, h => by
      have hd : c ≠ d := fun e => h (by simp [e])
      have hds : c ∉ ds := fun e => h (List.mem_cons_of_mem _ e)
      simp [lastIndexFrom, single_isPrefixOf_cons, hd, lastIndexFrom_of_not_mem c ds (i + 1) acc hds]

theorem lastIndexFrom_append_cons (c : Char) :
    ∀ (a b : GoString) (i acc : Int), c ∉ b →
      lastIndexFrom [c] (a ++ c :: b) i acc = i + a.length
  | [], b, i, acc, h => by
      simp [lastIndexFrom, single_isPrefixOf_cons, lastIndexFrom_of_not_mem c b (i + 1) i h]
  | d :: ds, b, i, acc, h => by
      show lastIndexFrom [c] (ds ++ c :: b) (i + 1) _ = i + ((ds.length + 1 : Nat) : Int)
      rw [lastIndexFrom_append_cons c ds b (i + 1) _ h]
      push_cast
      omega

/-- The first occurrence of a byte splits the text. -/
theorem exists_first (c : Char) :
    ∀ s : GoString, c ∈ s → ∃ a b, s = a ++ c :: b ∧ c ∉ a
  | [], h => by simp at h
  | d :: ds, h => by
      by_cases hd : c = d
      · exact ⟨[], ds, by simp [hd], by simp⟩
      · have hds : c ∈ ds := by
          rcases List.mem_cons.mp h with e | e
          · exact absurd e hd
          · exact e
        obtain ⟨a, b, hab, ha⟩ := exists_first c ds hds
        refine ⟨d :: a, b, by simp [hab], ?_⟩
        intro hm
        rcases List.mem_cons.mp hm with e | e
        · exact hd e
        · exact ha e

/-- The last occurrence of a byte splits the text. -/
theorem exists_last (c : Char) :
    ∀ s : GoString, c ∈ s → ∃ a b, s = a ++ c :: b ∧ c ∉ b
  | [], h => by simp at h
  | d :: ds, h => by
      by_cases hds : c ∈ ds
      · obtain ⟨a, b, hab, hb⟩ := exists_last c ds hds
        exact ⟨d :: a, b, by simp [hab], hb⟩
      · have hd : c = d := by
          rcases List.mem_cons.mp h with e | e
          · exact e
          · exact absurd e hds
        exact ⟨[], ds, by simp [hd], hds⟩

theorem Index_of_not_mem (c : Char) (s : GoString) (h : c ∉ s) : Index s [c] = -1 :=
  indexFrom_of_not_mem c s 0 h

theorem Index_append_cons (c : Char) (a b : GoString) (h : c ∉ a) :
    Index (a ++ c :: b) [c] = a.length := by
  simp [Index, indexFrom_append_cons c a b 0 h]

theorem LastIndex_of_not_mem (c : Char) (s : GoString) (h : c ∉ s) : LastIndex s [c] = -1 :=
  lastIndexFrom_of_not_mem c s 0 (-1) h

theorem LastIndex_append_cons (c : Char) (a b : GoString) (h : c ∉ b) :
    LastIndex (a ++ c :: b) [c] = a.length := by
  simp [LastIndex, lastIndexFrom_append_cons c a b 0 (-1) h]

theorem Index_eq_neg_one_iff (c : Char) (s : GoString) : Index s [c] = -1 ↔ c ∉ s := by
  constructor
  · intro h hm
    obtain ⟨a, b, hab, ha⟩ := exists_first c s hm
    rw [hab, Index_append_cons c a b ha] at h
    omega
  · exact Index_of_not_mem c s

theorem LastIndex_eq_neg_one_iff (c : Char) (s : GoString) : LastIndex s [c] = -1 ↔ c ∉ s := by
  constructor
  · intro h hm
    obtain ⟨a, b, hab, hb⟩ := exists_last c s hm
    rw [hab, LastIndex_append_cons c a b hb] at h
    omega
  · exact LastIndex_of_not_mem c s

end strings

/-- A slice from the start that ends inside the text is a `take`. -/
theorem slice_zero_append (a b : GoString) :
    slice (a ++ b) 0 (a.length : Int) = some a := by
  simp [slice]

/-! ## Ranges -/

theorem UInteger_of_lt (x : Int) (h0 : 0 ≤ x) (h1 : x < 2 ^ 32) :
    ((protocol.UInteger x : Nat) : Int) = x := by
  unfold protocol.UInteger
  rw [Int.emod_eq_of_lt h0 h1]
  exact Int.toNat_of_nonneg h0

/-- C1, as stated, fails: on line `2^32 + 1` (column 1, length 1) the
conversion to `uint32` keeps the low 32 bits and the range starts on line 0,
not on line `2^32`. -/
theorem createRange_far_line_wraps :
    1 ≤ farLineToken.Position.Line ∧ 1 ≤ farLineToken.Position.Column ∧
      (createRange farLineToken 1).Start.Line = 0 ∧
      ((createRange farLineToken 1).Start.Line : Int) ≠ farLineToken.Position.Line - 1 := by
  decide

/-- C1, amended: for a token on 1-based line `L ≥ 1`, column `C ≥ 1` and a
length `N ≥ 0` whose 0-based line and end character fit the 32-bit unsigned
positions of the protocol, `createRange` gives start and end line `L - 1`,
start character `C - 1` (`C` for a double-quoted token) and end character
start plus `N`. -/
theorem createRange_spec (t : Token) (N : Int)
    (hL : 1 ≤ t.Position.Line) (hC : 1 ≤ t.Position.Column) (hN : 0 ≤ N)
    (hLmax : t.Position.Line - 1 < 2 ^ 32)
    (hCmax : t.Position.Column + (if t.Typ = TokenType.DoubleQuoteType then 1 else 0) + N - 1
      < 2 ^ 32) :
    ((createRange t N).Start.Line : Int) = t.Position.Line - 1 ∧
    ((createRange t N).End.Line : Int) = t.Position.Line - 1 ∧
    ((createRange t N).Start.Character : Int) =
      (if t.Typ = TokenType.DoubleQuoteType then t.Position.Column
        else t.Position.Column - 1) ∧
    ((createRange t N).End.Character : Int) = ((createRange t N).Start.Character : Int) + N := by
  have hline := UInteger_of_lt (t.Position.Line - 1) (by omega) hLmax
  by_cases hq : t.Typ = TokenType.DoubleQuoteType
  · simp only [hq, if_true] at hCmax
    have hs := UInteger_of_lt (t.Position.Column + 1 - 1) (by omega) (by omega)
    have he := UInteger_of_lt (t.Position.Column + 1 + N - 1) (by omega) (by omega)
    simp only [createRange, hq, if_true, hline, hs, he]
    refine ⟨trivial, trivial, ?_, ?_⟩ <;> omega
  · simp only [hq, if_false] at hCmax
    have hs := UInteger_of_lt (t.Position.Column + 0 - 1) (by omega) (by omega)
    have he := UInteger_of_lt (t.Position.Column + 0 + N - 1) (by omega) (by omega)
    simp only [createRange, hq, if_false, hline, hs, he]
    refine ⟨trivial, trivial, ?_, ?_⟩ <;> omega

/-- A double-quoted scalar on line 3, column 10, of length 5: the range is
line 2, characters 10 to 15. -/
theorem createRange_spec_witness :
    ((createRange ⟨TokenType.DoubleQuoteType, "nginx".toList, ⟨3, 10⟩⟩ 5).Start.Line : Int) = 3 - 1 ∧
    ((createRange ⟨TokenType.DoubleQuoteType, "nginx".toList, ⟨3, 10⟩⟩ 5).End.Line : Int) = 3 - 1 ∧
    ((createRange ⟨TokenType.DoubleQuoteType, "nginx".toList, ⟨3, 10⟩⟩ 5).Start.Character : Int) = 10 ∧
    ((createRange ⟨TokenType.DoubleQuoteType, "nginx".toList, ⟨3, 10⟩⟩ 5).End.Character : Int) =
      ((createRange ⟨TokenType.DoubleQuoteType, "nginx".toList, ⟨3, 10⟩⟩ 5).Start.Character : Int) + 5 :=
  createRange_spec ⟨TokenType.DoubleQuoteType, "nginx".toList, ⟨3, 10⟩⟩ 5
    (by decide) (by decide) (by decide) (by decide) (by decide)

/-! ## Reference decoders: the Docker Hub rule -/

theorem colon_toList : ":".toList = [':'] := rfl

theorem slash_toList : "/".toList = ['/'] := rfl

theorem slice_zero_length_append (n rest : GoString) :
    slice (n ++ rest) 0 (n.length : Int) = some n := slice_zero_append n rest

/-- The Docker Hub rule on a value without a colon. -/
theorem dockerHubLink_no_colon (v : GoString) (hc : ':' ∉ v) :
    dockerHubLink v =
      if '/' ∈ v then some (v, "https://hub.docker.com/r/".toList ++ v)
      else some (v, "https://hub.docker.com/_/".toList ++ v) := by
  have h1 : strings.LastIndex v [':'] = -1 := strings.LastIndex_of_not_mem ':' v hc
  by_cases hs : '/' ∈ v
  · have h2 : strings.Index v ['/'] ≠ -1 := fun e => (strings.Index_eq_neg_one_iff '/' v).mp e hs
    simp [dockerHubLink, colon_toList, slash_toList, h1, h2, hs]
  · have h2 : strings.Index v ['/'] = -1 := strings.Index_of_not_mem '/' v hs
    simp [dockerHubLink, colon_toList, slash_toList, h1, h2, hs]

/-- The Docker Hub rule on a value cut at its last colon. -/
theorem dockerHubLink_colon (n tag : GoString) (ht : ':' ∉ tag) :
    dockerHubLink (n ++ ':' :: tag) =
      if '/' ∈ n ++ ':' :: tag then some (n, "https://hub.docker.com/r/".toList ++ n)
      else some (n, "https://hub.docker.com/_/".toList ++ n) := by
  have h1 : strings.LastIndex (n ++ ':' :: tag) [':'] = n.length :=
    strings.LastIndex_append_cons ':' n tag ht
  have h0 : ((n.length : Int) = -1) = False := by
    apply eq_false; omega
  by_cases hs : '/' ∈ n ++ ':' :: tag
  · have h2 : strings.Index (n ++ ':' :: tag) ['/'] ≠ -1 :=
      fun e => (strings.Index_eq_neg_one_iff '/' _).mp e hs
    simp only [dockerHubLink, colon_toList, slash_toList, h1, h0, h2, if_false,
      slice_zero_length_append, Option.bind, if_pos hs]
  · have h2 : strings.Index (n ++ ':' :: tag) ['/'] = -1 := strings.Index_of_not_mem '/' _ hs
    simp only [dockerHubLink, colon_toList, slash_toList, h1, h0, h2, if_false, if_true,
      slice_zero_length_append, Option.bind, if_neg hs]

/-- C2: a value that does not start with `ghcr.io`, `mcr.microsoft.com` or
`quay.io` follows the Docker Hub rule: without colon and slash it links
itself under `/_/`, with a slash and no colon under `/r/`; with a colon the
name is the value cut just before its last colon, linked under `/_/` when the
value has no slash and under `/r/` when it has one. -/
theorem extractImageLink_docker_hub (v : GoString)
    (hg : strings.HasPrefix v "ghcr.io".toList = false)
    (hm : strings.HasPrefix v "mcr.microsoft.com".toList = false)
    (hq : strings.HasPrefix v "quay.io".toList = false) :
    (':' ∉ v → '/' ∉ v →
      extractImageLink v = some (v, "https://hub.docker.com/_/".toList ++ v)) ∧
    (':' ∉ v → '/' ∈ v →
      extractImageLink v = some (v, "https://hub.docker.com/r/".toList ++ v)) ∧
    (∀ n tag : GoString, v = n ++ ':' :: tag → ':' ∉ tag → '/' ∉ v →
      extractImageLink v = some (n, "https://hub.docker.com/_/".toList ++ n)) ∧
    (∀ n tag : GoString, v = n ++ ':' :: tag → ':' ∉ tag → '/' ∈ v →
      extractImageLink v = some (n, "https://hub.docker.com/r/".toList ++ n)) := by
  have he : extractImageLink v = dockerHubLink v := by
    simp only [extractImageLink, hg, hm, hq, Bool.false_eq_true, if_false]
  rw [he]
  refine ⟨?_, ?_, ?_, ?_⟩
  · intro hc hs
    rw [dockerHubLink_no_colon v hc, if_neg hs]
  · intro hc hs
    rw [dockerHubLink_no_colon v hc, if_pos hs]
  · intro n tag hv ht hs
    subst hv
    rw [dockerHubLink_colon n tag ht, if_neg hs]
  · intro n tag hv ht hs
    subst hv
    rw [dockerHubLink_colon n tag ht, if_pos hs]

/-- The two examples of C2: `nginx:1.25` is the official image `nginx`, and
`myorg/app:latest` is the repository `myorg/app`. -/
theorem extractImageLink_docker_hub_witness :
    extractImageLink "nginx:1.25".toList =
        some ("nginx".toList, "https://hub.docker.com/_/nginx".toList) ∧
      extractImageLink "myorg/app:latest".toList =
        some ("myorg/app".toList, "https://hub.docker.com/r/myorg/app".toList) :=
  ⟨(extractImageLink_docker_hub "nginx:1.25".toList (by decide) (by decide) (by decide)).2.2.1
      "nginx".toList "1.25".toList (by decide) (by decide) (by decide),
    (extractImageLink_docker_hub "myorg/app:latest".toList (by decide) (by decide)
      (by decide)).2.2.2
      "myorg/app".toList "latest".toList (by decide) (by decide) (by decide)⟩

/-- C6: a model value that starts with `hf.co` is rejected when it has at
most 6 bytes; otherwise its name is the value cut just before its last colon
(the whole value when it has no colon) and its URL is `https://` followed by
that name. -/
theorem extractModelLink_hf (v : GoString)
    (hp : strings.HasPrefix v "hf.co".toList = true) :
    (v.length ≤ 6 → extractModelLink v = some ([], [])) ∧
    (6 < v.length → ':' ∉ v →
      extractModelLink v = some (v, "https://".toList ++ v)) ∧
    (6 < v.length → ∀ n tag : GoString, v = n ++ ':' :: tag → ':' ∉ tag →
      extractModelLink v = some (n, "https://".toList ++ n)) := by
  refine ⟨?_, ?_, ?_⟩
  · intro hl
    have : (v.length : Int) ≤ 6 := by omega
    simp only [extractModelLink, hp, this, if_true]
  · intro hl hc
    have h6 : ¬ (v.length : Int) ≤ 6 := by omega
    have h1 : strings.LastIndex v [':'] = -1 := strings.LastIndex_of_not_mem ':' v hc
    simp only [extractModelLink, hp, h6, colon_toList, h1, if_true, if_false]
  · intro hl n tag hv ht
    have h6 : ¬ (v.length : Int) ≤ 6 := by omega
    subst hv
    have h1 : strings.LastIndex (n ++ ':' :: tag) [':'] = n.length :=
      strings.LastIndex_append_cons ':' n tag ht
    have h0 : ((n.length : Int) = -1) = False := by
      apply eq_false; omega
    simp only [extractModelLink, hp, if_true, h6, if_false, colon_toList, h1, h0,
      slice_zero_length_append, Option.bind]

/-- The example of C6: `hf.co/org/model:tag` links `hf.co/org/model`. -/
theorem extractModelLink_hf_witness :
    extractModelLink "hf.co/org/model:tag".toList =
      some ("hf.co/org/model".toList, "https://hf.co/org/model".toList) :=
  (extractModelLink_hf "hf.co/org/model:tag".toList (by decide)).2.2 (by decide)
    "hf.co/org/model".toList "tag".toList (by decide) (by decide)

/-! ## Reference decoders: `ghcr.io` and `quay.io` -/

namespace strings

/-- The first and the last occurrence of a byte coincide exactly when the
byte occurs fewer than two times. -/
theorem Index_eq_LastIndex_iff (c : Char) (v : GoString) :
    Index v [c] = LastIndex v [c] ↔ v.count c < 2 := by
  by_cases hm : c ∈ v
  · obtain ⟨a, b, hab, ha⟩ := exists_first c v hm
    subst hab
    have hca : a.count c = 0 := List.count_eq_zero_of_not_mem ha
    rw [Index_append_cons c a b ha]
    by_cases hb : c ∈ b
    · obtain ⟨b1, b2, hb12, hb2⟩ := exists_last c b hb
      have hcb : 0 < b.count c := List.count_pos_iff.mpr hb
      have hl : LastIndex (a ++ c :: b) [c] = ((a ++ c :: b1).length : Int) := by
        rw [hb12]
        have := LastIndex_append_cons c (a ++ c :: b1) b2 hb2
        simpa using this
      rw [hl]
      simp only [List.count_append, List.count_cons_self, hca, List.length_append,
        List.length_cons]
      constructor
      · intro h; push_cast at h; omega
      · intro h; omega
    · have hcb : b.count c = 0 := List.count_eq_zero_of_not_mem hb
      rw [LastIndex_append_cons c a b hb]
      simp [List.count_append, hca, hcb]
  · rw [Index_of_not_mem c v hm, LastIndex_of_not_mem c v hm]
    simp [List.count_eq_zero_of_not_mem hm]

/-- A byte `c` that occurs after a cut byte `d` has its last occurrence after
the cut. -/
theorem LastIndex_split_gt (c d : Char) (n tag : GoString) (h : c ∈ tag) :
    (n.length : Int) < LastIndex (n ++ d :: tag) [c] := by
  obtain ⟨t1, t2, ht, ht2⟩ := exists_last c tag h
  subst ht
  have := LastIndex_append_cons c (n ++ d :: t1) t2 ht2
  simp only [List.append_assoc, List.cons_append, List.length_append, List.length_cons] at this
  rw [this]
  push_cast
  omega

/-- A byte `c` that does not occur after a cut byte `d ≠ c` has its last
occurrence, if any, before the cut. -/
theorem LastIndex_split_lt (c d : Char) (n tag : GoString) (hcd : c ≠ d) (h : c ∉ tag) :
    LastIndex (n ++ d :: tag) [c] < (n.length : Int) ∧
      LastIndex (n ++ d :: tag) [c] = LastIndex n [c] := by
  by_cases hn : c ∈ n
  · obtain ⟨n1, n2, hn12, hn2⟩ := exists_last c n hn
    subst hn12
    have hrest : c ∉ n2 ++ d :: tag := by
      intro hm
      rcases List.mem_append.mp hm with e | e
      · exact hn2 e
      · rcases List.mem_cons.mp e with e | e
        · exact hcd e
        · exact h e
    have h1 := LastIndex_append_cons c n1 (n2 ++ d :: tag) hrest
    have h2 := LastIndex_append_cons c n1 n2 hn2
    simp only [List.append_assoc, List.cons_append] at h1 ⊢
    rw [h1, h2]
    refine ⟨?_, rfl⟩
    simp only [List.length_append, List.length_cons]
    push_cast
    omega
  · have hv : c ∉ n ++ d :: tag := by
      intro hm
      rcases List.mem_append.mp hm with e | e
      · exact hn e
      · rcases List.mem_cons.mp e with e | e
        · exact hcd e
        · exact h e
    rw [LastIndex_of_not_mem c _ hv, LastIndex_of_not_mem c _ hn]
    omega

/-- The cut at the last occurrence of a byte is unique. -/
theorem last_split_unique (c : Char) (n tag n2 tag2 : GoString)
    (h : n ++ c :: tag = n2 ++ c :: tag2) (ht : c ∉ tag) (ht2 : c ∉ tag2) :
    n = n2 ∧ tag = tag2 := by
  have h1 := LastIndex_append_cons c n tag ht
  have h2 := LastIndex_append_cons c n2 tag2 ht2
  rw [h] at h1
  have hl : n.length = n2.length := by
    have : (n.length : Int) = n2.length := by rw [← h1, ← h2]
    exact_mod_cast this
  have := List.append_inj h hl
  exact ⟨this.1, by simpa using this.2⟩

theorem HasPrefix_iff (s pre : GoString) : HasPrefix s pre = true ↔ ∃ w, s = pre ++ w := by
  unfold HasPrefix
  rw [List.isPrefixOf_iff_prefix]
  constructor
  · rintro ⟨w, hw⟩; exact ⟨w, hw.symm⟩
  · rintro ⟨w, hw⟩; exact ⟨w, hw.symm⟩

end strings

/-- A slice that ends at a cut point of the text. -/
theorem slice_append_left (n rest : GoString) (lo : Nat) (h : lo ≤ n.length) :
    slice (n ++ rest) (lo : Int) (n.length : Int) = some (n.drop lo) := by
  have h1 : (0 : Int) ≤ lo := by omega
  have h2 : (lo : Int) ≤ n.length := by omega
  have h3 : (n.length : Int) ≤ ((n ++ rest).length : Int) := by
    simp only [List.length_append]; push_cast; omega
  simp only [slice, h1, h2, h3, and_self, if_true, Int.toNat_ofNat]
  congr 1
  rw [List.drop_append_of_le_length h, List.take_append_of_le_length (by simp)]
  simp

theorem sliceFrom_eq_drop (v : GoString) (lo : Nat) (h : lo ≤ v.length) :
    sliceFrom v (lo : Int) = some (v.drop lo) := by
  have := slice_append_left v [] lo h
  simpa [sliceFrom] using this

/-- `extractNonDockerHubImageLink`: a value no longer than the registry name
and one more byte is rejected. -/
theorem nonDockerHub_short (v pfx uri : GoString) (start : Nat)
    (h : v.length ≤ pfx.length + 1) :
    extractNonDockerHubImageLink v pfx uri start = some ([], []) := by
  have : (v.length : Int) ≤ (pfx.length : Int) + 1 := by omega
  simp only [extractNonDockerHubImageLink, this, if_true]

/-- `extractNonDockerHubImageLink` on a value without a colon. -/
theorem nonDockerHub_no_colon (v pfx uri : GoString) (start : Nat)
    (hl : pfx.length + 1 < v.length) (hc : ':' ∉ v) (hs : start ≤ v.length) :
    extractNonDockerHubImageLink v pfx uri start =
      if v.count '/' < 2 then some ([], []) else some (v, uri ++ v.drop start) := by
  have h0 : ¬ (v.length : Int) ≤ (pfx.length : Int) + 1 := by omega
  have h1 : strings.LastIndex v [':'] = -1 := strings.LastIndex_of_not_mem ':' v hc
  have h2 := strings.Index_eq_LastIndex_iff '/' v
  by_cases hk : v.count '/' < 2
  · have h3 := h2.mpr hk
    simp only [extractNonDockerHubImageLink, h0, if_false, colon_toList, slash_toList, h1, h3,
      or_true, if_true, if_pos hk]
  · have h3 : ¬ strings.Index v ['/'] = strings.LastIndex v ['/'] := fun e => hk (h2.mp e)
    simp only [extractNonDockerHubImageLink, h0, if_false, colon_toList, slash_toList, h1, h3,
      ne_eq, not_true_eq_false, false_and, or_self, if_true, sliceFrom_eq_drop v start hs,
      Option.bind, if_neg hk]

/-- `extractNonDockerHubImageLink` on a value cut at its last colon. -/
theorem nonDockerHub_colon (n tag pfx uri : GoString) (start : Nat)
    (hl : pfx.length + 1 < (n ++ ':' :: tag).length) (ht : ':' ∉ tag) :
    (('/' ∈ tag ∨ (n ++ ':' :: tag).count '/' < 2) →
      extractNonDockerHubImageLink (n ++ ':' :: tag) pfx uri start = some ([], [])) ∧
    ('/' ∉ tag → 2 ≤ (n ++ ':' :: tag).count '/' → start ≤ n.length →
      extractNonDockerHubImageLink (n ++ ':' :: tag) pfx uri start =
        some (n, uri ++ n.drop start)) := by
  have h0 : ¬ ((n ++ ':' :: tag).length : Int) ≤ (pfx.length : Int) + 1 := by omega
  have h1 : strings.LastIndex (n ++ ':' :: tag) [':'] = n.length :=
    strings.LastIndex_append_cons ':' n tag ht
  have hne : ((n.length : Int) = -1) = False := by
    apply eq_false; omega
  have h2 := strings.Index_eq_LastIndex_iff '/' (n ++ ':' :: tag)
  constructor
  · intro h
    rcases h with h | h
    · have h3 := strings.LastIndex_split_gt '/' ':' n tag h
      have h4 : (n.length : Int) ≠ -1 := by omega
      simp only [extractNonDockerHubImageLink, h0, if_false, colon_toList, slash_toList, h1,
        ne_eq, h4, not_false_eq_true, gt_iff_lt, h3, and_self, true_or, if_true]
    · have h3 := h2.mpr h
      simp only [extractNonDockerHubImageLink, h0, if_false, colon_toList, slash_toList, h3,
        or_true, if_true]
  · intro hs hk hst
    have h3 := (strings.LastIndex_split_lt '/' ':' n tag (by decide) hs).1
    have h4 : ¬ ((n.length : Int) < strings.LastIndex (n ++ ':' :: tag) ['/']) := by omega
    have h5 : ¬ strings.Index (n ++ ':' :: tag) ['/'] = strings.LastIndex (n ++ ':' :: tag) ['/'] :=
      fun e => by have := h2.mp e; omega
    simp only [extractNonDockerHubImageLink, h0, if_false, colon_toList, slash_toList, h1,
      gt_iff_lt, h4, and_false, h5, or_self, hne, slice_zero_length_append,
      slice_append_left n (':' :: tag) start hst, Option.bind]

/-- `extractNonDockerHubImageLink` for a registry name of 7 bytes: when it
rejects, and what it returns when it does not.  `hstart` says that the slice
start lies inside every leading part of the value that has two slashes. -/
theorem nonDockerHub_spec (v pfx uri : GoString) (start : Nat)
    (hpl : pfx.length = 7) (hst : start ≤ 8)
    (hstart : ∀ n rest : GoString, v = n ++ rest → 2 ≤ n.count '/' → start ≤ n.length) :
    (extractNonDockerHubImageLink v pfx uri start = some ([], []) ↔
      (v.length ≤ 8 ∨ (∃ n tag : GoString, v = n ++ ':' :: tag ∧ ':' ∉ tag ∧ '/' ∈ tag) ∨
        v.count '/' < 2)) ∧
    (¬ (v.length ≤ 8 ∨ (∃ n tag : GoString, v = n ++ ':' :: tag ∧ ':' ∉ tag ∧ '/' ∈ tag) ∨
        v.count '/' < 2) →
      (':' ∉ v → extractNonDockerHubImageLink v pfx uri start = some (v, uri ++ v.drop start)) ∧
      (∀ n tag : GoString, v = n ++ ':' :: tag → ':' ∉ tag →
        extractNonDockerHubImageLink v pfx uri start = some (n, uri ++ n.drop start))) := by
  by_cases hlen : v.length ≤ 8
  · have hr := nonDockerHub_short v pfx uri start (by omega)
    exact ⟨⟨fun _ => Or.inl hlen, fun _ => hr⟩, fun h => absurd (Or.inl hlen) h⟩
  by_cases hc : ':' ∈ v
  · obtain ⟨n, tag, hv, ht⟩ := strings.exists_last ':' v hc
    subst hv
    have hcol := nonDockerHub_colon n tag pfx uri start (by omega) ht
    by_cases hrej : '/' ∈ tag ∨ (n ++ ':' :: tag).count '/' < 2
    · have hr := hcol.1 hrej
      have hR : (n ++ ':' :: tag).length ≤ 8 ∨
          (∃ n2 tag2 : GoString, n ++ ':' :: tag = n2 ++ ':' :: tag2 ∧ ':' ∉ tag2 ∧ '/' ∈ tag2) ∨
          (n ++ ':' :: tag).count '/' < 2 := by
        rcases hrej with h | h
        · exact Or.inr (Or.inl ⟨n, tag, rfl, ht, h⟩)
        · exact Or.inr (Or.inr h)
      exact ⟨⟨fun _ => hR, fun _ => hr⟩, fun h => absurd hR h⟩
    · have hs : '/' ∉ tag := fun h => hrej (Or.inl h)
      have hk : 2 ≤ (n ++ ':' :: tag).count '/' := by
        by_contra h
        exact hrej (Or.inr (by omega))
      have hkn : 2 ≤ n.count '/' := by
        have h1 : tag.count '/' = 0 := List.count_eq_zero_of_not_mem hs
        have h2 : (n ++ ':' :: tag).count '/' = n.count '/' := by
          rw [List.count_append, List.count_cons_of_ne (by decide), h1]; rfl
        omega
      have hsn : start ≤ n.length := hstart n (':' :: tag) rfl hkn
      have hr := hcol.2 hs hk hsn
      have hne : n ≠ [] := by
        intro e
        rw [e] at hkn
        simp at hkn
      have hnotR : ¬ ((n ++ ':' :: tag).length ≤ 8 ∨
          (∃ n2 tag2 : GoString, n ++ ':' :: tag = n2 ++ ':' :: tag2 ∧ ':' ∉ tag2 ∧ '/' ∈ tag2) ∨
          (n ++ ':' :: tag).count '/' < 2) := by
        rintro (h | ⟨n2, tag2, h1, h2, h3⟩ | h)
        · exact hlen h
        · have := (strings.last_split_unique ':' n tag n2 tag2 h1 ht h2).2
          exact hs (this ▸ h3)
        · omega
      refine ⟨⟨fun h => ?_, fun h => absurd h hnotR⟩, fun _ => ⟨fun h => absurd hc h, ?_⟩⟩
      · rw [hr] at h
        simp only [Option.some.injEq, Prod.mk.injEq] at h
        exact absurd h.1 hne
      · intro n2 tag2 h1 h2
        have := (strings.last_split_unique ':' n tag n2 tag2 h1 ht h2).1
        rw [← this]
        exact hr
  · have hr := nonDockerHub_no_colon v pfx uri start (by omega) hc (by omega)
    by_cases hk : v.count '/' < 2
    · rw [if_pos hk] at hr
      have hR : v.length ≤ 8 ∨
          (∃ n tag : GoString, v = n ++ ':' :: tag ∧ ':' ∉ tag ∧ '/' ∈ tag) ∨
          v.count '/' < 2 := Or.inr (Or.inr hk)
      exact ⟨⟨fun _ => hR, fun _ => hr⟩, fun h => absurd hR h⟩
    · rw [if_neg hk] at hr
      have hne : v ≠ [] := by
        intro e
        rw [e] at hlen
        simp at hlen
      have hnotR : ¬ (v.length ≤ 8 ∨
          (∃ n tag : GoString, v = n ++ ':' :: tag ∧ ':' ∉ tag ∧ '/' ∈ tag) ∨
          v.count '/' < 2) := by
        rintro (h | ⟨n2, tag2, h1, _, _⟩ | h)
        · exact hlen h
        · exact hc (by rw [h1]; simp)
        · exact hk h
      refine ⟨⟨fun h => ?_, fun h => absurd h hnotR⟩, fun _ => ⟨fun _ => hr, ?_⟩⟩
      · rw [hr] at h
        simp only [Option.some.injEq, Prod.mk.injEq] at h
        exact absurd h.1 hne
      · intro n2 tag2 h1 _
        exact absurd (show ':' ∈ v by rw [h1]; simp) hc

/-- A leading part with two slashes of a value that starts with `quay.io`
has at least 8 bytes. -/
theorem quay_start_le (w n rest : GoString) (h : "quay.io".toList ++ w = n ++ rest)
    (hk : 2 ≤ n.count '/') : 8 ≤ n.length := by
  rcases List.append_eq_append_iff.mp h with ⟨a, ha, _⟩ | ⟨c, hc, _⟩
  · rw [ha]
    have h1 : ("quay.io".toList ++ a).count '/' = a.count '/' := by
      rw [List.count_append]
      have : "quay.io".toList.count '/' = 0 := by decide
      omega
    have h2 : a.count '/' ≤ a.length := List.count_le_length '/' a
    have h3 : "quay.io".toList.length = 7 := by decide
    rw [ha, h1] at hk
    rw [List.length_append, h3]
    omega
  · have h1 : "quay.io".toList.count '/' = 0 := by decide
    rw [hc, List.count_append] at h1
    omega

/-- C4: a value that starts with `ghcr.io` or with `quay.io` is rejected
exactly when it has at most 8 bytes, or a slash follows its last colon, or it
has fewer than two slashes; otherwise the name is the value cut just before
its last colon (the whole value without a colon), linked as `https://` and
the name for `ghcr.io` and as `https://quay.io/repository/` and the name
without its first 8 bytes for `quay.io`. -/
theorem extractImageLink_ghcr_quay (v : GoString)
    (hp : strings.HasPrefix v "ghcr.io".toList = true ∨
      strings.HasPrefix v "quay.io".toList = true) :
    (extractImageLink v = some ([], []) ↔
      (v.length ≤ 8 ∨ (∃ n tag : GoString, v = n ++ ':' :: tag ∧ ':' ∉ tag ∧ '/' ∈ tag) ∨
        v.count '/' < 2)) ∧
    (¬ (v.length ≤ 8 ∨ (∃ n tag : GoString, v = n ++ ':' :: tag ∧ ':' ∉ tag ∧ '/' ∈ tag) ∨
        v.count '/' < 2) →
      (':' ∉ v → extractImageLink v = some (v,
        if strings.HasPrefix v "ghcr.io".toList = true then "https://".toList ++ v
        else "https://quay.io/repository/".toList ++ v.drop 8)) ∧
      (∀ n tag : GoString, v = n ++ ':' :: tag → ':' ∉ tag →
        extractImageLink v = some (n,
          if strings.HasPrefix v "ghcr.io".toList = true then "https://".toList ++ n
          else "https://quay.io/repository/".toList ++ n.drop 8))) := by
  by_cases hg : strings.HasPrefix v "ghcr.io".toList = true
  · have he : extractImageLink v =
        extractNonDockerHubImageLink v "ghcr.io".toList "https://".toList 0 := by
      simp only [extractImageLink, hg, if_true]
    have h := nonDockerHub_spec v "ghcr.io".toList "https://".toList 0 (by decide) (by decide)
      (fun _ _ _ _ => Nat.zero_le _)
    simp only [List.drop_zero] at h
    simp only [he, hg, if_true]
    exact h
  · have hq : strings.HasPrefix v "quay.io".toList = true := by
      rcases hp with h | h
      · exact absurd h hg
      · exact h
    obtain ⟨w, hw⟩ := (strings.HasPrefix_iff v _).mp hq
    have hm : strings.HasPrefix v "mcr.microsoft.com".toList = false := by
      rw [hw]; rfl
    have hg2 : strings.HasPrefix v "ghcr.io".toList = false := by
      rw [hw]; rfl
    have he : extractImageLink v =
        extractNonDockerHubImageLink v "quay.io".toList "https://quay.io/repository/".toList 8 := by
      simp only [extractImageLink, hg2, hm, hq, Bool.false_eq_true, if_false, if_true]
    have h := nonDockerHub_spec v "quay.io".toList "https://quay.io/repository/".toList 8
      (by decide) (by decide)
      (fun n rest hv hk => quay_start_le w n rest (hw ▸ hv) hk)
    simp only [he, hg2, Bool.false_eq_true, if_false]
    exact h

/-- The example of C4: `ghcr.io/acme/widget:v2` is not rejected and links
`ghcr.io/acme/widget`. -/
theorem extractImageLink_ghcr_quay_witness :
    extractImageLink "ghcr.io/acme/widget:v2".toList =
      some ("ghcr.io/acme/widget".toList, "https://ghcr.io/acme/widget".toList) :=
  ((extractImageLink_ghcr_quay "ghcr.io/acme/widget:v2".toList (Or.inl (by decide))).2
    (by
      rintro (h | ⟨n, tag, h1, h2, h3⟩ | h)
      · exact absurd h (by decide)
      · have := (strings.last_split_unique ':' "ghcr.io/acme/widget".toList "v2".toList n tag
          h1 (by decide) h2).2
        exact absurd (this ▸ h3) (by decide)
      · exact absurd h (by decide))).2
    "ghcr.io/acme/widget".toList "v2".toList (by decide) (by decide)

/-! ## Reference decoders: `mcr.microsoft.com` -/

/-- The last occurrence of a byte in a text that contains it: the text is cut
there, and the index is the length of the part before. -/
theorem strings.LastIndex_of_mem (c : Char) (v : GoString) (h : c ∈ v) :
    ∃ x y : GoString, v = x ++ c :: y ∧ c ∉ y ∧ strings.LastIndex v [c] = x.length := by
  obtain ⟨x, y, hxy, hy⟩ := strings.exists_last c v h
  exact ⟨x, y, hxy, hy, by rw [hxy]; exact strings.LastIndex_append_cons c x y hy⟩

theorem mcr_starts (r : GoString) :
    strings.HasPrefix ("mcr.microsoft.com/".toList ++ r) "ghcr.io".toList = false ∧
    strings.HasPrefix ("mcr.microsoft.com/".toList ++ r) "mcr.microsoft.com".toList = true :=
  ⟨rfl, rfl⟩

theorem mcr_length (r : GoString) :
    (("mcr.microsoft.com/".toList ++ r).length : Int) = 18 + r.length := by
  rw [List.length_append]
  have : "mcr.microsoft.com/".toList.length = 18 := by decide
  rw [this]
  push_cast
  rfl

/-- The `mcr.microsoft.com` branch on a value cut at its last colon. -/
theorem mcr_colon (a tag : GoString) (ht : ':' ∉ tag) :
    ((a = [] ∨ a.getLast? = some '/' ∨ '/' ∈ tag) →
      extractImageLink ("mcr.microsoft.com/".toList ++ (a ++ ':' :: tag)) = some ([], [])) ∧
    (a ≠ [] → a.getLast? ≠ some '/' → '/' ∉ tag →
      extractImageLink ("mcr.microsoft.com/".toList ++ (a ++ ':' :: tag)) =
        some ("mcr.microsoft.com/".toList ++ a,
          "https://mcr.microsoft.com/artifact/mar/".toList ++ a)) := by
  have hpre := mcr_starts (a ++ ':' :: tag)
  have hlen := mcr_length (a ++ ':' :: tag)
  have hlen2 := mcr_length a
  have hlong : ¬ (("mcr.microsoft.com/".toList ++ (a ++ ':' :: tag)).length : Int) ≤ 18 := by
    rw [hlen]
    simp only [List.length_append, List.length_cons]
    push_cast
    omega
  have hv : "mcr.microsoft.com/".toList ++ (a ++ ':' :: tag) =
      ("mcr.microsoft.com/".toList ++ a) ++ ':' :: tag := by
    rw [List.append_assoc]
  have hidx : strings.LastIndex ("mcr.microsoft.com/".toList ++ (a ++ ':' :: tag)) [':'] =
      (("mcr.microsoft.com/".toList ++ a).length : Int) := by
    rw [hv]
    exact strings.LastIndex_append_cons ':' _ tag ht
  have h17 : ¬ ((("mcr.microsoft.com/".toList ++ a).length : Int) = 17) := by
    rw [hlen2]; omega
  have hneg : ¬ ((("mcr.microsoft.com/".toList ++ a).length : Int) = -1) := by
    rw [hlen2]; omega
  have hslash : '/' ∈ "mcr.microsoft.com/".toList ++ a :=
    List.mem_append_left _ (by decide)
  obtain ⟨x, y, hxy, hy, hlast⟩ := strings.LastIndex_of_mem '/' _ hslash
  have hxlen : ("mcr.microsoft.com/".toList ++ a).length = x.length + 1 + y.length := by
    rw [hxy]
    simp only [List.length_append, List.length_cons]
    omega
  constructor
  · intro h
    by_cases hs : '/' ∈ tag
    · have hgt := strings.LastIndex_split_gt '/' ':' ("mcr.microsoft.com/".toList ++ a) tag hs
      rw [← hv] at hgt
      simp only [extractImageLink, hpre.1, hpre.2, Bool.false_eq_true, if_false, if_true, hlong,
        colon_toList, slash_toList, hidx, h17, ne_eq, hneg, not_false_eq_true, gt_iff_lt, hgt,
        and_self, or_true]
    · have hsame := (strings.LastIndex_split_lt '/' ':' ("mcr.microsoft.com/".toList ++ a) tag
        (by decide) hs).2
      rw [← hv] at hsame
      have hy0 : y = [] := by
        rcases h with h | h | h
        · subst h
          have h1 : "mcr.microsoft.com/".toList ++ ([] : GoString) =
              "mcr.microsoft.com".toList ++ '/' :: [] := rfl
          have := (strings.last_split_unique '/' x y "mcr.microsoft.com".toList []
            (hxy.symm.trans h1) hy (by simp)).2
          exact this
        · obtain ⟨a2, ha2⟩ : ∃ a2, a = a2 ++ ['/'] := List.getLast?_eq_some_iff.mp h
          have h1 : "mcr.microsoft.com/".toList ++ a =
              ("mcr.microsoft.com/".toList ++ a2) ++ '/' :: [] := by
            rw [ha2, List.append_assoc]
          have := (strings.last_split_unique '/' x y _ [] (hxy.symm.trans h1) hy (by simp)).2
          exact this
        · exact absurd h hs
      have heq : strings.LastIndex ("mcr.microsoft.com/".toList ++ (a ++ ':' :: tag)) ['/'] =
          (("mcr.microsoft.com/".toList ++ a).length : Int) - 1 := by
        rw [hsame, hlast, hxlen, hy0]
        simp
      simp only [extractImageLink, hpre.1, hpre.2, Bool.false_eq_true, if_false, if_true, hlong,
        colon_toList, slash_toList, hidx, h17, heq, true_or]
  · intro hne hend hs
    have hlt := strings.LastIndex_split_lt '/' ':' ("mcr.microsoft.com/".toList ++ a) tag
      (by decide) hs
    rw [← hv] at hlt
    have hy1 : y ≠ [] := by
      intro e
      rw [e] at hxy
      have : ("mcr.microsoft.com/".toList ++ a).getLast? = some '/' := by
        rw [hxy]; simp
      rw [List.getLast?_append_of_ne_nil _ hne] at this
      exact hend this
    have hylen : 0 < y.length := List.length_pos.mpr hy1
    have hne1 : ¬ (strings.LastIndex ("mcr.microsoft.com/".toList ++ (a ++ ':' :: tag)) ['/'] =
        (("mcr.microsoft.com/".toList ++ a).length : Int) - 1) := by
      rw [hlt.2, hlast, hxlen]
      push_cast
      omega
    have hngt : ¬ ((("mcr.microsoft.com/".toList ++ a).length : Int) <
        strings.LastIndex ("mcr.microsoft.com/".toList ++ (a ++ ':' :: tag)) ['/']) := by
      have := hlt.1
      omega
    have h18 : 18 ≤ ("mcr.microsoft.com/".toList ++ a).length := by
      rw [List.length_append]
      have : "mcr.microsoft.com/".toList.length = 18 := by decide
      omega
    have hsl1 := slice_zero_length_append ("mcr.microsoft.com/".toList ++ a) (':' :: tag)
    have hsl2 := slice_append_left ("mcr.microsoft.com/".toList ++ a) (':' :: tag) 18 h18
    have hdrop : ("mcr.microsoft.com/".toList ++ a).drop 18 = a := rfl
    rw [← hv] at hsl1 hsl2
    rw [hdrop] at hsl2
    simp only [extractImageLink, hpre.1, hpre.2, Bool.false_eq_true, if_false, if_true, hlong,
      colon_toList, slash_toList, hidx, h17, hne1, ne_eq, hneg, not_false_eq_true, gt_iff_lt,
      hngt, and_false, or_self, hsl1, Option.bind]
    have hsl3 : slice ("mcr.microsoft.com/".toList ++ (a ++ ':' :: tag)) 18
        (("mcr.microsoft.com/".toList ++ a).length : Int) = some a := hsl2
    rw [hsl3]

/-- The `mcr.microsoft.com` branch on a value without a colon. -/
theorem mcr_no_colon (r : GoString) (hr : r ≠ []) (hc : ':' ∉ r) :
    extractImageLink ("mcr.microsoft.com/".toList ++ r) =
      some ("mcr.microsoft.com/".toList ++ r,
        "https://mcr.microsoft.com/artifact/mar/".toList ++ r) := by
  have hpre := mcr_starts r
  have hlen := mcr_length r
  have hrlen : 0 < r.length := List.length_pos.mpr hr
  have hlong : ¬ (("mcr.microsoft.com/".toList ++ r).length : Int) ≤ 18 := by
    rw [hlen]; omega
  have hcv : ':' ∉ "mcr.microsoft.com/".toList ++ r := by
    intro h
    rcases List.mem_append.mp h with e | e
    · exact absurd e (by decide)
    · exact hc e
  have hidx := strings.LastIndex_of_not_mem ':' _ hcv
  have hslash : '/' ∈ "mcr.microsoft.com/".toList ++ r :=
    List.mem_append_left _ (by decide)
  obtain ⟨x, y, _, _, hlast⟩ := strings.LastIndex_of_mem '/' _ hslash
  have hne1 : ¬ (strings.LastIndex ("mcr.microsoft.com/".toList ++ r) ['/'] = -1 - 1) := by
    rw [hlast]; omega
  have h18 : 18 ≤ ("mcr.microsoft.com/".toList ++ r).length := by
    have := hlen
    omega
  have hsl : sliceFrom ("mcr.microsoft.com/".toList ++ r) 18 = some r :=
    sliceFrom_eq_drop _ 18 h18
  simp only [extractImageLink, hpre.1, hpre.2, Bool.false_eq_true, if_false, if_true, hlong,
    colon_toList, slash_toList, hidx, hne1, ne_eq, not_true_eq_false, false_and, or_self, hsl,
    Option.bind]
  rfl

/-- C5: for a value `mcr.microsoft.com/` followed by `r`, the decoder
rejects an empty `r`, and rejects `r` when the text before its last colon is
empty or ends in a slash or when a slash follows that colon; otherwise the
name is the value cut just before its last colon (the whole value without a
colon) and the URL is `https://mcr.microsoft.com/artifact/mar/` followed by
`r` without its tag. -/
theorem extractImageLink_mcr (r : GoString) :
    (r = [] → extractImageLink ("mcr.microsoft.com/".toList ++ r) = some ([], [])) ∧
    (∀ a tag : GoString, r = a ++ ':' :: tag → ':' ∉ tag →
      (a = [] ∨ a.getLast? = some '/' ∨ '/' ∈ tag) →
      extractImageLink ("mcr.microsoft.com/".toList ++ r) = some ([], [])) ∧
    (r ≠ [] → ':' ∉ r →
      extractImageLink ("mcr.microsoft.com/".toList ++ r) =
        some ("mcr.microsoft.com/".toList ++ r,
          "https://mcr.microsoft.com/artifact/mar/".toList ++ r)) ∧
    (∀ a tag : GoString, r = a ++ ':' :: tag → ':' ∉ tag →
      a ≠ [] → a.getLast? ≠ some '/' → '/' ∉ tag →
      extractImageLink ("mcr.microsoft.com/".toList ++ r) =
        some ("mcr.microsoft.com/".toList ++ a,
          "https://mcr.microsoft.com/artifact/mar/".toList ++ a)) := by
  refine ⟨?_, ?_, ?_, ?_⟩
  · intro h
    subst h
    rfl
  · intro a tag h ht hrej
    subst h
    exact (mcr_colon a tag ht).1 hrej
  · exact mcr_no_colon r
  · intro a tag h ht h1 h2 h3
    subst h
    exact (mcr_colon a tag ht).2 h1 h2 h3

/-- Instances of C5: `mcr.microsoft.com/powershell:lts` links the repository
without its tag, and a colon right after the registry host, or before a
later slash, is rejected. -/
theorem extractImageLink_mcr_witness :
    extractImageLink "mcr.microsoft.com/powershell:lts".toList =
        some ("mcr.microsoft.com/powershell".toList,
          "https://mcr.microsoft.com/artifact/mar/powershell".toList) ∧
      extractImageLink "mcr.microsoft.com/:lts".toList = some ([], []) ∧
      extractImageLink "mcr.microsoft.com/a:b/c".toList = some ([], []) :=
  ⟨(extractImageLink_mcr "powershell:lts".toList).2.2.2 "powershell".toList "lts".toList
      (by decide) (by decide) (by decide) (by decide) (by decide),
    (extractImageLink_mcr ":lts".toList).2.1 [] "lts".toList (by decide) (by decide)
      (Or.inl rfl),
    (extractImageLink_mcr "a:b/c".toList).2.1 "a".toList "b/c".toList (by decide) (by decide)
      (Or.inr (Or.inr (by decide)))⟩

/-! ## Path cleaning -/

namespace path

/-- Backtracking drops bytes from the end of the buffer only. -/
theorem backtrack_suffix : ∀ (out : List Char) (dotdot : Nat),
    ∃ dropped, out = dropped ++ backtrack out dotdot
  | [], _ => ⟨[], rfl⟩
  | c :: rest, dotdot => by
      unfold backtrack
      split
      · obtain ⟨d, hd⟩ := backtrack_suffix rest dotdot
        exact ⟨c :: d, by rw [List.cons_append, ← hd]⟩
      · exact ⟨[c], rfl⟩

/-- Backtracking stops at `dotdot`. -/
theorem backtrack_length : ∀ (out : List Char) (dotdot : Nat),
    dotdot < out.length → dotdot ≤ (backtrack out dotdot).length
  | [], _, h => by simp at h
  | c :: rest, dotdot, h => by
      unfold backtrack
      split
      · next hc => exact backtrack_length rest dotdot hc.1
      · simp only [List.length_cons] at h
        omega

theorem mem_backtrack (x : Char) (out : List Char) (dotdot : Nat)
    (h : x ∈ backtrack out dotdot) : x ∈ out := by
  obtain ⟨d, hd⟩ := backtrack_suffix out dotdot
  rw [hd]
  exact List.mem_append_right _ h

/-- Every byte that `Clean` writes is a byte of the path, a slash or a dot. -/
theorem mem_cleanLoop (x : Char) (rooted : Bool) :
    ∀ (rest : GoString) (mode : Mode) (out : List Char) (dotdot : Nat),
      x ∈ cleanLoop rooted rest mode out dotdot → x ∈ rest ∨ x ∈ out ∨ x = '/' ∨ x = '.'
  | [], _, out, _, h => by
      simp only [cleanLoop] at h
      exact Or.inr (Or.inl h)
  | c :: rest, Mode.secondDot, out, dotdot, h => by
      simp only [cleanLoop] at h
      rcases mem_cleanLoop x rooted rest _ _ _ h with h1 | h1
      · exact Or.inl (List.mem_cons_of_mem _ h1)
      · exact Or.inr h1
  | c :: rest, Mode.copying, out, dotdot, h => by
      simp only [cleanLoop] at h
      split at h
      · rcases mem_cleanLoop x rooted rest _ _ _ h with h1 | h1
        · exact Or.inl (List.mem_cons_of_mem _ h1)
        · exact Or.inr h1
      · rcases mem_cleanLoop x rooted rest _ _ _ h with h1 | h1 | h1
        · exact Or.inl (List.mem_cons_of_mem _ h1)
        · rcases List.mem_cons.mp h1 with e | e
          · exact Or.inl (by rw [e]; exact List.mem_cons_self _ _)
          · exact Or.inr (Or.inl e)
        · exact Or.inr (Or.inr h1)
  | c :: rest, Mode.atElem, out, dotdot, h => by
      simp only [cleanLoop] at h
      split at h
      · rcases mem_cleanLoop x rooted rest _ _ _ h with h1 | h1
        · exact Or.inl (List.mem_cons_of_mem _ h1)
        · exact Or.inr h1
      · split at h
        · rcases mem_cleanLoop x rooted rest _ _ _ h with h1 | h1
          · exact Or.inl (List.mem_cons_of_mem _ h1)
          · exact Or.inr h1
        · split at h
          · split at h
            · rcases mem_cleanLoop x rooted rest _ _ _ h with h1 | h1 | h1
              · exact Or.inl (List.mem_cons_of_mem _ h1)
              · exact Or.inr (Or.inl (mem_backtrack x out dotdot h1))
              · exact Or.inr (Or.inr h1)
            · split at h
              · rcases mem_cleanLoop x rooted rest _ _ _ h with h1 | h1 | h1
                · exact Or.inl (List.mem_cons_of_mem _ h1)
                · rcases List.mem_cons.mp h1 with e | e
                  · exact Or.inr (Or.inr (Or.inr e))
                  · rcases List.mem_cons.mp e with e | e
                    · exact Or.inr (Or.inr (Or.inr e))
                    · split at e
                      · rcases List.mem_cons.mp e with e | e
                        · exact Or.inr (Or.inr (Or.inl e))
                        · exact Or.inr (Or.inl e)
                      · exact Or.inr (Or.inl e)
                · exact Or.inr (Or.inr h1)
              · rcases mem_cleanLoop x rooted rest _ _ _ h with h1 | h1
                · exact Or.inl (List.mem_cons_of_mem _ h1)
                · exact Or.inr h1
          · rcases mem_cleanLoop x rooted rest _ _ _ h with h1 | h1 | h1
            · exact Or.inl (List.mem_cons_of_mem _ h1)
            · rcases List.mem_cons.mp h1 with e | e
              · exact Or.inl (by rw [e]; exact List.mem_cons_self _ _)
              · split at e
                · rcases List.mem_cons.mp e with e | e
                  · exact Or.inr (Or.inr (Or.inl e))
                  · exact Or.inr (Or.inl e)
                · exact Or.inr (Or.inl e)
            · exact Or.inr (Or.inr h1)

end path

namespace path

theorem mem_Clean (x : Char) (p : GoString) (h : x ∈ Clean p) :
    x ∈ p ∨ x = '/' ∨ x = '.' := by
  have hdot : ∀ y : Char, y ∈ ".".toList → y = '.' := by
    intro y hy
    simpa [String.toList] using hy
  unfold Clean at h
  by_cases hp : p = []
  · rw [if_pos hp] at h
    exact Or.inr (Or.inr (hdot x h))
  · rw [if_neg hp] at h
    by_cases hr : p.head? = some '/'
    · simp only [hr, if_true] at h
      split at h
      · exact Or.inr (Or.inr (hdot x h))
      · rw [List.mem_reverse] at h
        rcases mem_cleanLoop x true _ _ _ _ h with h1 | h1 | h1
        · exact Or.inl (List.mem_of_mem_tail h1)
        · simp only [List.mem_singleton] at h1
          exact Or.inr (Or.inl h1)
        · exact Or.inr h1
    · simp only [hr, if_false] at h
      split at h
      · exact Or.inr (Or.inr (hdot x h))
      · rw [List.mem_reverse] at h
        rcases mem_cleanLoop x false _ _ _ _ h with h1 | h1 | h1
        · exact Or.inl h1
        · simp at h1
        · exact Or.inr h1

theorem getLast?_cons_of_some (c d : Char) (out : List Char) (h : out.getLast? = some d) :
    (c :: out).getLast? = some d := by
  cases out with
  | nil => simp at h
  | cons e es => rw [List.getLast?_cons_cons]; exact h

/-- Backtracking in a rooted path keeps the leading slash. -/
theorem getLast?_backtrack (out : List Char) (d : Char) (h : out.getLast? = some d)
    (hl : 1 < out.length) : (backtrack out 1).getLast? = some d := by
  obtain ⟨dropped, hd⟩ := backtrack_suffix out 1
  have hlen := backtrack_length out 1 hl
  have hne : backtrack out 1 ≠ [] := by
    intro e
    rw [e] at hlen
    simp at hlen
  rw [hd, List.getLast?_append_of_ne_nil _ hne] at h
  exact h

/-- The first byte of the buffer of a rooted path stays the slash. -/
theorem cleanLoop_rooted :
    ∀ (rest : GoString) (mode : Mode) (out : List Char),
      out.getLast? = some '/' → (cleanLoop true rest mode out 1).getLast? = some '/'
  | [], _, out, h => by simpa only [cleanLoop] using h
  | c :: rest, Mode.secondDot, out, h => by
      simp only [cleanLoop]
      exact cleanLoop_rooted rest _ out h
  | c :: rest, Mode.copying, out, h => by
      simp only [cleanLoop]
      split
      · exact cleanLoop_rooted rest _ out h
      · exact cleanLoop_rooted rest _ _ (getLast?_cons_of_some c '/' out h)
  | c :: rest, Mode.atElem, out, h => by
      simp only [cleanLoop]
      split
      · exact cleanLoop_rooted rest _ out h
      · split
        · exact cleanLoop_rooted rest _ out h
        · split
          · split
            · next hl => exact cleanLoop_rooted rest _ _ (getLast?_backtrack out '/' h hl)
            · simp only [Bool.not_true, Bool.false_eq_true, if_false]
              exact cleanLoop_rooted rest _ out h
          · apply cleanLoop_rooted rest
            apply getLast?_cons_of_some
            split
            · exact getLast?_cons_of_some '/' '/' out h
            · exact h

/-- Cleaning a path that starts with a slash gives a path that starts with a
slash. -/
theorem Clean_rooted (p : GoString) : (Clean ('/' :: p)).head? = some '/' := by
  have h := cleanLoop_rooted p Mode.atElem ['/'] rfl
  have hne : cleanLoop true p Mode.atElem ['/'] 1 ≠ [] := by
    intro e
    rw [e] at h
    simp at h
  have hlen : ¬ (cleanLoop true p Mode.atElem ['/'] 1).length = 0 := by
    intro e
    exact hne (List.length_eq_zero.mp e)
  simp only [Clean, List.cons_ne_nil, if_false, List.head?_cons, if_true, List.tail_cons, hlen,
    List.head?_reverse]
  exact h

theorem containsDotDot_cons (c : Char) (rest : GoString)
    (h : containsDotDot (c :: rest) = false) :
    containsDotDot rest = false ∧ ¬ (c = '.' ∧ rest.head? = some '.') := by
  simp only [containsDotDot, Bool.or_eq_false_iff, Bool.and_eq_false_iff] at h
  refine ⟨h.2, ?_⟩
  rintro ⟨h1, h2⟩
  rcases h.1 with e | e
  · rw [h1] at e
    simp at e
  · rw [h2] at e
    simp at e

/-- Without a `..` element nothing is removed from a buffer that is not
empty: its first byte stays. -/
theorem cleanLoop_first_byte (rooted : Bool) :
    ∀ (rest : GoString) (mode : Mode) (out : List Char) (dotdot : Nat) (d : Char),
      mode ≠ Mode.secondDot → containsDotDot rest = false → out.getLast? = some d →
      (cleanLoop rooted rest mode out dotdot).getLast? = some d
  | [], _, out, _, d, _, _, h => by simpa only [cleanLoop] using h
  | c :: rest, Mode.secondDot, out, _, d, hm, _, h => absurd rfl hm
  | c :: rest, Mode.copying, out, dotdot, d, _, hdd, h => by
      have hr := (containsDotDot_cons c rest hdd).1
      simp only [cleanLoop]
      split
      · exact cleanLoop_first_byte rooted rest _ out dotdot d (by decide) hr h
      · exact cleanLoop_first_byte rooted rest _ _ dotdot d (by decide) hr
          (getLast?_cons_of_some c d out h)
  | c :: rest, Mode.atElem, out, dotdot, d, _, hdd, h => by
      have hr := containsDotDot_cons c rest hdd
      simp only [cleanLoop]
      split
      · exact cleanLoop_first_byte rooted rest _ out dotdot d (by decide) hr.1 h
      · split
        · exact cleanLoop_first_byte rooted rest _ out dotdot d (by decide) hr.1 h
        · split
          · next h3 => exact absurd ⟨h3.1, h3.2.1⟩ hr.2
          · apply cleanLoop_first_byte rooted rest _ _ dotdot d (by decide) hr.1
            apply getLast?_cons_of_some
            split
            · exact getLast?_cons_of_some '/' d out h
            · exact h

/-- Cleaning a path that starts with a byte other than a slash or a dot and
has no `..` element keeps that first byte. -/
theorem Clean_first_byte (c : Char) (p : GoString) (h1 : c ≠ '/') (h2 : c ≠ '.')
    (hdd : containsDotDot (c :: p) = false) : (Clean (c :: p)).head? = some c := by
  have hr := (containsDotDot_cons c p hdd).1
  have h := cleanLoop_first_byte false p Mode.copying [c] 0 c (by decide) hr rfl
  have hstep : cleanLoop false (c :: p) Mode.atElem [] 0 = cleanLoop false p Mode.copying [c] 0 := by
    simp [cleanLoop, h1, h2]
  have hne : cleanLoop false p Mode.copying [c] 0 ≠ [] := by
    intro e
    rw [e] at h
    simp at h
  have hlen : ¬ (cleanLoop false p Mode.copying [c] 0).length = 0 := by
    intro e
    exact hne (List.length_eq_zero.mp e)
  have hc : ¬ (some c = some '/') := by
    intro e
    exact h1 (Option.some.inj e)
  simp only [Clean, List.cons_ne_nil, if_false, List.head?_cons, hc, hstep, hlen,
    List.head?_reverse]
  exact h

/-- `Join` of a folder that is not empty and a file cleans the two texts with
a slash between them. -/
theorem Join_pair (folder file : GoString) (h : folder ≠ []) :
    Join [folder, file] = Clean (folder ++ '/' :: file) := by
  have hl : 0 < folder.length := List.length_pos.mpr h
  have hsum : ¬ (([folder, file].map List.length).sum = 0) := by
    simp only [List.map_cons, List.map_nil, List.sum_cons, List.sum_nil]
    omega
  simp only [Join, hsum, if_false, joinBuf, List.length_nil, gt_iff_lt, Nat.lt_irrefl, ne_eq, h,
    not_false_eq_true, or_true, if_true, List.nil_append, hl, true_or, List.append_assoc,
    List.singleton_append]

end path

/-! ## Path resolver -/

/-- Replacing one byte by another is a map over the bytes. -/
theorem strings.replaceAllFrom_single (o n : Char) :
    ∀ s : GoString,
      strings.replaceAllFrom [o] [n] s 0 = s.map (fun c => if o = c then n else c)
  | [] => rfl
  | c :: cs => by
      have ih := strings.replaceAllFrom_single o n cs
      by_cases h : o = c
      · subst h
        simp [strings.replaceAllFrom, strings.single_isPrefixOf_cons, ih]
      · simp [strings.replaceAllFrom, strings.single_isPrefixOf_cons, h, ih]

theorem strings.ReplaceAll_single (s : GoString) (o n : Char) :
    strings.ReplaceAll s [o] [n] = s.map (fun c => if o = c then n else c) :=
  strings.replaceAllFrom_single o n s

/-- After replacing a byte by a different one, the byte is gone. -/
theorem strings.not_mem_ReplaceAll (s : GoString) (o n : Char) (h : o ≠ n) :
    o ∉ strings.ReplaceAll s [o] [n] := by
  rw [strings.ReplaceAll_single]
  intro hm
  obtain ⟨y, _, hy⟩ := List.mem_map.mp hm
  by_cases e : o = y
  · rw [if_pos e] at hy
    exact h hy.symm
  · rw [if_neg e] at hy
    exact e hy.symm

theorem containsDotDot_join (a b : GoString) (ha : containsDotDot a = false)
    (hb : containsDotDot b = false) : containsDotDot (a ++ '/' :: b) = false := by
  induction a with
  | nil => simp [containsDotDot, hb]
  | cons c a ih =>
      have hc := path.containsDotDot_cons c a ha
      have hrest := ih hc.1
      cases a with
      | nil => simp [containsDotDot, hb]
      | cons d a2 =>
          have hcd : ¬ (c = '.' ∧ d = '.') := by
            intro e
            exact hc.2 ⟨e.1, by simp [e.2]⟩
          simp only [List.cons_append] at hrest ⊢
          rw [containsDotDot, hrest]
          simp only [List.head?_cons, Bool.or_false, Bool.and_eq_false_iff]
          by_cases e : c = '.'
          · right
            have : d ≠ '.' := fun e2 => hcd ⟨e, e2⟩
            simp [this]
          · left
            simp [e]

theorem head?_eq_some_cons (l : GoString) (c : Char) (h : l.head? = some c) :
    ∃ t, l = c :: t := by
  cases l with
  | nil => simp at h
  | cons d t =>
      simp only [List.head?_cons, Option.some.injEq] at h
      exact ⟨t, by rw [h]⟩

/-- The native WSL path starts with a backslash after `wsl$` as soon as the
cleaned join starts with a slash or a backslash. -/
theorem wsl_native_start (k : GoString) (c : Char) (hc : c = '/' ∨ c = '\\')
    (h : k.head? = some c) :
    strings.HasPrefix ("\\\\wsl$".toList ++ strings.ReplaceAll k "/".toList "\\".toList)
      "\\\\wsl$\\".toList = true := by
  obtain ⟨t, ht⟩ := head?_eq_some_cons k c h
  have hr : strings.ReplaceAll k "/".toList "\\".toList =
      '\\' :: strings.ReplaceAll t "/".toList "\\".toList := by
    rw [ht]
    show strings.ReplaceAll (c :: t) ['/'] ['\\'] = '\\' :: strings.ReplaceAll t ['/'] ['\\']
    rw [strings.ReplaceAll_single, strings.ReplaceAll_single]
    rcases hc with e | e <;> subst e <;> simp
  rw [hr]
  exact (strings.HasPrefix_iff _ _).mpr ⟨_, rfl⟩

/-- C10, amended: for a folder that begins with a slash or a backslash, the
WSL form of `Concatenate` gives a URI that begins with `file://wsl%24/` and
has no backslash when the file reference has none, and a native path that
begins with the two backslashes and `wsl$`, has no forward slash, and goes on
with a backslash when the folder begins with a slash or when neither the
folder nor the file reference contains `..`. -/
theorem Concatenate_wsl (folder file : GoString)
    (hf : strings.HasPrefix folder "/".toList = true ∨
      strings.HasPrefix folder "\\".toList = true) :
    strings.HasPrefix (Concatenate folder file true).1 "file://wsl%24/".toList = true ∧
    ('\\' ∉ file → '\\' ∉ (Concatenate folder file true).1) ∧
    strings.HasPrefix (Concatenate folder file true).2 "\\\\wsl$".toList = true ∧
    '/' ∉ (Concatenate folder file true).2 ∧
    ((strings.HasPrefix folder "/".toList = true ∨
        (containsDotDot folder = false ∧ containsDotDot file = false)) →
      strings.HasPrefix (Concatenate folder file true).2 "\\\\wsl$\\".toList = true) := by
  obtain ⟨c, f, hfolder, hc⟩ : ∃ c f, folder = c :: f ∧ (c = '/' ∨ c = '\\') := by
    rcases hf with h | h
    · obtain ⟨w, hw⟩ := (strings.HasPrefix_iff folder _).mp h
      exact ⟨'/', w, hw, Or.inl rfl⟩
    · obtain ⟨w, hw⟩ := (strings.HasPrefix_iff folder _).mp h
      exact ⟨'\\', w, hw, Or.inr rfl⟩
  have hne : folder ≠ [] := by rw [hfolder]; exact List.cons_ne_nil _ _
  have hrep : strings.ReplaceAll folder "\\".toList "/".toList =
      '/' :: strings.ReplaceAll f "\\".toList "/".toList := by
    rw [hfolder]
    show strings.ReplaceAll (c :: f) ['\\'] ['/'] = '/' :: strings.ReplaceAll f ['\\'] ['/']
    rw [strings.ReplaceAll_single, strings.ReplaceAll_single]
    rcases hc with e | e <;> subst e <;> simp
  have huri : (Concatenate folder file true).1 = "file://wsl%24".toList ++
      path.Clean ('/' :: (strings.ReplaceAll f "\\".toList "/".toList ++ '/' :: file)) := by
    simp only [Concatenate, if_true]
    rw [hrep, path.Join_pair _ _ (List.cons_ne_nil _ _)]
    rfl
  have hnat : (Concatenate folder file true).2 = "\\\\wsl$".toList ++
      strings.ReplaceAll (path.Clean (folder ++ '/' :: file)) "/".toList "\\".toList := by
    simp only [Concatenate, if_true]
    rw [path.Join_pair _ _ hne]
  refine ⟨?_, ?_, ?_, ?_, ?_⟩
  · obtain ⟨t, ht⟩ := head?_eq_some_cons _ _ (path.Clean_rooted
      (strings.ReplaceAll f "\\".toList "/".toList ++ '/' :: file))
    rw [huri, ht]
    exact (strings.HasPrefix_iff _ _).mpr ⟨t, rfl⟩
  · intro hfile hm
    rw [huri] at hm
    rcases List.mem_append.mp hm with h | h
    · exact absurd h (by decide)
    · rcases path.mem_Clean _ _ h with h1 | h1 | h1
      · rcases List.mem_cons.mp h1 with h2 | h2
        · exact absurd h2 (by decide)
        · rcases List.mem_append.mp h2 with h3 | h3
          · exact strings.not_mem_ReplaceAll f '\\' '/' (by decide) h3
          · rcases List.mem_cons.mp h3 with h4 | h4
            · exact absurd h4 (by decide)
            · exact hfile h4
      · exact absurd h1 (by decide)
      · exact absurd h1 (by decide)
  · rw [hnat]
    exact (strings.HasPrefix_iff _ _).mpr ⟨_, rfl⟩
  · intro hm
    rw [hnat] at hm
    rcases List.mem_append.mp hm with h | h
    · exact absurd h (by decide)
    · exact strings.not_mem_ReplaceAll _ '/' '\\' (by decide) h
  · intro h
    rw [hnat]
    rcases hc with e | e
    · subst e
      rw [hfolder]
      exact wsl_native_start _ '/' (Or.inl rfl) (path.Clean_rooted _)
    · subst e
      have hdd : containsDotDot folder = false ∧ containsDotDot file = false := by
        rcases h with h | h
        · rw [hfolder] at h
          simp [strings.HasPrefix, List.isPrefixOf] at h
        · exact h
      have hj := containsDotDot_join folder file hdd.1 hdd.2
      rw [hfolder] at hj ⊢
      exact wsl_native_start _ '\\' (Or.inr rfl)
        (path.Clean_first_byte '\\' _ (by decide) (by decide) hj)

/-- The WSL example of the specification: folder `\Ubuntu\proj`, file
`x.env`. -/
theorem Concatenate_wsl_witness :
    strings.HasPrefix (Concatenate "\\Ubuntu\\proj".toList "x.env".toList true).1
        "file://wsl%24/".toList = true ∧
      '\\' ∉ (Concatenate "\\Ubuntu\\proj".toList "x.env".toList true).1 ∧
      strings.HasPrefix (Concatenate "\\Ubuntu\\proj".toList "x.env".toList true).2
        "\\\\wsl$".toList = true ∧
      '/' ∉ (Concatenate "\\Ubuntu\\proj".toList "x.env".toList true).2 ∧
      strings.HasPrefix (Concatenate "\\Ubuntu\\proj".toList "x.env".toList true).2
        "\\\\wsl$\\".toList = true :=
  have h := Concatenate_wsl "\\Ubuntu\\proj".toList "x.env".toList (Or.inr (by decide))
  ⟨h.1, h.2.1 (by decide), h.2.2.1, h.2.2.2.1, h.2.2.2.2 (Or.inr ⟨by decide, by decide⟩)⟩

/-- C10, as stated, fails twice.  A backslash of the file reference stays in
the URI: folder `/Ubuntu/proj` and file `a\x.env` give
`file://wsl%24/Ubuntu/proj/a\x.env`.  And with a folder written with
backslashes a `..` element removes the whole folder from the native path:
folder `\Ubuntu\proj` and file `../x.env` give `\\wsl$x.env`, which does not
begin with `\\wsl$\`. -/
theorem wsl_backslash_and_dotdot_escape :
    (strings.HasPrefix "/Ubuntu/proj".toList "/".toList = true ∧
      (Concatenate "/Ubuntu/proj".toList "a\\x.env".toList true).1 =
        "file://wsl%24/Ubuntu/proj/a\\x.env".toList ∧
      '\\' ∈ (Concatenate "/Ubuntu/proj".toList "a\\x.env".toList true).1) ∧
    (strings.HasPrefix "\\Ubuntu\\proj".toList "\\".toList = true ∧
      (Concatenate "\\Ubuntu\\proj".toList "../x.env".toList true).2 = "\\\\wsl$x.env".toList ∧
      strings.HasPrefix (Concatenate "\\Ubuntu\\proj".toList "../x.env".toList true).2
        "\\\\wsl$\\".toList = false) := by
  decide

/-! ## File links -/

/-- C9 fails on the code: `createLink` joins the folder and an absolute
path.  For the folder `/proj` and an `env_file` scalar `/etc/app.env`, an
absolute path, the link targets `file:///proj/etc/app.env` with tooltip
`/proj/etc/app.env`, whereas `createLocalFileLink`, the path taken for
volumes, gives `file:///etc/app.env` and `/etc/app.env`. -/
theorem createLink_absolute_path_joined :
    filepath.IsAbs "/etc/app.env".toList = true ∧
    createLink "/proj".toList false
        ⟨TokenType.StringType, "/etc/app.env".toList, ⟨3, 7⟩⟩ =
      { Range := ⟨⟨2, 6⟩, ⟨2, 18⟩⟩
        Target := some "file:///proj/etc/app.env".toList
        Tooltip := some "/proj/etc/app.env".toList } ∧
    createLocalFileLink "/proj".toList "/etc/app.env".toList false =
      ("file:///etc/app.env".toList, "/etc/app.env".toList) := by
  decide

/-! ## Reference decoders: values that the decoders do not reject -/

/-- C3 fails on the code: the digest reference `repo@sha256:abcd` is not
rejected.  The value is cut at its last colon and linked as the official
image `repo@sha256`. -/
theorem extractImageLink_digest_linked :
    '@' ∈ "repo@sha256:abcd".toList ∧
    extractImageLink "repo@sha256:abcd".toList =
      some ("repo@sha256".toList, "https://hub.docker.com/_/repo@sha256".toList) := by
  decide

/-- C7 fails on the code: in `localhost:5000/img` the last colon (index 9)
lies before the last slash (index 14), and both decoders take the text before
the colon as a Docker Hub repository name. -/
theorem extract_links_port_colon_linked :
    strings.LastIndex "localhost:5000/img".toList ":".toList = 9 ∧
    strings.LastIndex "localhost:5000/img".toList "/".toList = 14 ∧
    extractImageLink "localhost:5000/img".toList =
      some ("localhost".toList, "https://hub.docker.com/r/localhost".toList) ∧
    extractModelLink "localhost:5000/img".toList =
      some ("localhost".toList, "https://hub.docker.com/r/localhost".toList) := by
  decide

/-! ## Reference decoders: paths with two or more slashes -/

/-- The Docker Hub rule never gives the empty pair: its URL is never empty. -/
theorem dockerHubLink_ne_empty (v : GoString) : dockerHubLink v ≠ some ([], []) := by
  by_cases hc : ':' ∈ v
  · obtain ⟨n, tag, hv, ht⟩ := strings.exists_last ':' v hc
    subst hv
    rw [dockerHubLink_colon n tag ht]
    split <;> simp [String.toList]
  · rw [dockerHubLink_no_colon v hc]
    split <;> simp [String.toList]

/-- The `mcr.microsoft.com` branch on a value cut at its last colon, when the
colon does not directly follow the registry name. -/
theorem mcr_general (a tag : GoString) (ha : a ≠ []) (ht : ':' ∉ tag) :
    (('/' ∈ tag ∨ ("mcr.microsoft.com".toList ++ a).getLast? = some '/') →
      extractImageLink ("mcr.microsoft.com".toList ++ a ++ ':' :: tag) = some ([], [])) ∧
    ('/' ∉ tag → ("mcr.microsoft.com".toList ++ a).getLast? ≠ some '/' →
      extractImageLink ("mcr.microsoft.com".toList ++ a ++ ':' :: tag) =
        some ("mcr.microsoft.com".toList ++ a,
          "https://mcr.microsoft.com/artifact/mar/".toList ++ a.drop 1)) := by
  have hpre1 : strings.HasPrefix ("mcr.microsoft.com".toList ++ a ++ ':' :: tag)
      "ghcr.io".toList = false := rfl
  have hpre2 : strings.HasPrefix ("mcr.microsoft.com".toList ++ a ++ ':' :: tag)
      "mcr.microsoft.com".toList = true :=
    (strings.HasPrefix_iff _ _).mpr ⟨a ++ ':' :: tag, by rw [List.append_assoc]⟩
  have halen : 0 < a.length := List.length_pos.mpr ha
  have hnlen : ("mcr.microsoft.com".toList ++ a).length = 17 + a.length := by
    rw [List.length_append]
    have : "mcr.microsoft.com".toList.length = 17 := by decide
    omega
  have hlong : ¬ (("mcr.microsoft.com".toList ++ a ++ ':' :: tag).length : Int) ≤ 18 := by
    rw [List.length_append, hnlen]
    simp only [List.length_cons]
    push_cast
    omega
  have hidx : strings.LastIndex ("mcr.microsoft.com".toList ++ a ++ ':' :: tag) [':'] =
      (("mcr.microsoft.com".toList ++ a).length : Int) :=
    strings.LastIndex_append_cons ':' _ tag ht
  have h17 : ¬ ((("mcr.microsoft.com".toList ++ a).length : Int) = 17) := by
    rw [hnlen]; push_cast; omega
  have hneg : ¬ ((("mcr.microsoft.com".toList ++ a).length : Int) = -1) := by
    rw [hnlen]; push_cast; omega
  constructor
  · intro h
    by_cases hs : '/' ∈ tag
    · have hgt := strings.LastIndex_split_gt '/' ':' ("mcr.microsoft.com".toList ++ a) tag hs
      simp only [extractImageLink, hpre1, hpre2, Bool.false_eq_true, if_false, if_true, hlong,
        colon_toList, slash_toList, hidx, h17, ne_eq, hneg, not_false_eq_true, gt_iff_lt, hgt,
        and_self, or_true]
    · have hsame := (strings.LastIndex_split_lt '/' ':' ("mcr.microsoft.com".toList ++ a) tag
        (by decide) hs).2
      have hend : ("mcr.microsoft.com".toList ++ a).getLast? = some '/' := by
        rcases h with h | h
        · exact absurd h hs
        · exact h
      obtain ⟨x, hx⟩ := List.getLast?_eq_some_iff.mp hend
      have hlast : strings.LastIndex ("mcr.microsoft.com".toList ++ a) ['/'] = x.length := by
        rw [hx]
        exact strings.LastIndex_append_cons '/' x [] (by simp)
      have hxlen : ("mcr.microsoft.com".toList ++ a).length = x.length + 1 := by
        rw [hx, List.length_append]; rfl
      have heq : strings.LastIndex ("mcr.microsoft.com".toList ++ a ++ ':' :: tag) ['/'] =
          (("mcr.microsoft.com".toList ++ a).length : Int) - 1 := by
        rw [hsame, hlast, hxlen]
        simp
      simp only [extractImageLink, hpre1, hpre2, Bool.false_eq_true, if_false, if_true, hlong,
        colon_toList, slash_toList, hidx, h17, heq, true_or]
  · intro hs hend
    have hlt := strings.LastIndex_split_lt '/' ':' ("mcr.microsoft.com".toList ++ a) tag
      (by decide) hs
    have hne1 : ¬ (strings.LastIndex ("mcr.microsoft.com".toList ++ a ++ ':' :: tag) ['/'] =
        (("mcr.microsoft.com".toList ++ a).length : Int) - 1) := by
      rw [hlt.2]
      by_cases hm : '/' ∈ "mcr.microsoft.com".toList ++ a
      · obtain ⟨x, y, hxy, hy, hlast⟩ := strings.LastIndex_of_mem '/' _ hm
        have hy1 : y ≠ [] := by
          intro e
          rw [e] at hxy
          exact hend (List.getLast?_eq_some_iff.mpr ⟨x, hxy⟩)
        have hylen : 0 < y.length := List.length_pos.mpr hy1
        have hxlen : ("mcr.microsoft.com".toList ++ a).length = x.length + 1 + y.length := by
          rw [hxy]
          simp only [List.length_append, List.length_cons]
          omega
        rw [hlast, hxlen]
        push_cast
        omega
      · rw [strings.LastIndex_of_not_mem '/' _ hm, hnlen]
        push_cast
        omega
    have hngt : ¬ ((("mcr.microsoft.com".toList ++ a).length : Int) <
        strings.LastIndex ("mcr.microsoft.com".toList ++ a ++ ':' :: tag) ['/']) := by
      have := hlt.1
      omega
    have h18 : 18 ≤ ("mcr.microsoft.com".toList ++ a).length := by
      rw [hnlen]; omega
    have hsl1 := slice_zero_length_append ("mcr.microsoft.com".toList ++ a) (':' :: tag)
    have hsl2 := slice_append_left ("mcr.microsoft.com".toList ++ a) (':' :: tag) 18 h18
    have hdrop : ("mcr.microsoft.com".toList ++ a).drop 18 = a.drop 1 := rfl
    rw [hdrop] at hsl2
    have hsl3 : slice ("mcr.microsoft.com".toList ++ a ++ ':' :: tag) 18
        (("mcr.microsoft.com".toList ++ a).length : Int) = some (a.drop 1) := hsl2
    simp only [extractImageLink, hpre1, hpre2, Bool.false_eq_true, if_false, if_true, hlong,
      colon_toList, slash_toList, hidx, h17, hne1, ne_eq, hneg, not_false_eq_true, gt_iff_lt,
      hngt, and_false, or_self, hsl1, hsl3, Option.bind]

/-- The `mcr.microsoft.com` branch rejects a colon right after the registry
name. -/
theorem mcr_port (tag : GoString) (ht : ':' ∉ tag) :
    extractImageLink ("mcr.microsoft.com".toList ++ ':' :: tag) = some ([], []) := by
  have hpre1 : strings.HasPrefix ("mcr.microsoft.com".toList ++ ':' :: tag)
      "ghcr.io".toList = false := rfl
  have hpre2 : strings.HasPrefix ("mcr.microsoft.com".toList ++ ':' :: tag)
      "mcr.microsoft.com".toList = true := (strings.HasPrefix_iff _ _).mpr ⟨_, rfl⟩
  have hidx : strings.LastIndex ("mcr.microsoft.com".toList ++ ':' :: tag) [':'] = 17 :=
    strings.LastIndex_append_cons ':' _ tag ht
  simp only [extractImageLink, hpre1, hpre2, Bool.false_eq_true, if_false, if_true,
    colon_toList, hidx]
  split <;> rfl

/-- The `mcr.microsoft.com` branch on a value with two slashes and no colon
links the whole value. -/
theorem mcr_deep_no_colon (w : GoString) (hk : 2 ≤ w.count '/')
    (hc : ':' ∉ "mcr.microsoft.com".toList ++ w) :
    extractImageLink ("mcr.microsoft.com".toList ++ w) =
      some ("mcr.microsoft.com".toList ++ w,
        "https://mcr.microsoft.com/artifact/mar/".toList ++ w.drop 1) := by
  have hpre1 : strings.HasPrefix ("mcr.microsoft.com".toList ++ w) "ghcr.io".toList = false :=
    rfl
  have hpre2 : strings.HasPrefix ("mcr.microsoft.com".toList ++ w)
      "mcr.microsoft.com".toList = true := (strings.HasPrefix_iff _ _).mpr ⟨_, rfl⟩
  have hwlen : w.count '/' ≤ w.length := List.count_le_length '/' w
  have hvlen : ("mcr.microsoft.com".toList ++ w).length = 17 + w.length := by
    rw [List.length_append]
    have : "mcr.microsoft.com".toList.length = 17 := by decide
    omega
  have hlong : ¬ (("mcr.microsoft.com".toList ++ w).length : Int) ≤ 18 := by
    rw [hvlen]; push_cast; omega
  have hidx := strings.LastIndex_of_not_mem ':' _ hc
  have hslash : '/' ∈ "mcr.microsoft.com".toList ++ w :=
    List.mem_append_right _ (List.count_pos_iff.mp (by omega))
  obtain ⟨x, y, _, _, hlast⟩ := strings.LastIndex_of_mem '/' _ hslash
  have hne1 : ¬ (strings.LastIndex ("mcr.microsoft.com".toList ++ w) ['/'] = -1 - 1) := by
    rw [hlast]; omega
  have hsl : sliceFrom ("mcr.microsoft.com".toList ++ w) 18 = some (w.drop 1) :=
    sliceFrom_eq_drop _ 18 (by rw [hvlen]; omega)
  simp only [extractImageLink, hpre1, hpre2, Bool.false_eq_true, if_false, if_true, hlong,
    colon_toList, slash_toList, hidx, hne1, ne_eq, not_true_eq_false, false_and, or_self, hsl,
    Option.bind]
  rfl

/-- A value that starts with a text without colon is cut at its last colon
after that text. -/
theorem cut_after_start (pre w n tag : GoString) (h : pre ++ w = n ++ ':' :: tag)
    (hp : ':' ∉ pre) : ∃ a, n = pre ++ a ∧ w = a ++ ':' :: tag := by
  rcases List.append_eq_append_iff.mp h with ⟨a, ha, hw⟩ | ⟨c, hc, hw⟩
  · exact ⟨a, ha, hw⟩
  · cases c with
    | nil =>
        refine ⟨[], ?_, ?_⟩
        · rw [hc]; simp
        · simpa using hw.symm
    | cons d c2 =>
        simp only [List.cons_append, List.cons.injEq] at hw
        exfalso
        apply hp
        rw [hc, ← hw.1]
        simp

/-- With two or more slashes, `extractNonDockerHubImageLink` rejects exactly
the values in which a slash follows the last colon. -/
theorem nonDockerHub_deep (v pfx uri : GoString) (start : Nat)
    (hpl : pfx.length = 7) (hst : start ≤ 8)
    (hstart : ∀ n rest : GoString, v = n ++ rest → 2 ≤ n.count '/' → start ≤ n.length)
    (hk : 2 ≤ v.count '/') (hlen : 8 < v.length) :
    extractNonDockerHubImageLink v pfx uri start = some ([], []) ↔
      ∃ n tag : GoString, v = n ++ ':' :: tag ∧ ':' ∉ tag ∧ '/' ∈ tag := by
  rw [(nonDockerHub_spec v pfx uri start hpl hst hstart).1]
  constructor
  · rintro (h | h | h)
    · omega
    · exact h
    · omega
  · intro h
    exact Or.inr (Or.inl h)

/-- C8, amended: an image reference with two or more slashes is rejected
exactly when it starts with `ghcr.io`, `mcr.microsoft.com` or `quay.io` and
has a colon whose last occurrence is followed by a slash or, for
`mcr.microsoft.com`, directly preceded by one.  A deeper path alone is not
rejected: `ghcr.io/org/team/image` links itself. -/
theorem extractImageLink_deep_path (v : GoString) (hk : 2 ≤ v.count '/') :
    (extractImageLink v = some ([], []) ↔
      ((strings.HasPrefix v "ghcr.io".toList = true ∨
          strings.HasPrefix v "mcr.microsoft.com".toList = true ∨
          strings.HasPrefix v "quay.io".toList = true) ∧
        ∃ n tag : GoString, v = n ++ ':' :: tag ∧ ':' ∉ tag ∧
          ('/' ∈ tag ∨
            (strings.HasPrefix v "mcr.microsoft.com".toList = true ∧
              n.getLast? = some '/')))) ∧
    extractImageLink "ghcr.io/org/team/image".toList =
      some ("ghcr.io/org/team/image".toList, "https://ghcr.io/org/team/image".toList) := by
  refine ⟨?_, by decide⟩
  by_cases hg : strings.HasPrefix v "ghcr.io".toList = true
  · obtain ⟨w, hw⟩ := (strings.HasPrefix_iff v _).mp hg
    have hm : strings.HasPrefix v "mcr.microsoft.com".toList = false := by rw [hw]; rfl
    have he : extractImageLink v =
        extractNonDockerHubImageLink v "ghcr.io".toList "https://".toList 0 := by
      simp only [extractImageLink, hg, if_true]
    have hlen : 8 < v.length := by
      have h1 : v.count '/' = w.count '/' := by
        rw [hw, List.count_append]
        have : "ghcr.io".toList.count '/' = 0 := by decide
        omega
      have h2 : w.count '/' ≤ w.length := List.count_le_length '/' w
      have h3 : v.length = 7 + w.length := by
        rw [hw, List.length_append]
        have : "ghcr.io".toList.length = 7 := by decide
        omega
      omega
    rw [he, nonDockerHub_deep v _ _ 0 (by decide) (by decide) (fun _ _ _ _ => Nat.zero_le _)
      hk hlen]
    simp only [hg, hm, Bool.false_eq_true, false_and, or_false, true_or, true_and]
  by_cases hm : strings.HasPrefix v "mcr.microsoft.com".toList = true
  · obtain ⟨w, hw⟩ := (strings.HasPrefix_iff v _).mp hm
    have hcw : v.count '/' = w.count '/' := by
      rw [hw, List.count_append]
      have : "mcr.microsoft.com".toList.count '/' = 0 := by decide
      omega
    simp only [hm, true_or, or_true, true_and, true_and]
    by_cases hc : ':' ∈ v
    · obtain ⟨n, tag, hv, ht⟩ := strings.exists_last ':' v hc
      obtain ⟨a, hna, hwa⟩ := cut_after_start _ w n tag (hw ▸ hv) (by decide)
      have huniq : ∀ n2 tag2 : GoString, v = n2 ++ ':' :: tag2 → ':' ∉ tag2 →
          n2 = n ∧ tag2 = tag := by
        intro n2 tag2 h1 h2
        have := strings.last_split_unique ':' n tag n2 tag2 (hv ▸ h1) ht h2
        exact ⟨this.1.symm, this.2.symm⟩
      by_cases ha : a = []
      · have hn : n = "mcr.microsoft.com".toList := by rw [hna, ha]; simp
        have hr : extractImageLink v = some ([], []) := by
          rw [hv, hn]; exact mcr_port tag ht
        have hs : '/' ∈ tag := by
          have h1 : w.count '/' = tag.count '/' := by
            rw [hwa, ha]
            simp only [List.nil_append]
            rw [List.count_cons_of_ne (by decide)]
          exact List.count_pos_iff.mp (by omega)
        exact ⟨fun _ => ⟨n, tag, hv, ht, Or.inl hs⟩, fun _ => hr⟩
      · have hgen := mcr_general a tag ha ht
        rw [← hna, ← hv] at hgen
        by_cases hrej : '/' ∈ tag ∨ n.getLast? = some '/'
        · have hr := hgen.1 hrej
          have hrhs : '/' ∈ tag ∨ n.getLast? = some '/' := hrej
          exact ⟨fun _ => ⟨n, tag, hv, ht, hrhs⟩, fun _ => hr⟩
        · have hs : '/' ∉ tag := fun h => hrej (Or.inl h)
          have hend : n.getLast? ≠ some '/' := fun h => hrej (Or.inr h)
          have hr := hgen.2 hs hend
          have hne : n ≠ [] := by
            rw [hna]; simp [String.toList]
          constructor
          · intro h
            rw [hr] at h
            simp only [Option.some.injEq, Prod.mk.injEq] at h
            exact absurd h.1 hne
          · rintro ⟨n2, tag2, h1, h2, h3⟩
            obtain ⟨e1, e2⟩ := huniq n2 tag2 h1 h2
            subst e1 e2
            exact absurd h3 hrej
    · have hcw2 : ':' ∉ "mcr.microsoft.com".toList ++ w := hw ▸ hc
      have hr := mcr_deep_no_colon w (by omega) hcw2
      rw [← hw] at hr
      have hne : v ≠ [] := by
        rw [hw]; simp [String.toList]
      constructor
      · intro h
        rw [hr] at h
        simp only [Option.some.injEq, Prod.mk.injEq] at h
        exact absurd h.1 hne
      · rintro ⟨n2, tag2, h1, _, _⟩
        exact absurd (show ':' ∈ v by rw [h1]; simp) hc
  by_cases hq : strings.HasPrefix v "quay.io".toList = true
  · obtain ⟨w, hw⟩ := (strings.HasPrefix_iff v _).mp hq
    have hg2 : strings.HasPrefix v "ghcr.io".toList = false := by rw [hw]; rfl
    have hm2 : strings.HasPrefix v "mcr.microsoft.com".toList = false := by rw [hw]; rfl
    have he : extractImageLink v =
        extractNonDockerHubImageLink v "quay.io".toList "https://quay.io/repository/".toList 8 := by
      simp only [extractImageLink, hg2, hm2, hq, Bool.false_eq_true, if_false, if_true]
    have hlen : 8 < v.length := by
      have := quay_start_le w v [] (by rw [List.append_nil]; exact hw.symm) hk
      have h1 : v.count '/' = w.count '/' := by
        rw [hw, List.count_append]
        have : "quay.io".toList.count '/' = 0 := by decide
        omega
      have h2 : w.count '/' ≤ w.length := List.count_le_length '/' w
      have h3 : v.length = 7 + w.length := by
        rw [hw, List.length_append]
        have : "quay.io".toList.length = 7 := by decide
        omega
      omega
    rw [he, nonDockerHub_deep v _ _ 8 (by decide) (by decide)
      (fun n rest hv hk2 => quay_start_le w n rest (hw ▸ hv) hk2) hk hlen]
    simp only [hg2, hm2, hq, Bool.false_eq_true, false_and, or_false, false_or, true_and]
  · have hg2 : strings.HasPrefix v "ghcr.io".toList = false := by simpa using hg
    have hm2 : strings.HasPrefix v "mcr.microsoft.com".toList = false := by simpa using hm
    have hq2 : strings.HasPrefix v "quay.io".toList = false := by simpa using hq
    have he : extractImageLink v = dockerHubLink v := by
      simp only [extractImageLink, hg2, hm2, hq2, Bool.false_eq_true, if_false]
    rw [he]
    simp only [hg2, hm2, hq2, Bool.false_eq_true, or_self, false_and, iff_false]
    exact dockerHubLink_ne_empty v

/-- C8 at values with a deeper path: `quay.io/a/b/c:1` is linked, and the
port colon of `ghcr.io:443/org/image` is rejected. -/
theorem extractImageLink_deep_path_witness :
    (extractImageLink "quay.io/a/b/c:1".toList = some ([], []) ↔
      ((strings.HasPrefix "quay.io/a/b/c:1".toList "ghcr.io".toList = true ∨
          strings.HasPrefix "quay.io/a/b/c:1".toList "mcr.microsoft.com".toList = true ∨
          strings.HasPrefix "quay.io/a/b/c:1".toList "quay.io".toList = true) ∧
        ∃ n tag : GoString, "quay.io/a/b/c:1".toList = n ++ ':' :: tag ∧ ':' ∉ tag ∧
          ('/' ∈ tag ∨
            (strings.HasPrefix "quay.io/a/b/c:1".toList "mcr.microsoft.com".toList = true ∧
              n.getLast? = some '/')))) ∧
    extractImageLink "ghcr.io:443/org/image".toList = some ([], []) :=
  ⟨(extractImageLink_deep_path "quay.io/a/b/c:1".toList (by decide)).1,
    ((extractImageLink_deep_path "ghcr.io:443/org/image".toList (by decide)).1).mpr
      ⟨Or.inl (by decide), "ghcr.io".toList, "443/org/image".toList, by decide, by decide,
        Or.inl (by decide)⟩⟩

/-- C8, as stated, fails: `ghcr.io/org/team/image` has three slashes and is
linked, not rejected. -/
theorem deep_ghcr_path_is_linked :
    2 ≤ "ghcr.io/org/team/image".toList.count '/' ∧
    extractImageLink "ghcr.io/org/team/image".toList ≠ some ([], []) ∧
    extractImageLink "a/b/c".toList =
      some ("a/b/c".toList, "https://hub.docker.com/r/a/b/c".toList) := by
  decide

/-! ## Reference decoders: no slice is out of range -/

/-- The last index of a byte is `-1` or an index of the text. -/
theorem strings.LastIndex_ge (c : Char) (v : GoString) : -1 ≤ strings.LastIndex v [c] := by
  by_cases h : c ∈ v
  · obtain ⟨x, y, _, _, hl⟩ := strings.LastIndex_of_mem c v h
    rw [hl]; omega
  · rw [strings.LastIndex_of_not_mem c v h]

theorem dockerHubLink_total (v : GoString) : (dockerHubLink v).isSome = true := by
  by_cases hc : ':' ∈ v
  · obtain ⟨n, tag, hv, ht⟩ := strings.exists_last ':' v hc
    subst hv
    rw [dockerHubLink_colon n tag ht]
    split <;> rfl
  · rw [dockerHubLink_no_colon v hc]
    split <;> rfl

theorem nonDockerHub_total (v pfx uri : GoString) (start : Nat)
    (hpl : pfx.length = 7) (hst : start ≤ 8)
    (hstart : ∀ n rest : GoString, v = n ++ rest → 2 ≤ n.count '/' → start ≤ n.length) :
    (extractNonDockerHubImageLink v pfx uri start).isSome = true := by
  have h := nonDockerHub_spec v pfx uri start hpl hst hstart
  by_cases hR : v.length ≤ 8 ∨
      (∃ n tag : GoString, v = n ++ ':' :: tag ∧ ':' ∉ tag ∧ '/' ∈ tag) ∨ v.count '/' < 2
  · rw [h.1.mpr hR]; rfl
  · by_cases hc : ':' ∈ v
    · obtain ⟨n, tag, hv, ht⟩ := strings.exists_last ':' v hc
      rw [(h.2 hR).2 n tag hv ht]; rfl
    · rw [(h.2 hR).1 hc]; rfl

/-- The `mcr.microsoft.com` branch on any value without a colon. -/
theorem mcr_no_colon_total (w : GoString) (hc : ':' ∉ "mcr.microsoft.com".toList ++ w) :
    (extractImageLink ("mcr.microsoft.com".toList ++ w)).isSome = true := by
  have hpre1 : strings.HasPrefix ("mcr.microsoft.com".toList ++ w) "ghcr.io".toList = false :=
    rfl
  have hpre2 : strings.HasPrefix ("mcr.microsoft.com".toList ++ w)
      "mcr.microsoft.com".toList = true := (strings.HasPrefix_iff _ _).mpr ⟨_, rfl⟩
  have hidx := strings.LastIndex_of_not_mem ':' _ hc
  have hge := strings.LastIndex_ge '/' ("mcr.microsoft.com".toList ++ w)
  have hne1 : ¬ (strings.LastIndex ("mcr.microsoft.com".toList ++ w) ['/'] = -1 - 1) := by
    omega
  by_cases hlong : (("mcr.microsoft.com".toList ++ w).length : Int) ≤ 18
  · simp only [extractImageLink, hpre1, hpre2, Bool.false_eq_true, if_false, if_true, hlong]
    rfl
  · have h18 : 18 ≤ ("mcr.microsoft.com".toList ++ w).length := by omega
    have hsl := sliceFrom_eq_drop ("mcr.microsoft.com".toList ++ w) 18 h18
    have hsl2 : sliceFrom ("mcr.microsoft.com".toList ++ w) 18 =
        some (("mcr.microsoft.com".toList ++ w).drop 18) := hsl
    simp only [extractImageLink, hpre1, hpre2, Bool.false_eq_true, if_false, if_true, hlong,
      colon_toList, slash_toList, hidx, hne1, ne_eq, not_true_eq_false, false_and, or_self,
      hsl2, Option.bind]
    rfl

theorem extractImageLink_total (v : GoString) : (extractImageLink v).isSome = true := by
  by_cases hg : strings.HasPrefix v "ghcr.io".toList = true
  · have he : extractImageLink v =
        extractNonDockerHubImageLink v "ghcr.io".toList "https://".toList 0 := by
      simp only [extractImageLink, hg, if_true]
    rw [he]
    exact nonDockerHub_total v _ _ 0 (by decide) (by decide) (fun _ _ _ _ => Nat.zero_le _)
  by_cases hm : strings.HasPrefix v "mcr.microsoft.com".toList = true
  · obtain ⟨w, hw⟩ := (strings.HasPrefix_iff v _).mp hm
    by_cases hc : ':' ∈ v
    · obtain ⟨n, tag, hv, ht⟩ := strings.exists_last ':' v hc
      obtain ⟨a, hna, _⟩ := cut_after_start _ w n tag (hw ▸ hv) (by decide)
      by_cases ha : a = []
      · have hn : n = "mcr.microsoft.com".toList := by rw [hna, ha]; simp
        rw [hv, hn, mcr_port tag ht]; rfl
      · have hgen := mcr_general a tag ha ht
        rw [← hna, ← hv] at hgen
        by_cases hrej : '/' ∈ tag ∨ n.getLast? = some '/'
        · rw [hgen.1 hrej]; rfl
        · rw [hgen.2 (fun h => hrej (Or.inl h)) (fun h => hrej (Or.inr h))]; rfl
    · rw [hw]
      exact mcr_no_colon_total w (hw ▸ hc)
  by_cases hq : strings.HasPrefix v "quay.io".toList = true
  · obtain ⟨w, hw⟩ := (strings.HasPrefix_iff v _).mp hq
    have hg2 : strings.HasPrefix v "ghcr.io".toList = false := by rw [hw]; rfl
    have hm2 : strings.HasPrefix v "mcr.microsoft.com".toList = false := by rw [hw]; rfl
    have he : extractImageLink v =
        extractNonDockerHubImageLink v "quay.io".toList "https://quay.io/repository/".toList 8 := by
      simp only [extractImageLink, hg2, hm2, hq, Bool.false_eq_true, if_false, if_true]
    rw [he]
    exact nonDockerHub_total v _ _ 8 (by decide) (by decide)
      (fun n rest hv hk2 => quay_start_le w n rest (hw ▸ hv) hk2)
  · have hg2 : strings.HasPrefix v "ghcr.io".toList = false := by simpa using hg
    have hm2 : strings.HasPrefix v "mcr.microsoft.com".toList = false := by simpa using hm
    have hq2 : strings.HasPrefix v "quay.io".toList = false := by simpa using hq
    have he : extractImageLink v = dockerHubLink v := by
      simp only [extractImageLink, hg2, hm2, hq2, Bool.false_eq_true, if_false]
    rw [he]
    exact dockerHubLink_total v

theorem extractModelLink_total (v : GoString) : (extractModelLink v).isSome = true := by
  by_cases hp : strings.HasPrefix v "hf.co".toList = true
  · by_cases hl : (v.length : Int) ≤ 6
    · simp only [extractModelLink, hp, hl, if_true]
      rfl
    · by_cases hc : ':' ∈ v
      · obtain ⟨n, tag, hv, ht⟩ := strings.exists_last ':' v hc
        have h1 : strings.LastIndex v [':'] = n.length := by
          rw [hv]; exact strings.LastIndex_append_cons ':' n tag ht
        have h0 : ((n.length : Int) = -1) = False := by
          apply eq_false; omega
        have hsl : slice v 0 (n.length : Int) = some n := by
          rw [hv]; exact slice_zero_length_append n _
        simp only [extractModelLink, hp, if_true, hl, if_false, colon_toList, h1, h0, hsl,
          Option.bind]
        rfl
      · have h1 : strings.LastIndex v [':'] = -1 := strings.LastIndex_of_not_mem ':' v hc
        simp only [extractModelLink, hp, hl, colon_toList, h1, if_true, if_false]
        rfl
  · have hp2 : strings.HasPrefix v "hf.co".toList = false := by simpa using hp
    have he : extractModelLink v = dockerHubLink v := by
      simp only [extractModelLink, hp2, Bool.false_eq_true, if_false]
    rw [he]
    exact dockerHubLink_total v

/-- C20: the two decoders return for every value: each of their slices is in
range, so the panic of the model, `none`, is never the result. -/
theorem extract_links_never_panic (v : GoString) :
    (∃ name url : GoString, extractImageLink v = some (name, url)) ∧
    (∃ name url : GoString, extractModelLink v = some (name, url)) := by
  have h1 := extractImageLink_total v
  have h2 := extractModelLink_total v
  obtain ⟨r1, hr1⟩ := Option.isSome_iff_exists.mp h1
  obtain ⟨r2, hr2⟩ := Option.isSome_iff_exists.mp h2
  exact ⟨⟨r1.1, r1.2, hr1⟩, ⟨r2.1, r2.2, hr2⟩⟩

/-! ## Image links -/

/-- C11: for an attribute whose key is `image` and whose value resolves to a
string scalar with value `v` and token `t`, `createImageLink` returns a link
exactly when the name decoded by `extractImageLink v` is not empty, and the
link then has the range `createRange t (length of the name)` and the decoded
URL as target and as tooltip; for an attribute with another key or with a
value that is no string scalar it returns no link. -/
theorem createImageLink_spec (resolveAnchor : Node → Node) (serviceNode : MappingValueNode) :
    (∀ s : StringNode,
      (resolveAnchor serviceNode.Key).GetToken.Value = "image".toList →
      resolveAnchor serviceNode.Value = Node.String s →
      ∃ name url : GoString, extractImageLink s.Value = some (name, url) ∧
        ((∃ link, createImageLink resolveAnchor serviceNode = some (some link)) ↔ name ≠ []) ∧
        (name ≠ [] → createImageLink resolveAnchor serviceNode =
          some (some
            { Range := createRange s.Token name.length
              Target := some url
              Tooltip := some url })) ∧
        (name = [] → createImageLink resolveAnchor serviceNode = some none)) ∧
    ((resolveAnchor serviceNode.Key).GetToken.Value ≠ "image".toList →
      createImageLink resolveAnchor serviceNode = some none) ∧
    ((∀ s : StringNode, resolveAnchor serviceNode.Value ≠ Node.String s) →
      createImageLink resolveAnchor serviceNode = some none) := by
  refine ⟨?_, ?_, ?_⟩
  · intro s hk hv
    obtain ⟨r, hr⟩ := Option.isSome_iff_exists.mp (extractImageLink_total s.Value)
    refine ⟨r.1, r.2, hr, ?_⟩
    have hs : stringNode resolveAnchor serviceNode.Value = some s := by
      simp only [stringNode, hv]
    by_cases hn : r.1 = []
    · have hres : createImageLink resolveAnchor serviceNode = some none := by
        simp only [createImageLink, hk, if_true, hs, hr, Option.bind, ne_eq, hn,
          not_true_eq_false, if_false]
      refine ⟨⟨?_, fun h => absurd hn h⟩, fun h => absurd hn h, fun _ => hres⟩
      rintro ⟨link, hl⟩
      rw [hres] at hl
      simp at hl
    · have hres : createImageLink resolveAnchor serviceNode =
          some (some
            { Range := createRange s.Token r.1.length
              Target := some r.2
              Tooltip := some r.2 }) := by
        simp only [createImageLink, hk, if_true, hs, hr, Option.bind, ne_eq, hn,
          not_false_eq_true]
      exact ⟨⟨fun _ => hn, fun _ => ⟨_, hres⟩⟩, fun _ => hres, fun h => absurd h hn⟩
  · intro hk
    simp only [createImageLink, hk, if_false]
  · intro hv
    have hs : stringNode resolveAnchor serviceNode.Value = none := by
      unfold stringNode
      split
      · next s h => exact absurd h (hv s)
      · rfl
    simp only [createImageLink, hs]
    split <;> rfl

/-- The attribute `image: nginx:1.25` on line 3: the link covers `nginx`,
characters 11 to 16, and leads to the page of the official image. -/
theorem createImageLink_spec_witness :
    createImageLink id (entryOf (plainScalar "image" 3 5) (plainScalar "nginx:1.25" 3 12)) =
      some (some
        { Range := ⟨⟨2, 11⟩, ⟨2, 16⟩⟩
          Target := some "https://hub.docker.com/_/nginx".toList
          Tooltip := some "https://hub.docker.com/_/nginx".toList }) := by
  obtain ⟨name, url, he, _, h, _⟩ :=
    (createImageLink_spec id
      (entryOf (plainScalar "image" 3 5) (plainScalar "nginx:1.25" 3 12))).1
      { Token := plainToken "nginx:1.25" 3 12, Value := "nginx:1.25".toList } rfl rfl
  have he2 : extractImageLink "nginx:1.25".toList =
      some ("nginx".toList, "https://hub.docker.com/_/nginx".toList) := by decide
  have hpair : (name, url) = ("nginx".toList, "https://hub.docker.com/_/nginx".toList) :=
    Option.some.inj (he.symm.trans he2)
  have hname : name = "nginx".toList := congrArg Prod.fst hpair
  have hurl : url = "https://hub.docker.com/_/nginx".toList := congrArg Prod.snd hpair
  subst hname hurl
  exact h (by decide)

/-! ## Document symbols -/

theorem symbolKinds_of_mem (value : GoString) (kind : protocol.SymbolKind)
    (h : (value, kind) ∈
      [("services".toList, protocol.SymbolKind.Class),
        ("networks".toList, protocol.SymbolKind.Interface),
        ("volumes".toList, protocol.SymbolKind.File),
        ("configs".toList, protocol.SymbolKind.Variable),
        ("secrets".toList, protocol.SymbolKind.Key),
        ("models".toList, protocol.SymbolKind.Module)]) :
    symbolKinds value = some kind := by
  simp only [List.mem_cons, Prod.mk.injEq, List.mem_singleton, List.not_mem_nil, or_false] at h
  rcases h with ⟨h1, h2⟩ | ⟨h1, h2⟩ | ⟨h1, h2⟩ | ⟨h1, h2⟩ | ⟨h1, h2⟩ | ⟨h1, h2⟩ <;>
    subst h1 <;> subst h2 <;> rfl

theorem symbolKinds_none (value : GoString)
    (h : value ∉ ["services".toList, "networks".toList, "volumes".toList, "configs".toList,
      "secrets".toList, "models".toList]) :
    symbolKinds value = none := by
  simp only [List.mem_cons, List.mem_singleton, List.not_mem_nil, or_false, not_or] at h
  obtain ⟨h1, h2, h3, h4, h5, h6⟩ := h
  simp only [symbolKinds, h1, h2, h3, h4, h5, h6, if_false]

/-- C12: for a top-level key of the table (services Class, networks
Interface, volumes File, configs Variable, secrets Key, models Module) whose
value is a mapping, `findSymbols` returns one symbol for each entry of the
mapping, in order, built from the key token of the entry: named by its text,
of the kind of the table and with equal range and selection range; for a
value that is a single mapping entry it returns one such symbol; for a key
that is neither in the table nor `include` it returns nothing. -/
theorem findSymbols_spec (resolveAnchor : Node → Node) (value : GoString)
    (n : MappingValueNode) :
    (∀ kind : protocol.SymbolKind,
      (value, kind) ∈
        [("services".toList, protocol.SymbolKind.Class),
          ("networks".toList, protocol.SymbolKind.Interface),
          ("volumes".toList, protocol.SymbolKind.File),
          ("configs".toList, protocol.SymbolKind.Variable),
          ("secrets".toList, protocol.SymbolKind.Key),
          ("models".toList, protocol.SymbolKind.Module)] →
      (∀ (st : Token) (values : List MappingValueNode), n.Value = Node.Mapping st values →
        findSymbols resolveAnchor value n symbolKinds =
            values.map (fun e => createSymbol e.Key.GetToken kind) ∧
          (findSymbols resolveAnchor value n symbolKinds).length = values.length ∧
          (findSymbols resolveAnchor value n symbolKinds).map (fun sym => sym.Name) =
            values.map (fun e => e.Key.GetToken.Value) ∧
          ∀ sym ∈ findSymbols resolveAnchor value n symbolKinds,
            sym.Kind = kind ∧ sym.Range = sym.SelectionRange) ∧
      (∀ mv : MappingValueNode, n.Value = Node.MappingValue mv →
        findSymbols resolveAnchor value n symbolKinds = [createSymbol mv.Key.GetToken kind] ∧
          (createSymbol mv.Key.GetToken kind).Name = mv.Key.GetToken.Value ∧
          (createSymbol mv.Key.GetToken kind).Kind = kind ∧
          (createSymbol mv.Key.GetToken kind).Range =
            (createSymbol mv.Key.GetToken kind).SelectionRange)) ∧
    (value ∉ ["services".toList, "networks".toList, "volumes".toList, "configs".toList,
        "secrets".toList, "models".toList] →
      value ≠ "include".toList →
      findSymbols resolveAnchor value n symbolKinds = []) := by
  refine ⟨?_, ?_⟩
  · intro kind hk
    have hkind := symbolKinds_of_mem value kind hk
    refine ⟨?_, ?_⟩
    · intro st values hv
      have hres : findSymbols resolveAnchor value n symbolKinds =
          values.map (fun e => createSymbol e.Key.GetToken kind) := by
        simp only [findSymbols, hkind, hv]
      refine ⟨hres, ?_, ?_, ?_⟩
      · rw [hres, List.length_map]
      · rw [hres, List.map_map]
        rfl
      · intro sym hsym
        rw [hres] at hsym
        obtain ⟨e, _, he⟩ := List.mem_map.mp hsym
        rw [← he]
        exact ⟨rfl, rfl⟩
    · intro mv hv
      refine ⟨?_, rfl, rfl, rfl⟩
      simp only [findSymbols, hkind, hv]
  · intro h1 h2
    simp only [findSymbols, symbolKinds_none value h1, h2, if_false]

/-- The example of C12: `services` with the entries `web` and `db` gives two
Class symbols named `web` and `db`, at the key tokens. -/
theorem findSymbols_spec_witness :
    findSymbols id "services".toList servicesWebDb symbolKinds =
      [{ Name := "web".toList, Kind := protocol.SymbolKind.Class,
         Range := ⟨⟨1, 2⟩, ⟨1, 5⟩⟩, SelectionRange := ⟨⟨1, 2⟩, ⟨1, 5⟩⟩ },
        { Name := "db".toList, Kind := protocol.SymbolKind.Class,
          Range := ⟨⟨3, 2⟩, ⟨3, 4⟩⟩, SelectionRange := ⟨⟨3, 2⟩, ⟨3, 4⟩⟩ }] :=
  ((findSymbols_spec id "services".toList servicesWebDb).1 protocol.SymbolKind.Class
    (by decide)).1 (plainToken "web" 2 3) _ rfl |>.1

/-- For a token that is not double-quoted `createSymbol` gives the range of
`createRange`. -/
theorem createSymbol_range_unquoted (t : Token) (kind : protocol.SymbolKind)
    (h : t.Typ ≠ TokenType.DoubleQuoteType) :
    (createSymbol t kind).Range = createRange t t.Value.length ∧
      (createSymbol t kind).SelectionRange = createRange t t.Value.length := by
  have h1 : t.Position.Column + 0 - 1 = t.Position.Column - 1 := by omega
  have h2 : t.Position.Column + 0 + (t.Value.length : Int) - 1 =
      t.Position.Column - 1 + (t.Value.length : Int) := by omega
  simp only [createSymbol, createRange, h, if_false, h1, h2, and_self]

/-- C14 fails on the code: `createSymbol` does not skip the opening quote.
For the double-quoted scalar `"a.yaml"` on line 2, column 5, the symbol's
range and selection range are characters 4 to 10, the quote and `a.yam`,
whereas `createRange` gives characters 5 to 11, the text `a.yaml`. -/
theorem createSymbol_quoted_range_off :
    (createSymbol (quotedToken "a.yaml" 2 5) protocol.SymbolKind.Module).Range =
        ⟨⟨1, 4⟩, ⟨1, 10⟩⟩ ∧
      (createSymbol (quotedToken "a.yaml" 2 5) protocol.SymbolKind.Module).SelectionRange =
        ⟨⟨1, 4⟩, ⟨1, 10⟩⟩ ∧
      createRange (quotedToken "a.yaml" 2 5) (quotedToken "a.yaml" 2 5).Value.length =
        ⟨⟨1, 5⟩, ⟨1, 11⟩⟩ := by
  decide

/-! ## Documents without content -/

/-- C16, as stated, fails: for a document without parsed file whose path
cannot be determined, `DocumentLink` returns the error of the path, since it
asks for the path first. -/
theorem DocumentLink_pathless_error :
    pathlessDocument.File = none ∧
      compose.DocumentLink id (fun _ => none) (fun _ => none) id "file:///x".toList
        pathlessDocument = some ([], some "no path".toList) :=
  ⟨rfl, rfl⟩

/-- C16, amended: a document without parsed file, or whose file has no
documents, gives no symbols and no error, and, when its path can be
determined, no links and no error; `DocumentLink` returns an error exactly
when the path of the document cannot be determined, and then the error is
that of the path. -/
theorem documents_without_content (resolveAnchor : Node → Node)
    (ParseVolume : GoString → Option ServiceVolumeConfig)
    (Stat : GoString → Option FileInfo) (volumeToken : Token → Token)
    (documentURI : GoString) (doc : ComposeDocument) :
    ((doc.File = none ∨ ∃ file, doc.File = some file ∧ file.Docs = []) →
      compose.DocumentSymbol resolveAnchor doc = ([], none) ∧
      ∀ d, doc.DocumentPath = Except.ok d →
        compose.DocumentLink resolveAnchor ParseVolume Stat volumeToken documentURI doc =
          some ([], none)) ∧
    (∀ err, doc.DocumentPath = Except.error err →
      compose.DocumentLink resolveAnchor ParseVolume Stat volumeToken documentURI doc =
        some ([], some err)) ∧
    (∀ links err,
      compose.DocumentLink resolveAnchor ParseVolume Stat volumeToken documentURI doc =
        some (links, some err) → doc.DocumentPath = Except.error err) := by
  refine ⟨?_, ?_, ?_⟩
  · intro h
    rcases h with h | ⟨file, h, hd⟩
    · refine ⟨?_, ?_⟩
      · simp only [compose.DocumentSymbol, h]
      · intro d hp
        simp only [compose.DocumentLink, hp, h]
    · refine ⟨?_, ?_⟩
      · simp only [compose.DocumentSymbol, h, hd, List.length_nil, if_true]
      · intro d hp
        simp only [compose.DocumentLink, hp, h, hd, List.length_nil, if_true]
  · intro err hp
    simp only [compose.DocumentLink, hp]
  · intro links err h
    unfold compose.DocumentLink at h
    split at h
    · next e he =>
        simp only [Option.some.injEq, Prod.mk.injEq] at h
        rw [he, ← h.2]
    · split at h
      · simp at h
      · split at h
        · simp at h
        · obtain ⟨ls, _, hls⟩ := Option.bind_eq_some.mp h
          simp at hls

/-- A document with a path and without parsed file: no symbols, no links,
no error. -/
theorem documents_without_content_witness :
    compose.DocumentSymbol id { DocumentPath := Except.ok ⟨"/proj".toList, false⟩, File := none } =
        ([], none) ∧
      compose.DocumentLink id (fun _ => none) (fun _ => none) id "file:///proj/c.yaml".toList
          { DocumentPath := Except.ok ⟨"/proj".toList, false⟩, File := none } =
        some ([], none) :=
  have h := (documents_without_content id (fun _ => none) (fun _ => none) id
    "file:///proj/c.yaml".toList
    { DocumentPath := Except.ok ⟨"/proj".toList, false⟩, File := none }).1 (Or.inl rfl)
  ⟨h.1, h.2 ⟨"/proj".toList, false⟩ rfl⟩

/-! ## Docker Hub images -/

theorem strings.splitFrom_of_not_mem (c : Char) :
    ∀ (s cur : GoString), c ∉ s → strings.splitFrom [c] s 0 cur = [cur ++ s]
  | [], cur, _ => by simp [strings.splitFrom]
  | d :: ds, cur, h => by
      have hd : c ≠ d := fun e => h (by simp [e])
      have hds : c ∉ ds := fun e => h (List.mem_cons_of_mem _ e)
      simp [strings.splitFrom, strings.single_isPrefixOf_cons, hd,
        strings.splitFrom_of_not_mem c ds (cur ++ [d]) hds]

theorem strings.splitFrom_append_cons (c : Char) :
    ∀ (a b cur : GoString), c ∉ a →
      strings.splitFrom [c] (a ++ c :: b) 0 cur = (cur ++ a) :: strings.splitFrom [c] b 0 []
  | [], b, cur, _ => by simp [strings.splitFrom, strings.single_isPrefixOf_cons]
  | d :: ds, b, cur, h => by
      have hd : c ≠ d := fun e => h (by simp [e])
      have hds : c ∉ ds := fun e => h (List.mem_cons_of_mem _ e)
      simp [strings.splitFrom, strings.single_isPrefixOf_cons, hd,
        strings.splitFrom_append_cons c ds b (cur ++ [d]) hds]

/-- A text without the separator is one piece. -/
theorem strings.Split_of_not_mem (c : Char) (s : GoString) (h : c ∉ s) :
    strings.Split s [c] = [s] := by
  simp [strings.Split, strings.splitFrom_of_not_mem c s [] h]

/-- A text with the separator once is two pieces. -/
theorem strings.Split_once (c : Char) (a b : GoString) (ha : c ∉ a) (hb : c ∉ b) :
    strings.Split (a ++ c :: b) [c] = [a, b] := by
  simp [strings.Split, strings.splitFrom_append_cons c a b [] ha,
    strings.splitFrom_of_not_mem c b [] hb]

theorem strings.Contains_single (c : Char) (v : GoString) :
    strings.Contains v [c] = true ↔ c ∈ v := by
  unfold strings.Contains
  rw [decide_eq_true_iff]
  constructor
  · intro h
    by_contra hm
    exact h (strings.Index_of_not_mem c v hm)
  · intro h e
    exact (strings.Index_eq_neg_one_iff c v).mp e h

theorem sliceFrom_after_cut (x tag : GoString) :
    sliceFrom (x ++ ':' :: tag) ((x.length : Int) + 1) = some tag := by
  have h := sliceFrom_eq_drop (x ++ ':' :: tag) (x.length + 1) (by simp)
  have hd : (x ++ ':' :: tag).drop (x.length + 1) = tag := by
    rw [List.drop_append_eq_append_drop]
    simp
  rw [hd] at h
  have hc : ((x.length + 1 : Nat) : Int) = (x.length : Int) + 1 := by push_cast; rfl
  rw [hc] at h
  exact h

/-- `HubRepositoryImage` on a value without `@`, with at most one slash, cut
at its first colon. -/
theorem HubRepositoryImage_cut (x tag : GoString) (hat : '@' ∉ x ++ ':' :: tag)
    (hk : (x ++ ':' :: tag).count '/' < 2) (hx : ':' ∉ x) :
    HubRepositoryImage (x ++ ':' :: tag) =
      (let split := strings.Split x ['/']
       if split.length = 1 then
          split[0]?.bind fun image => some ("library".toList, image, tag)
        else
          split[0]?.bind fun repository =>
            split[1]?.bind fun image => some (repository, image, tag)) := by
  have h1 : strings.Contains (x ++ ':' :: tag) ['@'] = false := by
    rw [← Bool.not_eq_true, strings.Contains_single]
    exact hat
  have h2 : ¬ (strings.Index (x ++ ':' :: tag) ['/'] ≠ strings.LastIndex (x ++ ':' :: tag) ['/']) := by
    rw [not_not]
    exact (strings.Index_eq_LastIndex_iff '/' _).mpr hk
  have h3 : strings.Index (x ++ ':' :: tag) [':'] = x.length :=
    strings.Index_append_cons ':' x tag hx
  have h4 : ¬ ((x.length : Int) = -1) := by omega
  have h5 := slice_zero_length_append x (':' :: tag)
  have h6 := sliceFrom_after_cut x tag
  have hq : "@".toList = ['@'] := rfl
  simp only [HubRepositoryImage, hq, h1, Bool.false_eq_true, if_false, slash_toList, h2,
    colon_toList, h3, h4, h5, h6, Option.bind]

/-- C19: `HubRepositoryImage` returns three empty strings for a value with an
`@`, with more than one slash or without a colon; otherwise, with the value
cut at its first colon into `x` and `tag`, it returns `library`, `x` and
`tag` when `x` has no slash, and `a`, `b` and `tag` when `x` is `a/b`; the
parts of a result that is not empty reassemble to the value. -/
theorem HubRepositoryImage_spec (v : GoString) :
    ('@' ∈ v → HubRepositoryImage v = some ([], [], [])) ∧
    (2 ≤ v.count '/' → HubRepositoryImage v = some ([], [], [])) ∧
    (':' ∉ v → HubRepositoryImage v = some ([], [], [])) ∧
    ('@' ∉ v → v.count '/' < 2 →
      ∀ x tag : GoString, v = x ++ ':' :: tag → ':' ∉ x →
        ('/' ∉ x → HubRepositoryImage v = some ("library".toList, x, tag) ∧
          x ++ ':' :: tag = v) ∧
        (∀ a b : GoString, x = a ++ '/' :: b →
          HubRepositoryImage v = some (a, b, tag) ∧ a ++ '/' :: b ++ ':' :: tag = v)) := by
  have hq : "@".toList = ['@'] := rfl
  refine ⟨?_, ?_, ?_, ?_⟩
  · intro h
    have h1 := (strings.Contains_single '@' v).mpr h
    simp only [HubRepositoryImage, hq, h1, if_true]
  · intro h
    by_cases hat : strings.Contains v ['@'] = true
    · simp only [HubRepositoryImage, hq, hat, if_true]
    · have h2 : strings.Index v ['/'] ≠ strings.LastIndex v ['/'] := by
        intro e
        have := (strings.Index_eq_LastIndex_iff '/' v).mp e
        omega
      simp only [HubRepositoryImage, hq, hat, if_false, slash_toList, h2, ne_eq,
        not_false_eq_true, if_true, Bool.false_eq_true]
  · intro h
    have h3 := strings.Index_of_not_mem ':' v h
    simp only [HubRepositoryImage, colon_toList, h3, if_true]
    split
    · rfl
    · split <;> rfl
  · intro hat hk x tag hv hx
    subst hv
    have hcut := HubRepositoryImage_cut x tag hat hk hx
    refine ⟨?_, ?_⟩
    · intro hs
      refine ⟨?_, rfl⟩
      rw [hcut, strings.Split_of_not_mem '/' x hs]
      rfl
    · intro a b hab
      subst hab
      have hcount : (a ++ '/' :: b ++ ':' :: tag).count '/' =
          a.count '/' + 1 + b.count '/' + tag.count '/' := by
        simp only [List.count_append, List.count_cons_self, List.append_assoc,
          List.cons_append]
        rw [List.count_cons_of_ne (by decide)]
        omega
      have ha : '/' ∉ a := by
        intro hm
        have := List.count_pos_iff.mpr hm
        omega
      have hb : '/' ∉ b := by
        intro hm
        have := List.count_pos_iff.mpr hm
        omega
      refine ⟨?_, rfl⟩
      rw [hcut, strings.Split_once '/' a b ha hb]
      rfl

/-- Instances of C19: an official image, a repository image, and a digest. -/
theorem HubRepositoryImage_spec_witness :
    HubRepositoryImage "alpine:3.21".toList =
        some ("library".toList, "alpine".toList, "3.21".toList) ∧
      HubRepositoryImage "grafana/grafana:11.6".toList =
        some ("grafana".toList, "grafana".toList, "11.6".toList) ∧
      HubRepositoryImage "alpine@sha256:abcd".toList = some ([], [], []) :=
  ⟨(((HubRepositoryImage_spec "alpine:3.21".toList).2.2.2 (by decide) (by decide)
      "alpine".toList "3.21".toList (by decide) (by decide)).1 (by decide)).1,
    (((HubRepositoryImage_spec "grafana/grafana:11.6".toList).2.2.2 (by decide) (by decide)
      "grafana/grafana".toList "11.6".toList (by decide) (by decide)).2
      "grafana".toList "grafana".toList (by decide)).1,
    (HubRepositoryImage_spec "alpine@sha256:abcd".toList).1 (by decide)⟩

/-! ## Workspace folders -/

/-- C18 fails on the code: `WorkspaceFolder` can panic, and a folder that is
only a prefix of the text of the path counts as containing it.  With an
empty path (as `url.Parse` gives for `untitled:Untitled-1`) and no matching
folder the slice `Path[1:]` is out of range; so is `Path[5:]` for the path
`/a/b` with the folder `/a/b`; and for the path `/a/bc/d` the folder `/a/b` is
returned with the relative path `/d`. -/
theorem WorkspaceFolder_panics_and_prefix :
    WorkspaceFolder (fun _ => some []) "untitled:Untitled-1".toList ["/proj".toList] = none ∧
    WorkspaceFolder (fun _ => some "/a/b".toList) "file:///a/b".toList ["/a/b".toList] = none ∧
    WorkspaceFolder (fun _ => some "/a/bc/d".toList) "file:///a/bc/d".toList ["/a/b".toList] =
      some ("/a/b".toList, "/a/bc/d".toList, "/d".toList) ∧
    "/a/b".toList ++ "/".toList ++ "/d".toList ≠ "/a/bc/d".toList := by
  decide

/-! ## Volume links -/

theorem mem_volumeEntryLinks (resolveAnchor : Node → Node)
    (ParseVolume : GoString → Option ServiceVolumeConfig)
    (Stat : GoString → Option FileInfo) (volumeToken : Token → Token)
    (folder : GoString) (wsl : Bool) (node : Node) (link : DocumentLink)
    (h : link ∈ volumeEntryLinks resolveAnchor ParseVolume Stat volumeToken folder wsl node) :
    ∃ (s : StringNode) (config : ServiceVolumeConfig) (info : FileInfo),
      resolveAnchor node = Node.String s ∧ ParseVolume s.Token.Value = some config ∧
      config.Typ = "bind".toList ∧
      Stat (createLocalFileLink folder config.Source wsl).2 = some info ∧
      info.IsDir = false ∧
      link =
        { Range := createRange (volumeToken s.Token) (volumeToken s.Token).Value.length
          Target := some (createLocalFileLink folder config.Source wsl).1
          Tooltip := some (createLocalFileLink folder config.Source wsl).2 } := by
  unfold volumeEntryLinks at h
  split at h
  · next s hs =>
      split at h
      · next config hc =>
          split at h
          · next hb =>
              simp only at h
              split at h
              · next info hi =>
                  split at h
                  · next hd =>
                      simp only [List.mem_singleton] at h
                      refine ⟨s, config, info, hs, hc, hb, hi, ?_, h⟩
                      simpa using hd
                  · simp at h
              · simp at h
          · simp at h
      · simp at h
  · simp at h

/-- An element whose status check fails or reports a directory yields no
link, and neither does an element that is no string scalar, does not parse or
is no bind mount. -/
theorem volumeEntryLinks_nil (resolveAnchor : Node → Node)
    (ParseVolume : GoString → Option ServiceVolumeConfig)
    (Stat : GoString → Option FileInfo) (volumeToken : Token → Token)
    (folder : GoString) (wsl : Bool) (node : Node)
    (h : ∀ (s : StringNode) (config : ServiceVolumeConfig),
      resolveAnchor node = Node.String s → ParseVolume s.Token.Value = some config →
      config.Typ = "bind".toList →
      Stat (createLocalFileLink folder config.Source wsl).2 = none ∨
        ∃ info, Stat (createLocalFileLink folder config.Source wsl).2 = some info ∧
          info.IsDir = true) :
    volumeEntryLinks resolveAnchor ParseVolume Stat volumeToken folder wsl node = [] := by
  by_contra hne
  obtain ⟨link, hl⟩ := List.exists_mem_of_ne_nil _ hne
  obtain ⟨s, config, info, hs, hc, hb, hi, hd, _⟩ :=
    mem_volumeEntryLinks resolveAnchor ParseVolume Stat volumeToken folder wsl node link hl
  rcases h s config hs hc hb with h1 | ⟨info2, h1, h2⟩
  · rw [h1] at hi
    simp at hi
  · rw [h1] at hi
    have : info2 = info := Option.some.inj hi
    rw [this, hd] at h2
    simp at h2

/-- C17, amended: `createVolumeFileLinks` emits a link only for an element of
the `volumes` sequence that is a string scalar, parses as a bind mount and
whose resolved native path passes the status check as something that is not
a directory; an element whose check fails or reports a directory yields no
link, and the links of the other elements are those of the sequence without
that element. -/
theorem createVolumeFileLinks_spec (resolveAnchor : Node → Node)
    (ParseVolume : GoString → Option ServiceVolumeConfig)
    (Stat : GoString → Option FileInfo) (volumeToken : Token → Token)
    (folder : GoString) (wsl : Bool) (serviceNode : MappingValueNode) :
    (∀ link ∈ createVolumeFileLinks resolveAnchor ParseVolume Stat volumeToken folder wsl
        serviceNode,
      (resolveAnchor serviceNode.Key).GetToken.Value = "volumes".toList ∧
      ∃ (st : Token) (values : List Node) (node : Node) (s : StringNode)
        (config : ServiceVolumeConfig) (info : FileInfo),
        resolveAnchor serviceNode.Value = Node.Sequence st values ∧ node ∈ values ∧
        resolveAnchor node = Node.String s ∧ ParseVolume s.Token.Value = some config ∧
        config.Typ = "bind".toList ∧
        Stat (createLocalFileLink folder config.Source wsl).2 = some info ∧
        info.IsDir = false ∧
        link =
          { Range := createRange (volumeToken s.Token) (volumeToken s.Token).Value.length
            Target := some (createLocalFileLink folder config.Source wsl).1
            Tooltip := some (createLocalFileLink folder config.Source wsl).2 }) ∧
    (∀ (st st2 : Token) (before after : List Node) (entry : Node)
      (other : MappingValueNode),
      (resolveAnchor serviceNode.Key).GetToken.Value = "volumes".toList →
      resolveAnchor serviceNode.Value = Node.Sequence st (before ++ entry :: after) →
      (resolveAnchor other.Key).GetToken.Value = "volumes".toList →
      resolveAnchor other.Value = Node.Sequence st2 (before ++ after) →
      (∀ (s : StringNode) (config : ServiceVolumeConfig),
        resolveAnchor entry = Node.String s → ParseVolume s.Token.Value = some config →
        config.Typ = "bind".toList →
        Stat (createLocalFileLink folder config.Source wsl).2 = none ∨
          ∃ info, Stat (createLocalFileLink folder config.Source wsl).2 = some info ∧
            info.IsDir = true) →
      createVolumeFileLinks resolveAnchor ParseVolume Stat volumeToken folder wsl serviceNode =
        createVolumeFileLinks resolveAnchor ParseVolume Stat volumeToken folder wsl other) := by
  refine ⟨?_, ?_⟩
  · intro link hl
    unfold createVolumeFileLinks at hl
    split at hl
    · next hk =>
        refine ⟨hk, ?_⟩
        split at hl
        · next st values hv =>
            obtain ⟨node, hn, hln⟩ := List.mem_flatMap.mp hl
            obtain ⟨s, config, info, h1, h2, h3, h4, h5, h6⟩ :=
              mem_volumeEntryLinks resolveAnchor ParseVolume Stat volumeToken folder wsl node
                link hln
            exact ⟨st, values, node, s, config, info, hv, hn, h1, h2, h3, h4, h5, h6⟩
        · simp at hl
    · simp at hl
  · intro st st2 before after entry other hk hv hk2 hv2 hfail
    have hnil := volumeEntryLinks_nil resolveAnchor ParseVolume Stat volumeToken folder wsl
      entry hfail
    simp only [createVolumeFileLinks, hk, hv, hk2, hv2, if_true, List.flatMap_append,
      List.flatMap_cons, hnil, List.nil_append]

/-- A `volumes` sequence with a missing path between two files: the links
are those of the two files. -/
theorem createVolumeFileLinks_spec_witness :
    createVolumeFileLinks id (fun v => some { Typ := "bind".toList, Source := v })
        (fun p => if p = "/proj/gone".toList then none else some ⟨false, true⟩) id
        "/proj".toList false
        (entryOf (plainScalar "volumes" 4 5)
          (Node.Sequence (plainToken "-" 5 7)
            ([plainScalar "a" 5 9] ++ plainScalar "gone" 6 9 :: [plainScalar "b" 7 9]))) =
      createVolumeFileLinks id (fun v => some { Typ := "bind".toList, Source := v })
        (fun p => if p = "/proj/gone".toList then none else some ⟨false, true⟩) id
        "/proj".toList false
        (entryOf (plainScalar "volumes" 4 5)
          (Node.Sequence (plainToken "-" 5 7) ([plainScalar "a" 5 9] ++ [plainScalar "b" 7 9]))) :=
  (createVolumeFileLinks_spec id (fun v => some { Typ := "bind".toList, Source := v })
    (fun p => if p = "/proj/gone".toList then none else some ⟨false, true⟩) id
    "/proj".toList false _).2 (plainToken "-" 5 7) (plainToken "-" 5 7)
    [plainScalar "a" 5 9] [plainScalar "b" 7 9] (plainScalar "gone" 6 9) _ rfl rfl rfl rfl
    (by
      intro s config hs hc _
      have hs2 : s = { Token := plainToken "gone" 6 9, Value := "gone".toList } := by
        have := Node.String.inj hs
        exact this.symm
      subst hs2
      have hc2 : config = { Typ := "bind".toList, Source := "gone".toList } :=
        (Option.some.inj hc).symm
      subst hc2
      left
      decide)

/-- C17, as stated, fails: a socket passes the status check as something that
is neither a directory nor a regular file, and the bind mount of
`/var/run/docker.sock` gets a link. -/
theorem socket_volume_is_linked :
    statSocket "/var/run/docker.sock".toList = some { IsDir := false, IsRegular := false } ∧
    createVolumeFileLinks id parseSockBind statSocket sockSourceToken "/proj".toList false
        dockerSockVolumes =
      [{ Range := ⟨⟨4, 8⟩, ⟨4, 28⟩⟩
         Target := some "file:///var/run/docker.sock".toList
         Tooltip := some "/var/run/docker.sock".toList }] := by
  decide

/-! ## Included paths: symbols and links -/

theorem flatMap_congr_mem {α β : Type} (l : List α) (f g : α → List β)
    (h : ∀ x ∈ l, f x = g x) : l.flatMap f = l.flatMap g := by
  induction l with
  | nil => rfl
  | cons a as ih =>
      rw [List.flatMap_cons, List.flatMap_cons, h a (List.mem_cons_self _ _),
        ih (fun x hx => h x (List.mem_cons_of_mem _ hx))]

theorem flatMap_not_alias (resolveAnchor : Node → Node) (paths : List Node)
    (h : ∀ p ∈ paths, p.isAlias = false) :
    paths.flatMap (fun path => if !path.isAlias then [(resolveAnchor path).GetToken] else []) =
      paths.map (fun path => (resolveAnchor path).GetToken) := by
  induction paths with
  | nil => rfl
  | cons a as ih =>
      rw [List.flatMap_cons, List.map_cons, ih (fun p hp => h p (List.mem_cons_of_mem _ hp)),
        h a (List.mem_cons_self _ _)]
      rfl

/-- A list with one more element in the middle, cut at that element. -/
theorem split_at_token {α : Type} (A B C D : List α) (x : α) :
    ∃ before after : List α,
      A ++ (B ++ ([x] ++ C) ++ D) = before ++ x :: after ∧
      A ++ (B ++ C ++ D) = before ++ after :=
  ⟨A ++ B, C ++ D, by simp, by simp⟩

/-- The symbols of an `include` entry whose value is written as a sequence:
one Module symbol for each token of `includedFiles`. -/
theorem findSymbols_include_sequence (resolveAnchor : Node → Node) (n : MappingValueNode)
    (st : Token) (nodes : List Node) (hv : n.Value = Node.Sequence st nodes) :
    findSymbols resolveAnchor "include".toList n symbolKinds =
      (includedFiles resolveAnchor nodes).map fun token =>
        createSymbol token protocol.SymbolKind.Module := by
  have hk : symbolKinds "include".toList = none := by decide
  simp only [findSymbols, hk, hv, if_true]

/-- The links of an `include` entry whose value resolves to a sequence: one
link for each token of `includedPaths`. -/
theorem scanForLinks_include_sequence (resolveAnchor : Node → Node)
    (ParseVolume : GoString → Option ServiceVolumeConfig)
    (Stat : GoString → Option FileInfo) (volumeToken : Token → Token)
    (folder : GoString) (wsl : Bool) (n : MappingValueNode) (s : StringNode) (st : Token)
    (nodes : List Node) (hk : resolveAnchor n.Key = Node.String s)
    (hs : s.Value = "include".toList) (hv : resolveAnchor n.Value = Node.Sequence st nodes) :
    scanForLinks resolveAnchor ParseVolume Stat volumeToken folder wsl n =
      some ((includedPaths resolveAnchor nodes).map (createLink folder wsl)) := by
  simp only [scanForLinks, hk, hs, hv, if_true]

/-- An attribute `env_file` of an include entry adds no token to
`includedFiles`. -/
theorem includedFiles_env_file (resolveAnchor : Node → Node) (e e2 : Node) (t t2 : Token)
    (attr : MappingValueNode) (vb va : List MappingValueNode) (nb na : List Node)
    (he : resolveAnchor e = Node.Mapping t (vb ++ attr :: va))
    (he2 : resolveAnchor e2 = Node.Mapping t2 (vb ++ va))
    (hk : (resolveAnchor attr.Key).GetToken.Value = "env_file".toList) :
    includedFiles resolveAnchor (nb ++ e :: na) = includedFiles resolveAnchor (nb ++ e2 :: na) := by
  have hne : ¬ "env_file".toList = "path".toList := by decide
  simp only [includedFiles, List.flatMap_append, List.flatMap_cons, he, he2, hk, hne, if_false,
    List.nil_append]

/-- An attribute `env_file` of an include entry whose value is neither a
sequence nor an alias adds the token of its value to `includedPaths`. -/
theorem includedPaths_env_file (resolveAnchor : Node → Node) (e e2 : Node) (t t2 : Token)
    (attr : MappingValueNode) (vb va : List MappingValueNode) (nb na : List Node)
    (he : resolveAnchor e = Node.Mapping t (vb ++ attr :: va))
    (he2 : resolveAnchor e2 = Node.Mapping t2 (vb ++ va))
    (hk : (resolveAnchor attr.Key).GetToken.Value = "env_file".toList)
    (halias : attr.Value.isAlias = false)
    (hseq : ∀ (st : Token) (paths : List Node),
      resolveAnchor attr.Value ≠ Node.Sequence st paths) :
    ∃ before after : List Token,
      includedPaths resolveAnchor (nb ++ e :: na) =
        before ++ (resolveAnchor attr.Value).GetToken :: after ∧
      includedPaths resolveAnchor (nb ++ e2 :: na) = before ++ after := by
  have hsimp : includedPaths resolveAnchor (nb ++ e :: na) =
      includedPaths resolveAnchor nb ++
        ((vb.flatMap fun value =>
            if (resolveAnchor value.Key).GetToken.Value = "path".toList ∨
                (resolveAnchor value.Key).GetToken.Value = "env_file".toList then
              match resolveAnchor value.Value with
              | Node.Sequence _ paths =>
                  paths.flatMap fun path =>
                    if !path.isAlias then [(resolveAnchor path).GetToken] else []
              | _ => if !value.Value.isAlias then [(resolveAnchor value.Value).GetToken] else []
            else []) ++
          ([(resolveAnchor attr.Value).GetToken] ++
            va.flatMap fun value =>
              if (resolveAnchor value.Key).GetToken.Value = "path".toList ∨
                  (resolveAnchor value.Key).GetToken.Value = "env_file".toList then
                match resolveAnchor value.Value with
                | Node.Sequence _ paths =>
                    paths.flatMap fun path =>
                      if !path.isAlias then [(resolveAnchor path).GetToken] else []
                | _ =>
                    if !value.Value.isAlias then [(resolveAnchor value.Value).GetToken] else []
              else []) ++
          includedPaths resolveAnchor na) := by
    cases hv : resolveAnchor attr.Value with
    | Sequence st paths => exact absurd hv (hseq st paths)
    | String s =>
        simp only [includedPaths, List.flatMap_append, List.flatMap_cons, he, hk, or_true,
          if_true, hv, halias, Bool.not_false]
    | Mapping st vs =>
        simp only [includedPaths, List.flatMap_append, List.flatMap_cons, he, hk, or_true,
          if_true, hv, halias, Bool.not_false]
    | MappingValue mv =>
        simp only [includedPaths, List.flatMap_append, List.flatMap_cons, he, hk, or_true,
          if_true, hv, halias, Bool.not_false]
    | Alias st x =>
        simp only [includedPaths, List.flatMap_append, List.flatMap_cons, he, hk, or_true,
          if_true, hv, halias, Bool.not_false]
    | Anchor st x y =>
        simp only [includedPaths, List.flatMap_append, List.flatMap_cons, he, hk, or_true,
          if_true, hv, halias, Bool.not_false]
    | Other st =>
        simp only [includedPaths, List.flatMap_append, List.flatMap_cons, he, hk, or_true,
          if_true, hv, halias, Bool.not_false]
  have hsimp2 : includedPaths resolveAnchor (nb ++ e2 :: na) =
      includedPaths resolveAnchor nb ++
        ((vb.flatMap fun value =>
            if (resolveAnchor value.Key).GetToken.Value = "path".toList ∨
                (resolveAnchor value.Key).GetToken.Value = "env_file".toList then
              match resolveAnchor value.Value with
              | Node.Sequence _ paths =>
                  paths.flatMap fun path =>
                    if !path.isAlias then [(resolveAnchor path).GetToken] else []
              | _ => if !value.Value.isAlias then [(resolveAnchor value.Value).GetToken] else []
            else []) ++
          (va.flatMap fun value =>
              if (resolveAnchor value.Key).GetToken.Value = "path".toList ∨
                  (resolveAnchor value.Key).GetToken.Value = "env_file".toList then
                match resolveAnchor value.Value with
                | Node.Sequence _ paths =>
                    paths.flatMap fun path =>
                      if !path.isAlias then [(resolveAnchor path).GetToken] else []
                | _ =>
                    if !value.Value.isAlias then [(resolveAnchor value.Value).GetToken] else []
              else []) ++
          includedPaths resolveAnchor na) := by
    simp only [includedPaths, List.flatMap_append, List.flatMap_cons, he2]
  rw [hsimp, hsimp2]
  exact split_at_token _ _ _ _ _

/-- C13, as stated, fails.  An `env_file` scalar of an include entry gets a
link and no symbol, and an alias in a `path` sequence gets a symbol and no
link.  With `*inc` bound to the sequence `[abc.yml]`, the entry
`include: *inc` gets one link and no symbol. -/
theorem includedFiles_differs_from_includedPaths :
    includedFiles id [includeEnvFile] = [] ∧
    includedPaths id [includeEnvFile] = [plainToken "a.env" 2 15] ∧
    includedFiles id [includePathAlias] = [plainToken "*" 3 9] ∧
    includedPaths id [includePathAlias] = [] ∧
    findSymbols (resolveAnchorIn exampleAnchors) "include".toList
      (includeSection (aliasOf "inc" 5 10)) symbolKinds = [] ∧
    scanForLinks (resolveAnchorIn exampleAnchors) (fun _ => none) (fun _ => none) id
      "/proj".toList false (includeSection (aliasOf "inc" 5 10)) =
      some [{ Range := ⟨⟨1, 4⟩, ⟨1, 11⟩⟩
              Target := some "file:///proj/abc.yml".toList
              Tooltip := some "/proj/abc.yml".toList }] := by
  decide

/-- C13, amended: for an include sequence in which no entry has an
`env_file` attribute and no `path` value or element of a `path` sequence is an
alias, `includedFiles` yields the same tokens in the same order as
`includedPaths`: the bare scalars and the scalars under a `path` attribute,
single or in a sequence.  So, when that sequence is itself the value written
for `include`, one Module symbol is emitted for each included path that gets
a link: the symbols are `createSymbol` and the links `createLink` of the same
tokens, in the same order.  An attribute `env_file` of an include entry adds
no token to `includedFiles` (no symbol), and when its value is neither a
sequence nor an alias it adds the token of its value to `includedPaths` (a
link). -/
theorem includedFiles_eq_includedPaths (resolveAnchor : Node → Node) (nodes : List Node)
    (h : ∀ entry ∈ nodes, ∀ (st : Token) (values : List MappingValueNode),
      resolveAnchor entry = Node.Mapping st values →
      ∀ value ∈ values,
        (resolveAnchor value.Key).GetToken.Value ≠ "env_file".toList ∧
        ((resolveAnchor value.Key).GetToken.Value = "path".toList →
          (∀ (st2 : Token) (paths : List Node),
            resolveAnchor value.Value = Node.Sequence st2 paths →
            ∀ p ∈ paths, p.isAlias = false) ∧
          ((∀ (st2 : Token) (paths : List Node),
            resolveAnchor value.Value ≠ Node.Sequence st2 paths) →
            value.Value.isAlias = false))) :
    includedFiles resolveAnchor nodes = includedPaths resolveAnchor nodes ∧
    (∀ (ParseVolume : GoString → Option ServiceVolumeConfig)
      (Stat : GoString → Option FileInfo) (volumeToken : Token → Token)
      (folder : GoString) (wsl : Bool) (n : MappingValueNode) (s : StringNode)
      (st st2 : Token),
      resolveAnchor n.Key = Node.String s → s.Value = "include".toList →
      n.Value = Node.Sequence st nodes → resolveAnchor n.Value = Node.Sequence st2 nodes →
      findSymbols resolveAnchor "include".toList n symbolKinds =
          (includedPaths resolveAnchor nodes).map
            (fun token => createSymbol token protocol.SymbolKind.Module) ∧
        scanForLinks resolveAnchor ParseVolume Stat volumeToken folder wsl n =
          some ((includedPaths resolveAnchor nodes).map (createLink folder wsl))) ∧
    (∀ (e e2 : Node) (t t2 : Token) (attr : MappingValueNode)
      (vb va : List MappingValueNode) (nb na : List Node),
      resolveAnchor e = Node.Mapping t (vb ++ attr :: va) →
      resolveAnchor e2 = Node.Mapping t2 (vb ++ va) →
      (resolveAnchor attr.Key).GetToken.Value = "env_file".toList →
      includedFiles resolveAnchor (nb ++ e :: na) =
          includedFiles resolveAnchor (nb ++ e2 :: na) ∧
        (attr.Value.isAlias = false →
          (∀ (st : Token) (paths : List Node),
            resolveAnchor attr.Value ≠ Node.Sequence st paths) →
          ∃ before after : List Token,
            includedPaths resolveAnchor (nb ++ e :: na) =
              before ++ (resolveAnchor attr.Value).GetToken :: after ∧
            includedPaths resolveAnchor (nb ++ e2 :: na) = before ++ after)) := by
  have heq : includedFiles resolveAnchor nodes = includedPaths resolveAnchor nodes := by
    unfold includedFiles includedPaths
    apply flatMap_congr_mem
    intro entry hentry
    cases hr : resolveAnchor entry with
    | Mapping st values =>
        simp only
        apply flatMap_congr_mem
        intro value hvalue
        obtain ⟨henv, hpath⟩ := h entry hentry st values hr value hvalue
        by_cases hk : (resolveAnchor value.Key).GetToken.Value = "path".toList
        · obtain ⟨hseq, hsingle⟩ := hpath hk
          simp only [hk, true_or, if_true]
          cases hv : resolveAnchor value.Value with
          | Sequence st2 paths =>
              simp only
              rw [flatMap_not_alias resolveAnchor paths (hseq st2 paths hv)]
          | String s =>
              have := hsingle (fun st2 paths e => by rw [hv] at e; cases e)
              simp [this]
          | Mapping st2 vs =>
              have := hsingle (fun st2 paths e => by rw [hv] at e; cases e)
              simp [this]
          | MappingValue mv =>
              have := hsingle (fun st2 paths e => by rw [hv] at e; cases e)
              simp [this]
          | Alias st2 x =>
              have := hsingle (fun st2 paths e => by rw [hv] at e; cases e)
              simp [this]
          | Anchor st2 x y =>
              have := hsingle (fun st2 paths e => by rw [hv] at e; cases e)
              simp [this]
          | Other st2 =>
              have := hsingle (fun st2 paths e => by rw [hv] at e; cases e)
              simp [this]
        · simp only [hk, henv, or_self, if_false]
    | String s => rfl
    | MappingValue mv => rfl
    | Sequence st vs => rfl
    | Alias st x => rfl
    | Anchor st x y => rfl
    | Other st => rfl
  refine ⟨heq, ?_, ?_⟩
  · intro ParseVolume Stat volumeToken folder wsl n s st st2 hk hs hv hrv
    refine ⟨?_, ?_⟩
    · rw [findSymbols_include_sequence resolveAnchor n st nodes hv, heq]
    · exact scanForLinks_include_sequence resolveAnchor ParseVolume Stat volumeToken folder wsl
        n s st2 nodes hk hs hrv
  · intro e e2 t t2 attr vb va nb na he he2 hk
    exact ⟨includedFiles_env_file resolveAnchor e e2 t t2 attr vb va nb na he he2 hk,
      fun halias hseq =>
        includedPaths_env_file resolveAnchor e e2 t t2 attr vb va nb na he he2 hk halias hseq⟩

/-- The include section `[abc.yml, {path: [a.yaml, b.yaml]}]`: three tokens
from both functions, three Module symbols and three links; and the entry
`env_file: a.env`, whose token is in `includedPaths` only. -/
theorem includedFiles_eq_includedPaths_witness :
    (includedFiles id [plainScalar "abc.yml" 1 5, includePathPair] =
        includedPaths id [plainScalar "abc.yml" 1 5, includePathPair] ∧
      includedFiles id [plainScalar "abc.yml" 1 5, includePathPair] =
        [plainToken "abc.yml" 1 5, plainToken "a.yaml" 3 9, plainToken "b.yaml" 4 9]) ∧
    (findSymbols id "include".toList
          (includeSection
            (Node.Sequence (plainToken "-" 1 3) [plainScalar "abc.yml" 1 5, includePathPair]))
          symbolKinds =
        (includedPaths id [plainScalar "abc.yml" 1 5, includePathPair]).map
          (fun token => createSymbol token protocol.SymbolKind.Module) ∧
      scanForLinks id (fun _ => none) (fun _ => none) id "/proj".toList false
          (includeSection
            (Node.Sequence (plainToken "-" 1 3) [plainScalar "abc.yml" 1 5, includePathPair])) =
        some ((includedPaths id [plainScalar "abc.yml" 1 5, includePathPair]).map
          (createLink "/proj".toList false))) ∧
    (includedFiles id [includeEnvFile] =
        includedFiles id [Node.Mapping (plainToken "env_file" 2 5) []] ∧
      ∃ before after : List Token,
        includedPaths id [includeEnvFile] = before ++ plainToken "a.env" 2 15 :: after ∧
        includedPaths id [Node.Mapping (plainToken "env_file" 2 5) []] = before ++ after) :=
  have hw := includedFiles_eq_includedPaths id [plainScalar "abc.yml" 1 5, includePathPair]
    (by
      intro entry hentry st values hr value hvalue
      simp only [List.mem_cons, List.mem_singleton, List.not_mem_nil, or_false] at hentry
      rcases hentry with e | e
      · subst e
        cases hr
      · subst e
        have hvals : values = [entryOf (plainScalar "path" 2 5)
            (Node.Sequence (plainToken "-" 3 7)
              [plainScalar "a.yaml" 3 9, plainScalar "b.yaml" 4 9])] :=
          ((Node.Mapping.inj hr).2).symm
        subst hvals
        simp only [List.mem_singleton] at hvalue
        subst hvalue
        refine ⟨by decide, fun _ => ⟨?_, ?_⟩⟩
        · intro st2 paths hseq p hp
          have hpaths : paths = [plainScalar "a.yaml" 3 9, plainScalar "b.yaml" 4 9] :=
            ((Node.Sequence.inj hseq).2).symm
          subst hpaths
          simp only [List.mem_cons, List.mem_singleton, List.not_mem_nil, or_false] at hp
          rcases hp with e | e <;> subst e <;> rfl
        · intro _
          rfl)
  have henv := hw.2.2 includeEnvFile (Node.Mapping (plainToken "env_file" 2 5) [])
    (plainToken "env_file" 2 5) (plainToken "env_file" 2 5)
    (entryOf (plainScalar "env_file" 2 5) (plainScalar "a.env" 2 15)) [] [] [] [] rfl rfl rfl
  ⟨⟨hw.1, by decide⟩,
    hw.2.1 (fun _ => none) (fun _ => none) id "/proj".toList false
      (includeSection
        (Node.Sequence (plainToken "-" 1 3) [plainScalar "abc.yml" 1 5, includePathPair]))
      { Token := plainToken "include" 5 1, Value := "include".toList } (plainToken "-" 1 3)
      (plainToken "-" 1 3) rfl rfl rfl rfl,
    henv.1, henv.2 rfl (fun st paths e => by cases e)⟩

/-! ## Aliases -/

mutual
theorem Node.sameText_refl : ∀ n : Node, n.sameText n
  | Node.String s => Node.sameText.string s s rfl rfl
  | Node.Mapping t vs => Node.sameText.mapping t t vs vs rfl (sameTextEntries_refl vs)
  | Node.MappingValue mv => Node.sameText.mappingValue mv mv (MappingValueNode.sameText_entry_refl mv)
  | Node.Sequence t vs => Node.sameText.sequence t t vs vs rfl (sameTextNodes_refl vs)
  | Node.Alias t x => Node.sameText.aliasTo t t x x rfl (Node.sameText_refl x)
  | Node.Anchor t n x =>
      Node.sameText.anchor t t n n x x rfl (Node.sameText_refl n) (Node.sameText_refl x)
  | Node.Other t => Node.sameText.other t t rfl
theorem MappingValueNode.sameText_entry_refl : ∀ n : MappingValueNode, n.sameText n
  | MappingValueNode.mk st k v =>
      MappingValueNode.sameText.mk st st k k v v rfl (Node.sameText_refl k)
        (Node.sameText_refl v)
theorem sameTextNodes_refl : ∀ l : List Node, sameTextNodes l l
  | [] => sameTextNodes.nil
  | x :: xs => sameTextNodes.cons x x xs xs (Node.sameText_refl x) (sameTextNodes_refl xs)
theorem sameTextEntries_refl : ∀ l : List MappingValueNode, sameTextEntries l l
  | [] => sameTextEntries.nil
  | x :: xs =>
      sameTextEntries.cons x x xs xs (MappingValueNode.sameText_entry_refl x) (sameTextEntries_refl xs)
end

/-- The target and tooltip of a file link depend on the text of the token
only. -/
theorem createLink_targets (folder : GoString) (wsl : Bool) (t t2 : Token)
    (h : t.Value = t2.Value) :
    ((createLink folder wsl t).Target, (createLink folder wsl t).Tooltip) =
      ((createLink folder wsl t2).Target, (createLink folder wsl t2).Tooltip) := by
  simp only [createLink, h]

theorem decodedFrom_empty (v url : GoString) : decodedFrom v [] url :=
  ⟨Or.inl rfl, fun h => absurd rfl h⟩

theorem decodedFrom_whole (v rest : GoString) :
    decodedFrom v v ("https://".toList ++ rest) :=
  ⟨Or.inr (Or.inl rfl), fun _ => ⟨rest, rfl⟩⟩

theorem decodedFrom_cut (n tag rest : GoString) (ht : ':' ∉ tag) :
    decodedFrom (n ++ ':' :: tag) n ("https://".toList ++ rest) :=
  ⟨Or.inr (Or.inr ⟨tag, rfl, ht⟩), fun _ => ⟨rest, rfl⟩⟩

theorem dockerHubLink_decodedFrom (v : GoString) :
    ∃ name url : GoString, dockerHubLink v = some (name, url) ∧ decodedFrom v name url := by
  by_cases hc : ':' ∈ v
  · obtain ⟨n, tag, hv, ht⟩ := strings.exists_last ':' v hc
    subst hv
    rw [dockerHubLink_colon n tag ht]
    split
    · exact ⟨n, _, rfl, decodedFrom_cut n tag ("hub.docker.com/r/".toList ++ n) ht⟩
    · exact ⟨n, _, rfl, decodedFrom_cut n tag ("hub.docker.com/_/".toList ++ n) ht⟩
  · rw [dockerHubLink_no_colon v hc]
    split
    · exact ⟨v, _, rfl, decodedFrom_whole v ("hub.docker.com/r/".toList ++ v)⟩
    · exact ⟨v, _, rfl, decodedFrom_whole v ("hub.docker.com/_/".toList ++ v)⟩

theorem nonDockerHub_decodedFrom (v pfx u : GoString) (start : Nat)
    (hpl : pfx.length = 7) (hst : start ≤ 8)
    (hstart : ∀ n rest : GoString, v = n ++ rest → 2 ≤ n.count '/' → start ≤ n.length) :
    ∃ name url : GoString,
      extractNonDockerHubImageLink v pfx ("https://".toList ++ u) start = some (name, url) ∧
        decodedFrom v name url := by
  have h := nonDockerHub_spec v pfx ("https://".toList ++ u) start hpl hst hstart
  by_cases hR : v.length ≤ 8 ∨
      (∃ n tag : GoString, v = n ++ ':' :: tag ∧ ':' ∉ tag ∧ '/' ∈ tag) ∨ v.count '/' < 2
  · exact ⟨[], [], h.1.mpr hR, decodedFrom_empty v []⟩
  · by_cases hc : ':' ∈ v
    · obtain ⟨n, tag, hv, ht⟩ := strings.exists_last ':' v hc
      refine ⟨n, _, (h.2 hR).2 n tag hv ht, ?_⟩
      rw [hv, List.append_assoc]
      exact decodedFrom_cut n tag (u ++ n.drop start) ht
    · refine ⟨v, _, (h.2 hR).1 hc, ?_⟩
      rw [List.append_assoc]
      exact decodedFrom_whole v (u ++ v.drop start)

/-- The `mcr.microsoft.com` branch on any value without a colon: the empty
pair or the whole value. -/
theorem mcr_no_colon_decodedFrom (w : GoString) (hc : ':' ∉ "mcr.microsoft.com".toList ++ w) :
    ∃ name url : GoString,
      extractImageLink ("mcr.microsoft.com".toList ++ w) = some (name, url) ∧
        decodedFrom ("mcr.microsoft.com".toList ++ w) name url := by
  have hpre1 : strings.HasPrefix ("mcr.microsoft.com".toList ++ w) "ghcr.io".toList = false :=
    rfl
  have hpre2 : strings.HasPrefix ("mcr.microsoft.com".toList ++ w)
      "mcr.microsoft.com".toList = true := (strings.HasPrefix_iff _ _).mpr ⟨_, rfl⟩
  have hidx := strings.LastIndex_of_not_mem ':' _ hc
  have hge := strings.LastIndex_ge '/' ("mcr.microsoft.com".toList ++ w)
  have hne1 : ¬ (strings.LastIndex ("mcr.microsoft.com".toList ++ w) ['/'] = -1 - 1) := by
    omega
  by_cases hlong : (("mcr.microsoft.com".toList ++ w).length : Int) ≤ 18
  · refine ⟨[], [], ?_, decodedFrom_empty _ []⟩
    simp only [extractImageLink, hpre1, hpre2, Bool.false_eq_true, if_false, if_true, hlong]
  · have h18 : 18 ≤ ("mcr.microsoft.com".toList ++ w).length := by omega
    have hsl : sliceFrom ("mcr.microsoft.com".toList ++ w) 18 =
        some (("mcr.microsoft.com".toList ++ w).drop 18) :=
      sliceFrom_eq_drop ("mcr.microsoft.com".toList ++ w) 18 h18
    refine ⟨"mcr.microsoft.com".toList ++ w,
      "https://".toList ++ ("mcr.microsoft.com/artifact/mar/".toList ++
        ("mcr.microsoft.com".toList ++ w).drop 18), ?_, decodedFrom_whole _ _⟩
    simp only [extractImageLink, hpre1, hpre2, Bool.false_eq_true, if_false, if_true, hlong,
      colon_toList, slash_toList, hidx, hne1, ne_eq, not_true_eq_false, false_and, or_self,
      hsl, Option.bind]
    rfl

theorem extractImageLink_decodedFrom (v : GoString) :
    ∃ name url : GoString, extractImageLink v = some (name, url) ∧ decodedFrom v name url := by
  by_cases hg : strings.HasPrefix v "ghcr.io".toList = true
  · have he : extractImageLink v =
        extractNonDockerHubImageLink v "ghcr.io".toList "https://".toList 0 := by
      simp only [extractImageLink, hg, if_true]
    rw [he]
    exact nonDockerHub_decodedFrom v _ [] 0 (by decide) (by decide)
      (fun _ _ _ _ => Nat.zero_le _)
  by_cases hm : strings.HasPrefix v "mcr.microsoft.com".toList = true
  · obtain ⟨w, hw⟩ := (strings.HasPrefix_iff v _).mp hm
    by_cases hc : ':' ∈ v
    · obtain ⟨n, tag, hv, ht⟩ := strings.exists_last ':' v hc
      obtain ⟨a, hna, _⟩ := cut_after_start _ w n tag (hw ▸ hv) (by decide)
      by_cases ha : a = []
      · have hn : n = "mcr.microsoft.com".toList := by rw [hna, ha]; simp
        refine ⟨[], [], ?_, decodedFrom_empty v []⟩
        rw [hv, hn]
        exact mcr_port tag ht
      · have hgen := mcr_general a tag ha ht
        rw [← hna, ← hv] at hgen
        by_cases hrej : '/' ∈ tag ∨ n.getLast? = some '/'
        · exact ⟨[], [], hgen.1 hrej, decodedFrom_empty v []⟩
        · refine ⟨n, _, hgen.2 (fun h => hrej (Or.inl h)) (fun h => hrej (Or.inr h)), ?_⟩
          rw [hv]
          exact decodedFrom_cut n tag ("mcr.microsoft.com/artifact/mar/".toList ++ a.drop 1) ht
    · rw [hw]
      exact mcr_no_colon_decodedFrom w (hw ▸ hc)
  by_cases hq : strings.HasPrefix v "quay.io".toList = true
  · obtain ⟨w, hw⟩ := (strings.HasPrefix_iff v _).mp hq
    have hg2 : strings.HasPrefix v "ghcr.io".toList = false := by rw [hw]; rfl
    have hm2 : strings.HasPrefix v "mcr.microsoft.com".toList = false := by rw [hw]; rfl
    have he : extractImageLink v =
        extractNonDockerHubImageLink v "quay.io".toList "https://quay.io/repository/".toList 8 := by
      simp only [extractImageLink, hg2, hm2, hq, Bool.false_eq_true, if_false, if_true]
    rw [he]
    exact nonDockerHub_decodedFrom v _ "quay.io/repository/".toList 8 (by decide) (by decide)
      (fun n rest hv hk2 => quay_start_le w n rest (hw ▸ hv) hk2)
  · have hg2 : strings.HasPrefix v "ghcr.io".toList = false := by simpa using hg
    have hm2 : strings.HasPrefix v "mcr.microsoft.com".toList = false := by simpa using hm
    have hq2 : strings.HasPrefix v "quay.io".toList = false := by simpa using hq
    have he : extractImageLink v = dockerHubLink v := by
      simp only [extractImageLink, hg2, hm2, hq2, Bool.false_eq_true, if_false]
    rw [he]
    exact dockerHubLink_decodedFrom v

theorem extractModelLink_decodedFrom (v : GoString) :
    ∃ name url : GoString, extractModelLink v = some (name, url) ∧ decodedFrom v name url := by
  by_cases hp : strings.HasPrefix v "hf.co".toList = true
  · by_cases hl : (v.length : Int) ≤ 6
    · refine ⟨[], [], ?_, decodedFrom_empty v []⟩
      simp only [extractModelLink, hp, hl, if_true]
    · by_cases hc : ':' ∈ v
      · obtain ⟨n, tag, hv, ht⟩ := strings.exists_last ':' v hc
        have h1 : strings.LastIndex v [':'] = n.length := by
          rw [hv]; exact strings.LastIndex_append_cons ':' n tag ht
        have h0 : ((n.length : Int) = -1) = False := by
          apply eq_false; omega
        have hsl : slice v 0 (n.length : Int) = some n := by
          rw [hv]; exact slice_zero_length_append n _
        refine ⟨n, "https://".toList ++ n, ?_, ?_⟩
        · simp only [extractModelLink, hp, if_true, hl, if_false, colon_toList, h1, h0, hsl,
            Option.bind]
        · rw [hv]
          exact decodedFrom_cut n tag n ht
      · have h1 : strings.LastIndex v [':'] = -1 := strings.LastIndex_of_not_mem ':' v hc
        refine ⟨v, "https://".toList ++ v, ?_, decodedFrom_whole v v⟩
        simp only [extractModelLink, hp, hl, colon_toList, h1, if_true, if_false]
  · have hp2 : strings.HasPrefix v "hf.co".toList = false := by simpa using hp
    have he : extractModelLink v = dockerHubLink v := by
      simp only [extractModelLink, hp2, Bool.false_eq_true, if_false]
    rw [he]
    exact dockerHubLink_decodedFrom v

/-- A name that fits the value is a leading part of it, and no longer. -/
theorem decodedFrom_within (v name url : GoString) (h : decodedFrom v name url) :
    (∃ rest : GoString, v = name ++ rest) ∧ name.length ≤ v.length ∧
      (name ≠ [] → strings.HasPrefix url "https://".toList = true) := by
  obtain ⟨hn, hu⟩ := h
  have hpre : ∃ rest : GoString, v = name ++ rest := by
    rcases hn with e | e | ⟨tag, e, _⟩
    · exact ⟨v, by rw [e]; rfl⟩
    · exact ⟨[], by rw [e]; simp⟩
    · exact ⟨':' :: tag, e⟩
  refine ⟨hpre, ?_, ?_⟩
  · obtain ⟨rest, hr⟩ := hpre
    rw [hr, List.length_append]
    omega
  · intro hne
    obtain ⟨rest, hr⟩ := hu hne
    exact (strings.HasPrefix_iff _ _).mpr ⟨rest, hr⟩

/-- The range of an image link covers at most the value of the scalar. -/
theorem createImageLink_range_within (resolveAnchor : Node → Node)
    (serviceNode : MappingValueNode) (s : StringNode) (link : DocumentLink)
    (hs : stringNode resolveAnchor serviceNode.Value = some s)
    (h : createImageLink resolveAnchor serviceNode = some (some link)) :
    ∃ n : Nat, n ≤ s.Value.length ∧ link.Range = createRange s.Token n := by
  obtain ⟨name, url, he, hd⟩ := extractImageLink_decodedFrom s.Value
  have hlen := (decodedFrom_within s.Value name url hd).2.1
  unfold createImageLink at h
  split at h
  · simp only [hs, he, Option.bind] at h
    split at h
    · have hl := Option.some.inj (Option.some.inj h)
      exact ⟨name.length, hlen, by rw [← hl]⟩
    · simp at h
  · simp at h

/-- The range of a model link covers at most the value of the scalar. -/
theorem createModelLink_range_within (resolveAnchor : Node → Node)
    (serviceNode : MappingValueNode) (s : StringNode) (link : DocumentLink)
    (hs : stringNode resolveAnchor serviceNode.Value = some s)
    (h : createModelLink resolveAnchor serviceNode = some (some link)) :
    ∃ n : Nat, n ≤ s.Value.length ∧ link.Range = createRange s.Token n := by
  obtain ⟨name, url, he, hd⟩ := extractModelLink_decodedFrom s.Value
  have hlen := (decodedFrom_within s.Value name url hd).2.1
  unfold createModelLink at h
  split at h
  · simp only [hs, he, Option.bind] at h
    split at h
    · have hl := Option.some.inj (Option.some.inj h)
      exact ⟨name.length, hlen, by rw [← hl]⟩
    · simp at h
  · simp at h

/-- C21: for every value `v` each decoder returns a name that is a leading
part of `v` (empty, `v` itself, or `v` cut just before its last colon), so no
longer than `v`, and a name that is not empty comes with a URL that begins
with `https://`; the range of a link of `createImageLink` or
`createModelLink` for a scalar with value `v` is `createRange` of its token
with a length of at most the length of `v`. -/
theorem decoded_name_within_value (v : GoString) :
    (∃ name url : GoString, extractImageLink v = some (name, url) ∧
      (name = [] ∨ name = v ∨ ∃ tag : GoString, v = name ++ ':' :: tag ∧ ':' ∉ tag) ∧
      (∃ rest : GoString, v = name ++ rest) ∧ name.length ≤ v.length ∧
      (name ≠ [] → strings.HasPrefix url "https://".toList = true)) ∧
    (∃ name url : GoString, extractModelLink v = some (name, url) ∧
      (name = [] ∨ name = v ∨ ∃ tag : GoString, v = name ++ ':' :: tag ∧ ':' ∉ tag) ∧
      (∃ rest : GoString, v = name ++ rest) ∧ name.length ≤ v.length ∧
      (name ≠ [] → strings.HasPrefix url "https://".toList = true)) ∧
    (∀ (resolveAnchor : Node → Node) (serviceNode : MappingValueNode) (s : StringNode)
      (link : DocumentLink),
      stringNode resolveAnchor serviceNode.Value = some s → s.Value = v →
      createImageLink resolveAnchor serviceNode = some (some link) →
      ∃ n : Nat, n ≤ v.length ∧ link.Range = createRange s.Token n) ∧
    (∀ (resolveAnchor : Node → Node) (serviceNode : MappingValueNode) (s : StringNode)
      (link : DocumentLink),
      stringNode resolveAnchor serviceNode.Value = some s → s.Value = v →
      createModelLink resolveAnchor serviceNode = some (some link) →
      ∃ n : Nat, n ≤ v.length ∧ link.Range = createRange s.Token n) := by
  refine ⟨?_, ?_, ?_, ?_⟩
  · obtain ⟨name, url, he, hd⟩ := extractImageLink_decodedFrom v
    have hw := decodedFrom_within v name url hd
    exact ⟨name, url, he, hd.1, hw.1, hw.2.1, hw.2.2⟩
  · obtain ⟨name, url, he, hd⟩ := extractModelLink_decodedFrom v
    have hw := decodedFrom_within v name url hd
    exact ⟨name, url, he, hd.1, hw.1, hw.2.1, hw.2.2⟩
  · intro resolveAnchor serviceNode s link hs hv h
    rw [← hv]
    exact createImageLink_range_within resolveAnchor serviceNode s link hs h
  · intro resolveAnchor serviceNode s link hs hv h
    rw [← hv]
    exact createModelLink_range_within resolveAnchor serviceNode s link hs h

/-- The attribute `image: nginx:1.25`: the range of its link is
`createRange` of the token with a length of at most 10, the length of the
value. -/
theorem decoded_name_within_value_witness :
    ∃ n : Nat, n ≤ "nginx:1.25".toList.length ∧
      ({ Range := ⟨⟨2, 11⟩, ⟨2, 16⟩⟩
         Target := some "https://hub.docker.com/_/nginx".toList
         Tooltip := some "https://hub.docker.com/_/nginx".toList } : DocumentLink).Range =
        createRange (plainToken "nginx:1.25" 3 12) n :=
  (decoded_name_within_value "nginx:1.25".toList).2.2.1 id
    (entryOf (plainScalar "image" 3 5) (plainScalar "nginx:1.25" 3 12))
    { Token := plainToken "nginx:1.25" 3 12, Value := "nginx:1.25".toList }
    { Range := ⟨⟨2, 11⟩, ⟨2, 16⟩⟩
      Target := some "https://hub.docker.com/_/nginx".toList
      Tooltip := some "https://hub.docker.com/_/nginx".toList }
    rfl rfl (by decide)

/-! ## The two results of the WSL form -/

/-- A text without the byte to replace is left as it is. -/
theorem strings.ReplaceAll_of_not_mem (s : GoString) (o n : Char) (h : o ∉ s) :
    strings.ReplaceAll s [o] [n] = s := by
  rw [strings.ReplaceAll_single]
  induction s with
  | nil => rfl
  | cons c cs ih =>
      have hc : o ≠ c := fun e => h (by simp [e])
      have hcs : o ∉ cs := fun e => h (List.mem_cons_of_mem _ e)
      simp only [List.map_cons, hc, if_false, ih hcs]

/-- For a folder without backslash the native path is the text of the URI
after `file://wsl%24`, with backslashes for slashes, after `\\wsl$`. -/
theorem Concatenate_wsl_same_location (folder file : GoString) (h : '\\' ∉ folder) :
    (Concatenate folder file true).2 =
      "\\\\wsl$".toList ++
        strings.ReplaceAll ((Concatenate folder file true).1.drop "file://wsl%24".toList.length)
          "/".toList "\\".toList := by
  have hr : strings.ReplaceAll folder "\\".toList "/".toList = folder :=
    strings.ReplaceAll_of_not_mem folder '\\' '/' h
  simp only [Concatenate, if_true, hr, List.drop_left]

/-- C22 fails on the code.  For the folder `\Ubuntu\proj` and the file
`../x.env` the URI is `file://wsl%24/Ubuntu/x.env`, which denotes
`\\wsl$\Ubuntu\x.env`, and the native path is `\\wsl$x.env`: the URI joins
the folder with slashes for backslashes, the native path joins the folder as
written, where `..` removes it whole. -/
theorem Concatenate_wsl_results_differ :
    (Concatenate "\\Ubuntu\\proj".toList "../x.env".toList true).1 =
        "file://wsl%24/Ubuntu/x.env".toList ∧
    (Concatenate "\\Ubuntu\\proj".toList "../x.env".toList true).2 = "\\\\wsl$x.env".toList ∧
    "\\\\wsl$".toList ++
        strings.ReplaceAll
          ((Concatenate "\\Ubuntu\\proj".toList "../x.env".toList true).1.drop
            "file://wsl%24".toList.length)
          "/".toList "\\".toList =
      "\\\\wsl$\\Ubuntu\\x.env".toList ∧
    (Concatenate "\\Ubuntu\\proj".toList "../x.env".toList true).2 ≠
      "\\\\wsl$".toList ++
        strings.ReplaceAll
          ((Concatenate "\\Ubuntu\\proj".toList "../x.env".toList true).1.drop
            "file://wsl%24".toList.length)
          "/".toList "\\".toList := by
  decide

end DockerLS
